import Mathlib

/-!
# tftpd: a verification development

A shallow embedding of the TFTP server (`packets.go`, `utils.go`, `session.go`,
`handlers.go`, `filesystem/*.go`) and theorems about it.

Conventions of the embedding.

* A Go `[]byte` and a Go `string` are both a `List Byte`.
* `NetShort` (`uint16`) is a `Nat` below `2 ^ 16`; the places where the source can overflow
  (`ctx.block + 1`, `ctx.block++`) reduce modulo `2 ^ 16` explicitly.
* `int` and `int64` are `Int` (no value of the program comes near `2 ^ 63`).
* A method with a pointer receiver returns the updated receiver.
* A slice expression outside the length of its operand is reported as the
  error value `sliceBounds`; the buffers of the program are made with
  `make([]byte, k)`, so their capacity is their length.
-/

namespace Tftpd

/-! ## Bytes and network shorts (`utils.go`) -/

/-- One octet. -/
abbrev Byte := Fin 256

/-- Contents of a Go `[]byte` or `string`. -/
abbrev Bytes := List Byte

/-! Go `type NetShort uint16`: a value of that type is a `Nat` below `2 ^ 16`
in the embedding; its methods are `NetShort.read` and `NetShort.write`. -/

/-- The conversion `byte(x)`: the low eight bits. -/
def byte (x : Nat) : Byte := ⟨x % 256, Nat.mod_lt _ (by decide)⟩

/-- Errors of the codec: `io.ErrShortBuffer`, `ErrPktMalformed`, `ErrPktUnsupported`,
the two errors `binary.Read` gives on a short reader, and the slice fault. -/
inductive PktError
  | shortBuffer
  | malformed
  | unsupported
  | eof
  | unexpectedEOF
  | sliceBounds
  deriving DecidableEq, Repr

/-- The slice expression `buf[lo:hi]`. -/
def subslice (buf : Bytes) (lo hi : Int) : Except PktError Bytes :=
  if 0 ≤ lo ∧ lo ≤ hi ∧ hi ≤ buf.length then
    .ok ((buf.take hi.toNat).drop lo.toNat)
  else .error .sliceBounds

/-- The slice expression `buf[lo:]`. -/
def sliceFrom (buf : Bytes) (lo : Int) : Except PktError Bytes :=
  subslice buf lo buf.length

/-- `NetShort.read`: `binary.Read(bytes.NewReader(buf), binary.BigEndian, w)`,
which consumes two bytes, most significant first. -/
def NetShort.read : Bytes → Except PktError Nat
  | [] => .error .eof
  | [_] => .error .unexpectedEOF
  | hi :: lo :: _ => .ok (hi.val * 256 + lo.val)

/-- `NetShort.write`: `binary.Write(b, binary.BigEndian, w)` appends
`byte(w >> 8), byte(w)` to the buffer; a `bytes.Buffer` never refuses a write. -/
def NetShort.write (w : Nat) (b : Bytes) : Except PktError Bytes :=
  .ok (b ++ [byte (w / 256), byte w])

/-- The builtin `make([]byte, n)`: `n` zero bytes. -/
def make (n : Nat) : Bytes := List.replicate n 0

/-- `bytes.IndexByte`: index of the first occurrence of `c`, or `-1`. -/
def indexByte : Bytes → Byte → Int
  | [], _ => -1
  | x :: xs, c =>
    if x = c then 0
    else
      let i := indexByte xs c
      if i < 0 then -1 else i + 1

/-- `parseString`: a NUL terminated string from a buffer, with the number of
bytes consumed (0 when there is no terminator). -/
def parseString (buf : Bytes) : Int × Bytes :=
  let i := indexByte buf 0
  if i < 0 then (0, [])
  else (i + 1, buf.take i.toNat)

/-! ## Packets (`packets.go`) -/

@[reducible] def ReadReq : Nat := 1
@[reducible] def WriteReq : Nat := 2
@[reducible] def Data : Nat := 3
@[reducible] def Ack : Nat := 4
@[reducible] def Error : Nat := 5

@[reducible] def Undefined : Nat := 0
@[reducible] def FileNotFound : Nat := 1
@[reducible] def AccessViolation : Nat := 2
@[reducible] def DiskFull : Nat := 3
@[reducible] def IllegalOp : Nat := 4
@[reducible] def UnknownTID : Nat := 5
@[reducible] def FileExists : Nat := 6
@[reducible] def NoSuchUser : Nat := 7

structure DataPacket where
  opcode : Nat
  block : Nat
  data : Bytes
  deriving DecidableEq, Repr

structure AckPacket where
  opcode : Nat
  block : Nat
  deriving DecidableEq, Repr

structure ErrorPacket where
  opcode : Nat
  errcode : Nat
  msg : Bytes
  deriving DecidableEq, Repr

structure reqPacket where
  opcode : Nat
  filepath : Bytes
  mode : Bytes
  deriving DecidableEq, Repr

/-- The `Packet` interface over its five implementations. -/
inductive Packet
  | readReq (p : reqPacket)
  | writeReq (p : reqPacket)
  | data (p : DataPacket)
  | ack (p : AckPacket)
  | error (p : ErrorPacket)
  deriving DecidableEq, Repr

/-- The table `packets`: for an opcode, the packet type to instantiate.
`reflect.New` gives the zero value of that type. -/
def packets (opcode : Nat) : Option Packet :=
  if opcode = ReadReq then some (.readReq ⟨0, [], []⟩)
  else if opcode = WriteReq then some (.writeReq ⟨0, [], []⟩)
  else if opcode = Data then some (.data ⟨0, 0, []⟩)
  else if opcode = Ack then some (.ack ⟨0, 0⟩)
  else if opcode = Error then some (.error ⟨0, 0, []⟩)
  else none

def newData (block : Nat) (data : Bytes) : Packet := .data ⟨Data, block, data⟩
def newAck (block : Nat) : Packet := .ack ⟨Ack, block⟩
def newError (code : Nat) (msg : Bytes) : Packet := .error ⟨Error, code, msg⟩

/-- The method `OpCode` of each implementation. -/
def Packet.OpCode : Packet → Nat
  | .writeReq _ => WriteReq
  | .readReq _ => ReadReq
  | .data _ => Data
  | .ack _ => Ack
  | .error _ => Error

def reqPacket.MarshalBinary (p : reqPacket) : Except PktError Bytes :=
  match NetShort.write p.opcode [] with
  | .error e => .error e
  | .ok b => .ok (b ++ p.filepath ++ [0] ++ p.mode ++ [0])

def reqPacket.UnmarshalBinary (p : reqPacket) (buf : Bytes) : Except PktError reqPacket :=
  let r1 := parseString buf
  let p1 := { p with filepath := r1.2 }
  if r1.1 = 0 then .error .malformed
  else
    match sliceFrom buf r1.1 with
    | .error e => .error e
    | .ok rest =>
      let r2 := parseString rest
      let p2 := { p1 with mode := r2.2 }
      if r2.1 = 0 then .error .malformed
      else .ok p2

def DataPacket.MarshalBinary (p : DataPacket) : Except PktError Bytes :=
  match NetShort.write p.opcode [] with
  | .error e => .error e
  | .ok b =>
    match NetShort.write p.block b with
    | .error e => .error e
    | .ok b => .ok (b ++ p.data)

def DataPacket.UnmarshalBinary (p : DataPacket) (buf : Bytes) : Except PktError DataPacket :=
  match subslice buf 0 2 with
  | .error e => .error e
  | .ok hd =>
    match NetShort.read hd with
    | .error e => .error e
    | .ok w =>
      match sliceFrom buf 2 with
      | .error e => .error e
      | .ok rest => .ok { p with block := w, data := rest }

def AckPacket.MarshalBinary (p : AckPacket) : Except PktError Bytes :=
  match NetShort.write p.opcode [] with
  | .error e => .error e
  | .ok b =>
    match NetShort.write p.block b with
    | .error e => .error e
    | .ok b => .ok b

def AckPacket.UnmarshalBinary (p : AckPacket) (buf : Bytes) : Except PktError AckPacket :=
  match subslice buf 0 2 with
  | .error e => .error e
  | .ok hd =>
    match NetShort.read hd with
    | .error e => .error e
    | .ok w => .ok { p with block := w }

def ErrorPacket.MarshalBinary (p : ErrorPacket) : Except PktError Bytes :=
  match NetShort.write p.opcode [] with
  | .error e => .error e
  | .ok b =>
    match NetShort.write p.errcode b with
    | .error e => .error e
    | .ok b => .ok (b ++ p.msg ++ [0])

def ErrorPacket.UnmarshalBinary (p : ErrorPacket) (buf : Bytes) : Except PktError ErrorPacket :=
  match subslice buf 0 2 with
  | .error e => .error e
  | .ok hd =>
    match NetShort.read hd with
    | .error e => .error e
    | .ok w =>
      match sliceFrom buf 2 with
      | .error e => .error e
      | .ok rest =>
        let r := parseString rest
        let p1 := { p with errcode := w, msg := r.2 }
        if r.1 = 0 then .error .malformed
        else .ok p1

/-- Dynamic dispatch of `MarshalBinary`. -/
def Packet.MarshalBinary : Packet → Except PktError Bytes
  | .readReq p => p.MarshalBinary
  | .writeReq p => p.MarshalBinary
  | .data p => p.MarshalBinary
  | .ack p => p.MarshalBinary
  | .error p => p.MarshalBinary

/-- Dynamic dispatch of `UnmarshalBinary`. -/
def Packet.UnmarshalBinary : Packet → Bytes → Except PktError Packet
  | .readReq p, buf => (p.UnmarshalBinary buf).map .readReq
  | .writeReq p, buf => (p.UnmarshalBinary buf).map .writeReq
  | .data p, buf => (p.UnmarshalBinary buf).map .data
  | .ack p, buf => (p.UnmarshalBinary buf).map .ack
  | .error p, buf => (p.UnmarshalBinary buf).map .error

/-- `newPacket`: a packet from the first `n` bytes of a buffer. -/
def newPacket (buf : Bytes) (n : Int) : Except PktError Packet :=
  if n < 4 then .error .shortBuffer
  else
    match subslice buf 0 2 with
    | .error e => .error e
    | .ok hd =>
      match NetShort.read hd with
      | .error e => .error e
      | .ok opcode =>
        match packets opcode with
        | some p =>
          match subslice buf 2 n with
          | .error e => .error e
          | .ok body => p.UnmarshalBinary body
        | none => .error .unsupported


/-! ## In-memory files (`filesystem/memory_file.go`, `filesystem/filesystem.go`)

A `File` of the program is a pointer to a `MemoryFile` object. The embedding
keeps the objects allocated so far in a list; a handle is the index of its
object, so that two handles are the same file exactly when they are equal. -/

namespace filesystem

/-- The errors `os.ErrInvalid`, `io.EOF` and `os.ErrNotExist`. -/
inductive FileError
  | invalid
  | eof
  | notExist
  deriving DecidableEq, Repr

structure MemoryFile where
  data : Bytes
  name : Bytes
  deriving DecidableEq, Repr

def min (a b : Int) : Int :=
  if a < b then a else b

/-- The builtin `copy(dst, src)`: the number of bytes copied and the new
contents of `dst`. -/
def copy (dst src : Bytes) : Int × Bytes :=
  let n := if src.length < dst.length then src.length else dst.length
  ((n : Nat), src.take n ++ dst.drop n)

/-- `MemoryFile.ReadAt`: the count, the error and the contents of `b` on return. -/
def MemoryFile.ReadAt (f : MemoryFile) (b : Bytes) (off : Int) :
    Int × Option FileError × Bytes :=
  let fsize : Int := f.data.length
  let bsize : Int := b.length
  if off < 0 then (-1, some .invalid, b)
  else if off ≥ fsize then (0, some .eof, b)
  else
    let e := min (off + bsize) fsize
    let r := copy b ((f.data.take e.toNat).drop off.toNat)
    (r.1, none, r.2)

/-- `MemoryFile.WriteAt`: the count, the error and the file on return. The
result is `none` where the source evaluates `f.data[:off]` with `off` beyond the
length of the file: Go then either panics or exposes bytes of the backing array,
depending on a capacity the embedding does not hold. -/
def MemoryFile.WriteAt (f : MemoryFile) (b : Bytes) (off : Int) :
    Option (Int × Option FileError × MemoryFile) :=
  let fsize : Int := f.data.length
  let bsize : Int := b.length
  if off < 0 then some (-1, some .invalid, f)
  else if off + bsize > fsize then
    if off > fsize then none
    else some (bsize, none, { f with data := f.data.take off.toNat ++ b })
  else
    some (bsize, none,
      { f with data := f.data.take off.toNat ++ (b ++ f.data.drop (off + bsize).toNat) })

def MemoryFile.Name (f : MemoryFile) : Bytes := f.name

/-- A `File` value: the index of a `MemoryFile` object. -/
abbrev Handle := Nat

/-- The file objects allocated so far, and the map `files` of the root `fs`. -/
structure Store where
  objs : List MemoryFile
  files : Bytes → Option Handle

/-- `New`: a root with an empty map (and no file object yet). -/
def New : Store := { objs := [], files := fun _ => none }

/-- `Root.CreateMemoryFile`: deletes the entry of `path` and returns a handle
on a newly allocated, empty file object. -/
def Root.CreateMemoryFile (r : Store) (path : Bytes) : Store × Handle :=
  ({ objs := r.objs ++ [{ data := [], name := path }],
     files := fun k => if k = path then none else r.files k },
   r.objs.length)

/-- `Root.Open`. -/
def Root.Open (r : Store) (name : Bytes) : Except FileError Handle :=
  match r.files name with
  | some f => .ok f
  | none => .error .notExist

/-- `Root.Save`: `r.files[file.Name()] = file`; `none` for a handle without
object (a nil interface in the source). -/
def Root.Save (r : Store) (file : Handle) : Option Store :=
  match r.objs[file]? with
  | none => none
  | some f => some { r with files := fun k => if k = f.Name then some file else r.files k }

/-- `file.ReadAt(b, off)` through a handle. -/
def Store.ReadAt (r : Store) (file : Handle) (b : Bytes) (off : Int) :
    Option (Int × Option FileError × Bytes) :=
  match r.objs[file]? with
  | none => none
  | some f => some (f.ReadAt b off)

/-- `file.WriteAt(b, off)` through a handle: the object is updated in place. -/
def Store.WriteAt (r : Store) (file : Handle) (b : Bytes) (off : Int) :
    Option (Int × Option FileError × Store) :=
  match r.objs[file]? with
  | none => none
  | some f =>
    match f.WriteAt b off with
    | none => none
    | some (n, e, f') => some (n, e, { r with objs := r.objs.set file f' })

/-- Contents of the file object behind a handle. -/
def Store.content (r : Store) (file : Handle) : Option Bytes :=
  (r.objs[file]?).map (fun f => f.data)

/-- A sequence of `WriteAt` calls on one handle; a call that fails leaves the
store as it is. -/
def Store.writeAll (r : Store) (file : Handle) : List (Bytes × Int) → Store
  | [] => r
  | (b, off) :: ws =>
    match r.WriteAt file b off with
    | none => Store.writeAll r file ws
    | some (_, _, r') => Store.writeAll r' file ws

end filesystem

open filesystem

/-! ## Library functions used by the handlers -/

/-- `strings.ToLower` on the ASCII letters. (On a string holding a byte above
`0x7F` Go lower-cases rune by rune; the letters of `octet` are the image of
ASCII letters only, so the comparison with `octet` in the handlers is the one
made here.) -/
def toLower (s : Bytes) : Bytes :=
  s.map (fun c => if 65 ≤ c.val ∧ c.val ≤ 90 then byte (c.val + 32) else c)

/-- The bytes of the string `octet`. -/
def octet : Bytes := [111, 99, 116, 101, 116]

/-- The bytes of the string `unsupported mode of operation`. -/
def unsupportedMode : Bytes :=
  [117, 110, 115, 117, 112, 112, 111, 114, 116, 101, 100, 32, 109, 111, 100, 101, 32,
   111, 102, 32, 111, 112, 101, 114, 97, 116, 105, 111, 110]

/-- `path.Base`: the last element of a slash separated path; trailing slashes
are removed first, the empty path gives `.` and a path of slashes gives `/`. -/
def pathBase (path : Bytes) : Bytes :=
  if path = [] then [46]
  else
    let p := (path.reverse.dropWhile (fun c => c = 47)).reverse
    let q := (p.reverse.takeWhile (fun c => c ≠ 47)).reverse
    if q = [] then [47] else q

/-- `net.IP.Equal`: equal as byte strings, or one the 4-byte and the other the
16-byte form of the same IPv4 address. -/
def ipEqual (ip x : Bytes) : Bool :=
  let v4InV6 : Bytes := [0, 0, 0, 0, 0, 0, 0, 0, 0, 0, 255, 255]
  if ip.length = x.length then ip == x
  else if ip.length = 4 ∧ x.length = 16 then x.take 12 == v4InV6 && ip == x.drop 12
  else if ip.length = 16 ∧ x.length = 4 then ip.take 12 == v4InV6 && ip.drop 12 == x
  else false

/-! ## Sessions (`session.go`) -/

structure UDPAddr where
  IP : Bytes
  Port : Int
  deriving DecidableEq, Repr

/-- What the embedding keeps of a `*net.UDPConn`: whether the network accepts
its writes, and whether it has been closed. -/
structure UDPConn where
  up : Bool
  closed : Bool
  deriving DecidableEq, Repr

/-- Whether `conn.WriteToUDP` returns without error; a nil connection returns
an error. -/
def WriteToUDP : Option UDPConn → Bool
  | none => false
  | some c => c.up && !c.closed

/-- `conn.Close()` of the deferred call. -/
def closeConn : Option UDPConn → Option UDPConn
  | none => none
  | some c => some { c with closed := true }

inductive SessionState
  | INI
  | RRQ
  | WRQ
  deriving DecidableEq, Repr

/-- The `uint8` values `0x01`, `0x02`, `0x04` of the states. -/
def SessionState.bits : SessionState → Nat
  | .INI => 0x01
  | .RRQ => 0x02
  | .WRQ => 0x04

/-- The fields of `SessionContext`. The channels `ack` and `timeout` are not
data of the embedding: a token handed to the retransmission task is the action
`confirm`, a closed `timeout` is the event `timeout` of the receive loop. -/
structure SessionContext where
  state : SessionState
  conn : Option UDPConn
  raddr : UDPAddr
  block : Nat
  file : Option Handle
  activeTx : Bool
  lastBlock : Bool
  deriving DecidableEq, Repr

/-- What a session does to the outside, in order. `write dst b once` is one
`WriteToUDP(b, dst)` that succeeded, followed by the start of a retransmission
task when `once` is false; `confirm` is `confirmPreviousPktSent` stopping the
running task. -/
inductive Action
  | write (dst : UDPAddr) (payload : Bytes) (once : Bool)
  | confirm
  deriving DecidableEq, Repr

/-- The state a handler works on: its context, the file store, and the actions
so far. -/
structure St where
  ctx : SessionContext
  store : Store
  log : List Action

/-- How a call ends: it returns a value; or it waits in `ReadFromUDP` when the
events given to the embedding are used up; or the Go run time panics; or a
request handler is entered from inside the receive loop (a session inside a
session, which the guard of `process` excludes once the state has left `INI`). -/
inductive Res (α : Type)
  | ret (val : α) (s : St)
  | blocked (s : St)
  | panic
  | nested

/-- The map `transitionMap`; an opcode without entry gives the zero value. -/
def transitionMap (opcode : Nat) : Nat :=
  if opcode = ReadReq then SessionState.INI.bits
  else if opcode = WriteReq then SessionState.INI.bits
  else if opcode = Data then SessionState.WRQ.bits
  else if opcode = Ack then SessionState.RRQ.bits
  else 0

def newSessionContext (conn : Option UDPConn) (raddr : UDPAddr) : SessionContext :=
  { state := .INI, conn := conn, raddr := raddr, block := 1, file := none,
    activeTx := false, lastBlock := false }

/-- `send`: encode, write one datagram to `ctx.raddr`, and unless `once` start
the retransmission task and set `activeTx`. -/
def send (s : St) (pkt : Packet) (once : Bool) : Bool × St :=
  match pkt.MarshalBinary with
  | .error _ => (false, s)
  | .ok b =>
    if !WriteToUDP s.ctx.conn then (false, s)
    else if once then
      (true, { s with log := s.log ++ [.write s.ctx.raddr b true] })
    else
      (true, { s with ctx := { s.ctx with activeTx := true },
                      log := s.log ++ [.write s.ctx.raddr b false] })

def confirmPreviousPktSent (s : St) : St :=
  if s.ctx.activeTx then
    { s with ctx := { s.ctx with activeTx := false }, log := s.log ++ [.confirm] }
  else s

/-- The type `PacketHandler`. -/
abbrev PacketHandler := St → Packet → Res Bool

/-- `process`, over the table `handlers` (a package variable the source fills
in `init`). -/
def process (handlers : Nat → Option PacketHandler) (s : St) (pkt : Packet) : Res Bool :=
  let opcode := pkt.OpCode
  let t := transitionMap opcode
  if t &&& s.ctx.state.bits = 0 then
    let r := send s (newError IllegalOp []) true
    .ret false r.2
  else
    match handlers opcode with
    | some h => h s pkt
    | none => .panic

/-! ## Handlers (`handlers.go`) -/

def dallyDelay : Nat := 3

def handleData (s : St) (pkt : Packet) : Res Bool :=
  match pkt with
  | .data p =>
    if s.ctx.block ≠ p.block then .ret false s
    else
      let off : Int := ((s.ctx.block : Int) - 1) * 512
      match s.ctx.file with
      | none => .panic
      | some file =>
        match s.store.WriteAt file p.data off with
        | none => .panic
        | some (_, some _, st) => .ret false { s with store := st }
        | some (_, none, st) =>
          let s1 := confirmPreviousPktSent { s with store := st }
          if p.data.length < 512 then
            let r := send s1 (newAck s1.ctx.block) true
            .ret true r.2
          else
            let r := send s1 (newAck s1.ctx.block) false
            if !r.1 then .ret false r.2
            else
              .ret false { r.2 with ctx := { r.2.ctx with block := (r.2.ctx.block + 1) % 65536 } }
  | _ => .panic

/-- `readBlock`: the packet (or nil), the error (or nil) and the state; `none`
when `ctx.file` is nil. -/
def readBlock (s : St) (block : Nat) : Option (Option Packet × Option FileError × St) :=
  let buf : Bytes := make 512
  let off : Int := ((block : Int) - 1) * 512
  match s.ctx.file with
  | none => none
  | some file =>
    match s.store.ReadAt file buf off with
    | none => none
    | some (n, err, buf) =>
      if err.isSome ∧ err ≠ some .eof then some (none, err, s)
      else if err.isSome ∧ s.ctx.lastBlock then some (none, none, s)
      else
        let s1 := if n < 512 then { s with ctx := { s.ctx with lastBlock := true } } else s
        some (some (newData block (buf.take n.toNat)), none, s1)

def getDataBlock (s : St) : Option (Option Packet × Option FileError × St) :=
  readBlock s s.ctx.block

def getNextDataBlock (s : St) : Option (Option Packet × Option FileError × St) :=
  readBlock s ((s.ctx.block + 1) % 65536)

def handleAck (s : St) (pkt : Packet) : Res Bool :=
  match pkt with
  | .ack p =>
    if s.ctx.block ≠ p.block then .ret false s
    else
      match getNextDataBlock s with
      | none => .panic
      | some (_, some _, s1) => .ret false s1
      | some (b, none, s1) =>
        let s2 := confirmPreviousPktSent s1
        match b with
        | none => .ret true s2
        | some b =>
          let r := send s2 b false
          if !r.1 then .ret false r.2
          else
            .ret false { r.2 with ctx := { r.2.ctx with block := (r.2.ctx.block + 1) % 65536 } }
  | _ => .panic

/-- The table `handlers` as the receive loop sees it. The loop is entered from
`handleReadReq` and `handleWriteReq` only, after they have set the state to
`RRQ` or `WRQ`; the guard of `process` then rejects the two request opcodes, and
their entries are never called. They stand here as `nested`. -/
def loopHandlers (opcode : Nat) : Option PacketHandler :=
  if opcode = ReadReq then some (fun _ _ => .nested)
  else if opcode = WriteReq then some (fun _ _ => .nested)
  else if opcode = Data then some handleData
  else if opcode = Ack then some handleAck
  else none

/-- One turn of the receive loop, as the session sees it after `ReadFromUDP` has
returned: the channel `timeout` is found closed; or the read ended on its
deadline; or on another error; or it delivered a datagram from `addr`. -/
inductive Event
  | timeout
  | deadline
  | readErr
  | datagram (addr : UDPAddr) (payload : Bytes)
  deriving DecidableEq, Repr

/-- The error `connection timeout` of `serveReq`. -/
inductive ServeError
  | connTimeout
  deriving DecidableEq, Repr

/-- `conn.ReadFromUDP(buf)` delivering the datagram `d`: the count and the
buffer on return. A datagram of more bytes than the buffer is cut to the buffer;
the bytes of the buffer behind the datagram stay. -/
def ReadFromUDP (buf d : Bytes) : Nat × Bytes :=
  let n := if d.length < buf.length then d.length else buf.length
  (n, d.take n ++ buf.drop n)

/-- The loop of `serveReq` from the state `(buf, i, done)`. -/
def serveLoop (dally : Nat) : List Event → Bytes → Nat → Bool → St → Res (Option ServeError)
  | [], _, i, done, s =>
    if !done || i < dally then .blocked s else .ret none s
  | e :: rest, buf, i, done, s =>
    if !done || i < dally then
      match e with
      | .timeout => .ret (some .connTimeout) s
      | .deadline => serveLoop dally rest buf (if done then i + 1 else i) done s
      | .readErr => serveLoop dally rest buf i done s
      | .datagram addr d =>
        let n := (ReadFromUDP buf d).1
        let buf := (ReadFromUDP buf d).2
        if !ipEqual addr.IP s.ctx.raddr.IP || addr.Port ≠ s.ctx.raddr.Port then
          let r := send s (newError UnknownTID []) true
          serveLoop dally rest buf 0 done r.2
        else
          match newPacket buf (n : Nat) with
          | .error _ => serveLoop dally rest buf 0 done s
          | .ok pkt =>
            match process loopHandlers s pkt with
            | .ret d s1 => serveLoop dally rest buf 0 d s1
            | .blocked s1 => .blocked s1
            | .panic => .panic
            | .nested => .nested
    else .ret none s

/-- `serveReq`: the loop from a buffer of `2 + 2 + 512` bytes, `i = 0` and
`done = false`. -/
def serveReq (dally : Nat) (events : List Event) (s : St) : Res (Option ServeError) :=
  serveLoop dally events (make (2 + 2 + 512)) 0 false s

/-- What the network gives a request handler: the outcome of `net.ListenUDP`
and the turns of its receive loop. -/
structure Env where
  listen : Option UDPConn
  events : List Event

/-- The deferred `ctx.conn.Close()`. -/
def closeSession (s : St) : St :=
  { s with ctx := { s.ctx with conn := closeConn s.ctx.conn } }

def handleWriteReq (env : Env) (s : St) (pkt : Packet) : Res Bool :=
  let s := { s with ctx := { s.ctx with state := .WRQ } }
  match env.listen with
  | none => .ret false { s with ctx := { s.ctx with conn := none } }
  | some c =>
    let s := { s with ctx := { s.ctx with conn := some c } }
    match pkt with
    | .writeReq p =>
      if toLower p.mode ≠ octet then
        let r := send s (newError Undefined unsupportedMode) true
        .ret false (closeSession r.2)
      else
        let f := pathBase p.filepath
        let cr := Root.CreateMemoryFile s.store f
        let s := { s with store := cr.1, ctx := { s.ctx with file := some cr.2 } }
        let r := send s (newAck 0) false
        if !r.1 then .ret false (closeSession r.2)
        else
          match serveReq dallyDelay env.events r.2 with
          | .ret (some _) s1 => .ret false (closeSession s1)
          | .ret none s1 =>
            match s1.ctx.file with
            | none => .panic
            | some file =>
              match Root.Save s1.store file with
              | none => .panic
              | some st => .ret false (closeSession { s1 with store := st })
          | .blocked s1 => .blocked s1
          | .panic => .panic
          | .nested => .nested
    | _ => .panic

def handleReadReq (env : Env) (s : St) (pkt : Packet) : Res Bool :=
  let s := { s with ctx := { s.ctx with state := .RRQ } }
  match env.listen with
  | none => .ret false { s with ctx := { s.ctx with conn := none } }
  | some c =>
    let s := { s with ctx := { s.ctx with conn := some c } }
    match pkt with
    | .readReq p =>
      if toLower p.mode ≠ octet then
        let r := send s (newError Undefined unsupportedMode) true
        .ret false (closeSession r.2)
      else
        let f := pathBase p.filepath
        match Root.Open s.store f with
        | .error _ =>
          let s := { s with ctx := { s.ctx with file := none } }
          let r := send s (newError FileNotFound []) true
          .ret false (closeSession r.2)
        | .ok file =>
          let s := { s with ctx := { s.ctx with file := some file } }
          match getDataBlock s with
          | none => .panic
          | some (_, some _, s1) => .ret false (closeSession s1)
          | some (none, none, _) => .panic
          | some (some b, none, s1) =>
            let r := send s1 b false
            if !r.1 then .ret false (closeSession r.2)
            else
              match serveReq 0 env.events r.2 with
              | .ret (some _) s2 => .ret false (closeSession s2)
              | .ret none s2 => .ret false (closeSession s2)
              | .blocked s2 => .blocked s2
              | .panic => .panic
              | .nested => .nested
    | _ => .panic

/-- The table `handlers` as `init` fills it, for a session served in `env`. -/
def handlers (env : Env) (opcode : Nat) : Option PacketHandler :=
  if opcode = ReadReq then some (handleReadReq env)
  else if opcode = WriteReq then some (handleWriteReq env)
  else if opcode = Data then some handleData
  else if opcode = Ack then some handleAck
  else none

/-- The session task that `main` starts for a decoded request: a new context on
the listening connection, then `process`. -/
def session (env : Env) (conn : Option UDPConn) (raddr : UDPAddr) (store : Store)
    (pkt : Packet) : Res Bool :=
  process (handlers env) { ctx := newSessionContext conn raddr, store := store, log := [] } pkt

/-! ## Notions used to state the codec theorems -/

/-- A packet value as the program builds it: the `opcode` field is the
opcode of the variant, the 16-bit fields are in range, strings hold no NUL. -/
def Packet.wellFormed : Packet → Prop
  | .readReq p => p.opcode = ReadReq ∧ (0 : Byte) ∉ p.filepath ∧ (0 : Byte) ∉ p.mode
  | .writeReq p => p.opcode = WriteReq ∧ (0 : Byte) ∉ p.filepath ∧ (0 : Byte) ∉ p.mode
  | .data p => p.opcode = Data ∧ p.block < 65536
  | .ack p => p.opcode = Ack ∧ p.block < 65536
  | .error p => p.opcode = Error ∧ p.errcode < 65536 ∧ (0 : Byte) ∉ p.msg

/-- Two packets are the same variant with the same path and mode, the same
block number and payload, the same error code and message. -/
def Packet.sameContent : Packet → Packet → Prop
  | .readReq p, .readReq q => p.filepath = q.filepath ∧ p.mode = q.mode
  | .writeReq p, .writeReq q => p.filepath = q.filepath ∧ p.mode = q.mode
  | .data p, .data q => p.block = q.block ∧ p.data = q.data
  | .ack p, .ack q => p.block = q.block
  | .error p, .error q => p.errcode = q.errcode ∧ p.msg = q.msg
  | _, _ => False

/-- The value of the `opcode` field of the packet struct. -/
def Packet.opcodeField : Packet → Nat
  | .readReq p => p.opcode
  | .writeReq p => p.opcode
  | .data p => p.opcode
  | .ack p => p.opcode
  | .error p => p.opcode

/-- The packet with its `opcode` field assigned. -/
def Packet.withOpcode : Packet → Nat → Packet
  | .readReq p, w => .readReq { p with opcode := w }
  | .writeReq p, w => .writeReq { p with opcode := w }
  | .data p, w => .data { p with opcode := w }
  | .ack p, w => .ack { p with opcode := w }
  | .error p, w => .error { p with opcode := w }

/-- Number of bytes the fields of a packet occupy on the wire: a datagram of
this length carries nothing after the last field. -/
def Packet.wireLength : Packet → Nat
  | .readReq p => 2 + p.filepath.length + 1 + p.mode.length + 1
  | .writeReq p => 2 + p.filepath.length + 1 + p.mode.length + 1
  | .data p => 2 + 2 + p.data.length
  | .ack _ => 2 + 2
  | .error p => 2 + 2 + p.msg.length + 1

/-! ## Notions used to state the session theorems -/

/-- The encoding of a packet (`MarshalBinary` returns no error). -/
def Packet.bytes (P : Packet) : Bytes :=
  match P.MarshalBinary with
  | .ok b => b
  | .error _ => []

/-- The state a call ended in, when the embedding holds one. -/
def Res.state {α : Type} : Res α → Option St
  | .ret _ s => some s
  | .blocked s => some s
  | .panic => none
  | .nested => none

/-- The actions up to the end of a call. -/
def Res.log {α : Type} (r : Res α) : List Action :=
  match r.state with
  | some s => s.log
  | none => []

/-- The value a call returned, if it returned. -/
def Res.value {α : Type} : Res α → Option α
  | .ret v _ => some v
  | _ => none

/-- The pairs of the table in section 4.4: opcode and the state it is allowed in. -/
def legalPairs : List (Nat × SessionState) :=
  [(ReadReq, .INI), (WriteReq, .INI), (Data, .WRQ), (Ack, .RRQ)]

/-! ## Sample values for the closed statements -/

/-- A peer address, `10.0.0.1:1234`. -/
def peer : UDPAddr := ⟨[10, 0, 0, 1], 1234⟩

/-- Another host, `10.0.0.2:5555`. -/
def stranger : UDPAddr := ⟨[10, 0, 0, 2], 5555⟩

/-- An open connection whose writes succeed. -/
def goodConn : UDPConn := ⟨true, false⟩

/-- A store holding one unsaved, empty file object named `f`. -/
def wrqStore : Store := (Root.CreateMemoryFile filesystem.New [102]).1

/-- A session in state `WRQ` with `peer`, waiting for block 1 of the file
behind handle 0, the retransmission task of `Ack(0)` running. -/
def wrqSession : St :=
  { ctx := { state := .WRQ, conn := some goodConn, raddr := peer, block := 1,
             file := some 0, activeTx := true, lastBlock := false },
    store := wrqStore, log := [] }

/-! ## Notions used to state the transfer theorems -/

/-- Block `b` (counted from 1) of a byte string cut in pieces of 512 bytes. -/
def chunk (D : Bytes) (b : Nat) : Bytes :=
  (D.drop ((b - 1) * 512)).take 512

/-- Number of DATA blocks of a transfer of `size` bytes: the full blocks and
the closing short one. -/
def blockCount (size : Nat) : Nat := size / 512 + 1

/-- The client's ACKs of blocks `b, b + 1, ..., b + m - 1`, one datagram each. -/
def ackEvents (addr : UDPAddr) (b : Nat) : Nat → List Event
  | 0 => []
  | m + 1 => .datagram addr (newAck b).bytes :: ackEvents addr (b + 1) m

/-- The client's DATA packets for blocks `b, ..., b + m - 1` of `D`. -/
def dataEvents (addr : UDPAddr) (D : Bytes) (b : Nat) : Nat → List Event
  | 0 => []
  | m + 1 => .datagram addr (newData b (chunk D b)).bytes :: dataEvents addr D (b + 1) m

/-- The server's actions when it sends blocks `b, ..., b + m - 1` of `D` after
the first: the previous block is confirmed, the next one written with
retransmission. -/
def dataActions (addr : UDPAddr) (D : Bytes) (b : Nat) : Nat → List Action
  | 0 => []
  | m + 1 =>
    .confirm :: .write addr (newData b (chunk D b)).bytes false :: dataActions addr D (b + 1) m

/-- The server's actions when it accepts the full blocks `b, ..., b + m - 1`:
the previous ACK is confirmed, the next one written with retransmission. -/
def ackActions (addr : UDPAddr) (b : Nat) : Nat → List Action
  | 0 => []
  | m + 1 => .confirm :: .write addr (newAck b).bytes false :: ackActions addr (b + 1) m

/-- The DATA packets among the datagrams a session wrote, in order: block number
and payload of each. -/
def dataBlocks : List Action → List (Nat × Bytes)
  | [] => []
  | .write _ b _ :: rest =>
    match newPacket b (b.length : Nat) with
    | .ok (.data p) => (p.block, p.data) :: dataBlocks rest
    | _ => dataBlocks rest
  | .confirm :: rest => dataBlocks rest

/-- A file of `65534 * 512` zero bytes: 65534 full blocks, closed by an empty
block 65535. -/
def bigFile : Bytes := List.replicate (65534 * 512) 0

/-- A store where `bigFile` is saved under the name `f`. -/
def bigStore : Store :=
  { objs := [{ data := bigFile, name := [102] }],
    files := fun k => if k = [102] then some 0 else none }

/-- The context of an RRQ session that has sent block `b` of a file with
content `D` and waits for its ACK. -/
def rrqCtx (conn : UDPConn) (raddr : UDPAddr) (file : Handle) (D : Bytes) (b : Nat) :
    SessionContext :=
  { state := .RRQ, conn := some conn, raddr := raddr, block := b, file := some file,
    activeTx := true, lastBlock := decide (D.length < b * 512) }

/-- The context of a WRQ session that has acknowledged block `b - 1` and waits
for block `b`. -/
def wrqCtx (conn : UDPConn) (raddr : UDPAddr) (file : Handle) (b : Nat) : SessionContext :=
  { state := .WRQ, conn := some conn, raddr := raddr, block := b, file := some file,
    activeTx := true, lastBlock := false }

/-- A store where the three bytes `hi\n` are saved under the name `f`. -/
def hiStore : Store :=
  { objs := [{ data := [104, 105, 10], name := [102] }],
    files := fun k => if k = [102] then some 0 else none }

/-- A property of the state a call ended in, when the embedding holds one. -/
def Res.holds {α : Type} (P : St → Prop) : Res α → Prop
  | .ret _ s => P s
  | .blocked s => P s
  | .panic => True
  | .nested => True

/-! ## Notions used to state the handler steps -/

/-- The content `D` after `p` was written at offset `off ≤ len D`: the bytes
before `off`, then `p`, then what of `D` lies behind the written range. -/
def overwrite (D : Bytes) (off : Nat) (p : Bytes) : Bytes :=
  D.take off ++ p ++ D.drop (off + p.length)

/-- The `confirm` entry of the log when a retransmission task was running. -/
def confirmed (activeTx : Bool) : List Action :=
  if activeTx then [.confirm] else []

/-- A session in state `WRQ` that waits for block 65535, the 65534 blocks
before it written to the file behind handle 0. -/
def wrapSession : St :=
  { ctx := { state := .WRQ, conn := some goodConn, raddr := peer, block := 65535,
             file := some 0, activeTx := true, lastBlock := false },
    store := { objs := [{ data := bigFile, name := [102] }], files := fun _ => none },
    log := [] }

/-! ## Invariants of the receive loop -/

/-- The packets a session sends from inside its receive loop. -/
def loopPacket (pkt : Packet) : Prop :=
  (∃ k, pkt = newAck k) ∨ (∃ k d, pkt = newData k d)
    ∨ pkt = newError IllegalOp [] ∨ pkt = newError UnknownTID []

/-- A property of the session state that each step the receive loop and its
two packet handlers are made of keeps: a send without retransmission, a send
with retransmission while `activeTx` is false, `confirmPreviousPktSent`, a
`WriteAt` on the file of the session, and the assignments to `block` and
`lastBlock`. -/
structure Stable (I : St → Prop) : Prop where
  once : ∀ s pkt, loopPacket pkt → I s → I (send s pkt true).2
  retx : ∀ s pkt, loopPacket pkt → s.ctx.activeTx = false → I s → I (send s pkt false).2
  conf : ∀ s, I s → I (confirmPreviousPktSent s)
  write : ∀ s file b off n e st, s.ctx.file = some file →
    s.store.WriteAt file b off = some (n, e, st) → I s →
      I { ctx := s.ctx, store := st, log := s.log }
  block : ∀ s b, I s →
    I { ctx := { state := s.ctx.state, conn := s.ctx.conn, raddr := s.ctx.raddr, block := b,
                 file := s.ctx.file, activeTx := s.ctx.activeTx, lastBlock := s.ctx.lastBlock },
        store := s.store, log := s.log }
  last : ∀ s, I s →
    I { ctx := { state := s.ctx.state, conn := s.ctx.conn, raddr := s.ctx.raddr,
                 block := s.ctx.block, file := s.ctx.file, activeTx := s.ctx.activeTx,
                 lastBlock := true },
        store := s.store, log := s.log }

/-- Replays a log from the value `a` of `activeTx` before it: a send without
retransmission leaves the flag, a send with retransmission needs it false and
sets it, a confirmation needs it true and clears it. The result is the flag
after the log, or `none` when an entry of the log does not find the flag as it
needs it. -/
def replay : Bool → List Action → Option Bool
  | a, [] => some a
  | a, .write _ _ true :: rest => replay a rest
  | a, .write _ _ false :: rest => if a then none else replay true rest
  | a, .confirm :: rest => if a then replay false rest else none

/-- The datagram `Error(0, "unsupported mode of operation")`. -/
def modeError : Bytes := 0 :: 5 :: 0 :: 0 :: (unsupportedMode ++ [0])

/-- The bytes of the string `netascii`. -/
def netascii : Bytes := [110, 101, 116, 97, 115, 99, 105, 105]

/-- The session `wrqSession` after it has accepted `DATA(1, "hi")` as the last
block and acknowledged it: it is in its dally period. -/
def doneSession : St :=
  match handleData wrqSession (.data ⟨Data, 1, [104, 105]⟩) with
  | .ret _ s => s
  | _ => wrqSession

/-- A file of `65535 * 512` zero bytes: 65535 full blocks, closed by an empty
block whose number, 65536, is 0 in 16 bits. -/
def hugeFile : Bytes := List.replicate (65535 * 512) 0

/-! ## The retransmission task of `send` (`session.go`) -/

def retransmissionRetries : Nat := 20

/-- What the `select` of the retransmission task finds on one turn: a token
on the channel `ack`, or a tick of the ticker of 500 ms. -/
inductive Turn
  | ack
  | tick
  deriving DecidableEq, Repr

/-- How far a retransmission task got: the datagrams it wrote, with their
destination; how many times it closed the channel `timeout`; and whether it
has returned (it is otherwise waiting in its `select`). -/
structure TaskEnd where
  writes : List (UDPAddr × Bytes)
  closed : Nat
  returned : Bool
  deriving DecidableEq, Repr

/-- The loop `for i := 0; i < retransmissionRetries; i++` of the task that
`send` starts for the encoded bytes `b`, from the counter `i`, over the turns
its `select` is given: on a token the task returns; on a tick it writes `b` to
`ctx.raddr` (an error of the write is only logged) and counts; after the last
turn of the loop it closes `timeout`. -/
def retransmitLoop (raddr : UDPAddr) (b : Bytes) : Nat → List Turn → TaskEnd
  | i, [] =>
    if i < retransmissionRetries then { writes := [], closed := 0, returned := false }
    else { writes := [], closed := 1, returned := true }
  | i, t :: rest =>
    if i < retransmissionRetries then
      match t with
      | .ack => { writes := [], closed := 0, returned := true }
      | .tick =>
        let r := retransmitLoop raddr b (i + 1) rest
        { writes := (raddr, b) :: r.writes, closed := r.closed, returned := r.returned }
    else { writes := [], closed := 1, returned := true }

/-- The task started by `send(ctx, pkt, false)` in the state `s`. -/
def retransmitTask (s : St) (pkt : Packet) (turns : List Turn) : TaskEnd :=
  retransmitLoop s.ctx.raddr pkt.bytes 0 turns

/-! ## `WriteAt` at the level of slices and arrays

The functions above hold the content of a file as a value. The following ones
follow `MemoryFile.WriteAt` on the slices themselves, to tell which array the
content lives in after the call. -/

/-- A Go slice of bytes: its backing array (the index of the array in the
heap), the position of its first element in that array, its length and its
capacity. -/
structure Slice where
  arr : Nat
  lo : Nat
  len : Nat
  cap : Nat
  deriving DecidableEq, Repr

/-- The byte arrays allocated so far. -/
abbrev Heap := List Bytes

/-- The array behind an index. -/
def Heap.array (m : Heap) (a : Nat) : Bytes := (m[a]?).getD []

/-- The elements of a slice. -/
def Slice.bytes (m : Heap) (s : Slice) : Bytes :=
  ((m.array s.arr).drop s.lo).take s.len

/-- The slice lies inside an allocated array. -/
def Slice.valid (m : Heap) (s : Slice) : Prop :=
  s.arr < m.length ∧ s.len ≤ s.cap ∧ s.lo + s.cap ≤ (m.array s.arr).length

/-- The expression `s[:n]`; `none` stands for the run-time panic when `n`
exceeds the capacity. -/
def Slice.upTo (s : Slice) (n : Nat) : Option Slice :=
  if n ≤ s.cap then some { arr := s.arr, lo := s.lo, len := n, cap := s.cap } else none

/-- The expression `s[n:]`; `none` stands for the run-time panic when `n`
exceeds the length. -/
def Slice.startAt (s : Slice) (n : Nat) : Option Slice :=
  if n ≤ s.len then some { arr := s.arr, lo := s.lo + n, len := s.len - n, cap := s.cap - n }
  else none

/-- The built-in `append(s, t...)`. When the capacity of `s` suffices, the
elements of `t` are written behind those of `s` in the array of `s`. Otherwise
a new array is allocated, with `spare n` elements more than the `n` it needs,
and receives the elements of `s` and of `t`. -/
def goAppend (spare : Nat → Nat) (m : Heap) (s t : Slice) : Heap × Slice :=
  let xs := t.bytes m
  if s.len + t.len ≤ s.cap then
    let A := m.array s.arr
    (m.set s.arr (A.take (s.lo + s.len) ++ xs ++ A.drop (s.lo + s.len + xs.length)),
     { arr := s.arr, lo := s.lo, len := s.len + t.len, cap := s.cap })
  else
    let n := s.len + t.len
    (m ++ [s.bytes m ++ xs ++ make (spare n)],
     { arr := m.length, lo := 0, len := n, cap := n + spare n })

/-- `MemoryFile.WriteAt` on the slice `f.data` and the slice `b` of the
caller: the count, the error, the heap and the slice `f.data` on return. -/
def WriteAtSlices (spare : Nat → Nat) (m : Heap) (data b : Slice) (off : Int) :
    Option (Int × Option FileError × Heap × Slice) :=
  let fsize : Int := data.len
  let bsize : Int := b.len
  if off < 0 then some (-1, some .invalid, m, data)
  else if off + bsize > fsize then
    match data.upTo off.toNat with
    | none => none
    | some s =>
      let r := goAppend spare m s b
      some (bsize, none, r.1, r.2)
  else
    match data.upTo off.toNat, data.startAt (off + bsize).toNat with
    | some s, some t =>
      let r1 := goAppend spare m b t
      let r2 := goAppend spare r1.1 s r1.2
      some (bsize, none, r2.1, r2.2)
    | _, _ => none

/-- The expression `s[i:j]`; `none` stands for the run-time panic when not
`i ≤ j ≤ cap(s)`. -/
def Slice.window (s : Slice) (i j : Nat) : Option Slice :=
  if i ≤ j ∧ j ≤ s.cap then
    some { arr := s.arr, lo := s.lo + i, len := j - i, cap := s.cap - i }
  else none

/-- The built-in `copy(dst, src)` on slices: the heap on return and the
number of elements copied. -/
def goCopy (m : Heap) (dst src : Slice) : Heap × Nat :=
  let n := if src.len < dst.len then src.len else dst.len
  let xs := (src.bytes m).take n
  let A := m.array dst.arr
  (m.set dst.arr (A.take dst.lo ++ xs ++ A.drop (dst.lo + xs.length)), n)

/-- `MemoryFile.ReadAt` on the slice `f.data` and the slice `b` of the caller:
the count, the error and the heap on return. -/
def ReadAtSlices (m : Heap) (data b : Slice) (off : Int) :
    Option (Int × Option FileError × Heap) :=
  let fsize : Int := data.len
  let bsize : Int := b.len
  if off < 0 then some (-1, some .invalid, m)
  else if off ≥ fsize then some (0, some .eof, m)
  else
    let e := filesystem.min (off + bsize) fsize
    match data.window off.toNat e.toNat with
    | none => none
    | some src =>
      let r := goCopy m b src
      some ((r.2 : Nat), none, r.1)

/-! ## Lemmas on the codec -/

deriving instance DecidableEq for Except

theorem indexByte_ge (buf : Bytes) (c : Byte) : -1 ≤ indexByte buf c := by
  induction buf with
  | nil => simp [indexByte]
  | cons x xs ih =>
    simp only [indexByte]
    split_ifs <;> omega

theorem indexByte_of_not_mem (buf : Bytes) (c : Byte) (h : c ∉ buf) :
    indexByte buf c = -1 := by
  induction buf with
  | nil => simp [indexByte]
  | cons x xs ih =>
    have hx : x ≠ c := fun e => h (by simp [e])
    have hxs : c ∉ xs := fun e => h (by simp [e])
    simp [indexByte, hx, ih hxs]

theorem indexByte_append (f rest : Bytes) (c : Byte) (h : c ∉ f) :
    indexByte (f ++ c :: rest) c = f.length := by
  induction f with
  | nil => simp [indexByte]
  | cons x xs ih =>
    have hx : x ≠ c := fun e => h (by simp [e])
    have hxs : c ∉ xs := fun e => h (by simp [e])
    have ih2 : indexByte (xs ++ c :: rest) c = xs.length := ih hxs
    show indexByte (x :: (xs ++ c :: rest)) c = _
    simp only [indexByte, hx, if_false, ih2, List.length_cons]
    split_ifs <;> omega

theorem first_split (buf : Bytes) (c : Byte) (h : c ∈ buf) :
    ∃ f rest, buf = f ++ c :: rest ∧ c ∉ f := by
  induction buf with
  | nil => simp at h
  | cons x xs ih =>
    by_cases hx : x = c
    · exact ⟨[], xs, by simp [hx], by simp⟩
    · have hxs : c ∈ xs := by
        rcases List.mem_cons.mp h with e | e
        · exact absurd e.symm hx
        · exact e
      obtain ⟨f, rest, e, hf⟩ := ih hxs
      refine ⟨x :: f, rest, by simp [e], ?_⟩
      intro hm
      rcases List.mem_cons.mp hm with e2 | e2
      · exact hx e2.symm
      · exact hf e2

theorem parseString_of_not_mem (buf : Bytes) (h : (0 : Byte) ∉ buf) :
    parseString buf = (0, []) := by
  simp [parseString, indexByte_of_not_mem buf 0 h]

theorem parseString_append (f rest : Bytes) (h : (0 : Byte) ∉ f) :
    parseString (f ++ 0 :: rest) = ((f.length : Int) + 1, f) := by
  simp [parseString, indexByte_append f rest 0 h]

theorem subslice_ok (buf : Bytes) (lo hi : Int) (h0 : 0 ≤ lo) (h1 : lo ≤ hi)
    (h2 : hi ≤ buf.length) :
    subslice buf lo hi = .ok ((buf.take hi.toNat).drop lo.toNat) := by
  simp [subslice, h0, h1, h2]

theorem sliceFrom_ok (buf : Bytes) (lo : Int) (h0 : 0 ≤ lo) (h1 : lo ≤ buf.length) :
    sliceFrom buf lo = .ok (buf.drop lo.toNat) := by
  simp [sliceFrom, subslice, h0, h1]

theorem read_write_bytes (w : Nat) (hw : w < 65536) (rest : Bytes) :
    NetShort.read (byte (w / 256) :: byte w :: rest) = .ok w := by
  show Except.ok ((w / 256 % 256) * 256 + w % 256) = Except.ok w
  rw [show w / 256 % 256 * 256 + w % 256 = w by omega]

/-- Decoding a request body `f ++ 0 :: m ++ 0 :: t` gives path `f` and mode `m`. -/
theorem reqPacket_unmarshal_ok (p : reqPacket) (f m t : Bytes)
    (hf : (0 : Byte) ∉ f) (hm : (0 : Byte) ∉ m) :
    p.UnmarshalBinary (f ++ 0 :: (m ++ 0 :: t))
      = .ok { opcode := p.opcode, filepath := f, mode := m } := by
  have h1 : sliceFrom (f ++ 0 :: (m ++ 0 :: t)) ((f.length : Int) + 1)
      = .ok (m ++ 0 :: t) := by
    rw [sliceFrom_ok _ _ (by omega) (by simp; omega)]
    have : ((f.length : Int) + 1).toNat = f.length + 1 := by omega
    rw [this]
    simp
  have hne : ¬ ((f.length : Int) + 1 = 0) := by omega
  have hne2 : ¬ ((m.length : Int) + 1 = 0) := by omega
  simp only [reqPacket.UnmarshalBinary, parseString_append f _ hf, hne, if_false, h1,
    parseString_append m t hm, hne2]

theorem reqPacket_unmarshal_noFile (p : reqPacket) (body : Bytes)
    (h : (0 : Byte) ∉ body) : p.UnmarshalBinary body = .error .malformed := by
  simp [reqPacket.UnmarshalBinary, parseString_of_not_mem body h]

theorem reqPacket_unmarshal_noMode (p : reqPacket) (f rest : Bytes)
    (hf : (0 : Byte) ∉ f) (hr : (0 : Byte) ∉ rest) :
    p.UnmarshalBinary (f ++ 0 :: rest) = .error .malformed := by
  have h1 : sliceFrom (f ++ 0 :: rest) ((f.length : Int) + 1) = .ok rest := by
    rw [sliceFrom_ok _ _ (by omega) (by simp)]
    have : ((f.length : Int) + 1).toNat = f.length + 1 := by omega
    rw [this]
    simp
  have hne : ¬ ((f.length : Int) + 1 = 0) := by omega
  simp only [reqPacket.UnmarshalBinary, parseString_append f _ hf, hne, if_false, h1,
    parseString_of_not_mem rest hr, if_true]

/-- `newPacket` on a whole datagram `hi :: lo :: body`. -/
theorem newPacket_whole (hi lo : Byte) (body : Bytes) (n : Int) (h : 2 ≤ body.length)
    (hn : n = body.length + 2) :
    newPacket (hi :: lo :: body) n
      = match packets (hi.val * 256 + lo.val) with
        | some p => p.UnmarshalBinary body
        | none => .error .unsupported := by
  have hlen : ¬ n < 4 := by omega
  have h1 : subslice (hi :: lo :: body) 0 2 = .ok [hi, lo] := by
    rw [subslice_ok _ _ _ (by omega) (by omega) (by simp only [List.length_cons]; omega)]
    rfl
  have h2 : subslice (hi :: lo :: body) 2 n = .ok body := by
    rw [subslice_ok _ _ _ (by omega) (by omega) (by simp only [List.length_cons]; omega)]
    have e : n.toNat = body.length + 2 := by omega
    rw [e]
    simp
  simp only [newPacket, hlen, if_false, h1, NetShort.read, h2]

theorem reqPacket_marshal (p : reqPacket) :
    p.MarshalBinary
      = .ok (byte (p.opcode / 256) :: byte p.opcode :: (p.filepath ++ 0 :: (p.mode ++ [0]))) := by
  simp [reqPacket.MarshalBinary, NetShort.write]

theorem DataPacket_marshal (p : DataPacket) :
    p.MarshalBinary
      = .ok (byte (p.opcode / 256) :: byte p.opcode ::
          byte (p.block / 256) :: byte p.block :: p.data) := by
  simp [DataPacket.MarshalBinary, NetShort.write]

theorem AckPacket_marshal (p : AckPacket) :
    p.MarshalBinary
      = .ok [byte (p.opcode / 256), byte p.opcode, byte (p.block / 256), byte p.block] := by
  simp [AckPacket.MarshalBinary, NetShort.write]

theorem ErrorPacket_marshal (p : ErrorPacket) :
    p.MarshalBinary
      = .ok (byte (p.opcode / 256) :: byte p.opcode ::
          byte (p.errcode / 256) :: byte p.errcode :: (p.msg ++ [0])) := by
  simp [ErrorPacket.MarshalBinary, NetShort.write]

theorem DataPacket_unmarshal (p : DataPacket) (hi lo : Byte) (d : Bytes) :
    p.UnmarshalBinary (hi :: lo :: d)
      = .ok { opcode := p.opcode, block := hi.val * 256 + lo.val, data := d } := by
  have h1 : subslice (hi :: lo :: d) 0 2 = .ok [hi, lo] := by
    rw [subslice_ok _ _ _ (by omega) (by omega) (by simp only [List.length_cons]; omega)]
    rfl
  have h2 : sliceFrom (hi :: lo :: d) 2 = .ok d := by
    rw [sliceFrom_ok _ _ (by omega) (by simp only [List.length_cons]; omega)]
    rfl
  simp only [DataPacket.UnmarshalBinary, h1, h2, NetShort.read]

theorem AckPacket_unmarshal (p : AckPacket) (hi lo : Byte) (d : Bytes) :
    p.UnmarshalBinary (hi :: lo :: d)
      = .ok { opcode := p.opcode, block := hi.val * 256 + lo.val } := by
  have h1 : subslice (hi :: lo :: d) 0 2 = .ok [hi, lo] := by
    rw [subslice_ok _ _ _ (by omega) (by omega) (by simp only [List.length_cons]; omega)]
    rfl
  simp only [AckPacket.UnmarshalBinary, h1, NetShort.read]

theorem ErrorPacket_unmarshal_ok (p : ErrorPacket) (hi lo : Byte) (m t : Bytes)
    (hm : (0 : Byte) ∉ m) :
    p.UnmarshalBinary (hi :: lo :: (m ++ 0 :: t))
      = .ok { opcode := p.opcode, errcode := hi.val * 256 + lo.val, msg := m } := by
  have h1 : subslice (hi :: lo :: (m ++ 0 :: t)) 0 2 = .ok [hi, lo] := by
    rw [subslice_ok _ _ _ (by omega) (by omega) (by simp only [List.length_cons]; omega)]
    rfl
  have h2 : sliceFrom (hi :: lo :: (m ++ 0 :: t)) 2 = .ok (m ++ 0 :: t) := by
    rw [sliceFrom_ok _ _ (by omega) (by simp only [List.length_cons]; omega)]
    rfl
  have hne : ¬ ((m.length : Int) + 1 = 0) := by omega
  simp only [ErrorPacket.UnmarshalBinary, h1, h2, NetShort.read, parseString_append m t hm,
    hne, if_false]

theorem ErrorPacket_unmarshal_noMsg (p : ErrorPacket) (hi lo : Byte) (m : Bytes)
    (hm : (0 : Byte) ∉ m) :
    p.UnmarshalBinary (hi :: lo :: m) = .error .malformed := by
  have h1 : subslice (hi :: lo :: m) 0 2 = .ok [hi, lo] := by
    rw [subslice_ok _ _ _ (by omega) (by omega) (by simp only [List.length_cons]; omega)]
    rfl
  have h2 : sliceFrom (hi :: lo :: m) 2 = .ok m := by
    rw [sliceFrom_ok _ _ (by omega) (by simp only [List.length_cons]; omega)]
    rfl
  simp only [ErrorPacket.UnmarshalBinary, h1, h2, NetShort.read, parseString_of_not_mem m hm,
    if_true]

theorem byte_val (x : Nat) : (byte x).val = x % 256 := rfl

theorem packets_ReadReq : packets ((byte (ReadReq / 256)).val * 256 + (byte ReadReq).val)
    = some (.readReq ⟨0, [], []⟩) := by decide

theorem packets_WriteReq : packets ((byte (WriteReq / 256)).val * 256 + (byte WriteReq).val)
    = some (.writeReq ⟨0, [], []⟩) := by decide

theorem packets_Data : packets ((byte (Data / 256)).val * 256 + (byte Data).val)
    = some (.data ⟨0, 0, []⟩) := by decide

theorem packets_Ack : packets ((byte (Ack / 256)).val * 256 + (byte Ack).val)
    = some (.ack ⟨0, 0⟩) := by decide

theorem packets_Error : packets ((byte (Error / 256)).val * 256 + (byte Error).val)
    = some (.error ⟨0, 0, []⟩) := by decide

/-- Decoding the encoding of a well-formed packet gives the packet back, its
`opcode` field left at zero. -/
theorem decode_encode (P : Packet) (hP : P.wellFormed) :
    ∃ b, P.MarshalBinary = .ok b ∧ newPacket b (b.length : Nat) = .ok (P.withOpcode 0) := by
  cases P with
  | readReq p =>
    obtain ⟨op, f, m⟩ := p
    obtain ⟨h1, hf, hm⟩ := hP
    simp only at h1 hf hm
    subst h1
    refine ⟨_, reqPacket_marshal _, ?_⟩
    dsimp only
    rw [newPacket_whole _ _ _ _
      (by simp only [List.length_cons, List.length_append, List.length_nil]; omega)
      (by simp only [List.length_cons, List.length_append, List.length_nil]; push_cast; omega)]
    simp only [packets_ReadReq, Packet.UnmarshalBinary, reqPacket_unmarshal_ok _ f m [] hf hm]
    rfl
  | writeReq p =>
    obtain ⟨op, f, m⟩ := p
    obtain ⟨h1, hf, hm⟩ := hP
    simp only at h1 hf hm
    subst h1
    refine ⟨_, reqPacket_marshal _, ?_⟩
    dsimp only
    rw [newPacket_whole _ _ _ _
      (by simp only [List.length_cons, List.length_append, List.length_nil]; omega)
      (by simp only [List.length_cons, List.length_append, List.length_nil]; push_cast; omega)]
    simp only [packets_WriteReq, Packet.UnmarshalBinary, reqPacket_unmarshal_ok _ f m [] hf hm]
    rfl
  | data p =>
    obtain ⟨op, blk, d⟩ := p
    obtain ⟨h1, hb⟩ := hP
    simp only at h1 hb
    subst h1
    refine ⟨_, DataPacket_marshal _, ?_⟩
    dsimp only
    rw [newPacket_whole _ _ _ _
      (by simp only [List.length_cons]; omega)
      (by simp only [List.length_cons]; push_cast; omega)]
    simp only [packets_Data]
    simp only [Packet.UnmarshalBinary, DataPacket_unmarshal, byte_val]
    rw [show blk / 256 % 256 * 256 + blk % 256 = blk by omega]
    rfl
  | ack p =>
    obtain ⟨op, blk⟩ := p
    obtain ⟨h1, hb⟩ := hP
    simp only at h1 hb
    subst h1
    refine ⟨_, AckPacket_marshal _, ?_⟩
    dsimp only
    rw [newPacket_whole _ _ _ _
      (by simp only [List.length_cons, List.length_nil]; decide)
      (by simp only [List.length_cons, List.length_nil]; rfl)]
    simp only [packets_Ack]
    simp only [Packet.UnmarshalBinary, AckPacket_unmarshal, byte_val]
    rw [show blk / 256 % 256 * 256 + blk % 256 = blk by omega]
    rfl
  | error p =>
    obtain ⟨op, code, msg⟩ := p
    obtain ⟨h1, hc, hm⟩ := hP
    simp only at h1 hc hm
    subst h1
    refine ⟨_, ErrorPacket_marshal _, ?_⟩
    dsimp only
    rw [newPacket_whole _ _ _ _
      (by simp only [List.length_cons, List.length_append, List.length_nil]; omega)
      (by simp only [List.length_cons, List.length_append, List.length_nil]; push_cast; omega)]
    simp only [packets_Error]
    simp only [Packet.UnmarshalBinary, ErrorPacket_unmarshal_ok _ _ _ msg [] hm,
      byte_val]
    rw [show code / 256 % 256 * 256 + code % 256 = code by omega]
    rfl

/-- C2. Codec round trip: a well-formed packet of any of the five variants is
encoded without error, and `newPacket` applied to the encoding and its length
succeeds with a packet of the same variant holding the same path and mode,
block number and payload, error code and message. (The decoder leaves the
`opcode` field of the struct at its zero value.) -/
theorem codec_round_trip (P : Packet) (hP : P.wellFormed) :
    ∃ b P', P.MarshalBinary = .ok b ∧ newPacket b (b.length : Nat) = .ok P'
      ∧ P.sameContent P' ∧ P'.OpCode = P.OpCode ∧ P' = P.withOpcode 0 := by
  obtain ⟨b, hb, hd⟩ := decode_encode P hP
  refine ⟨b, P.withOpcode 0, hb, hd, ?_, ?_, rfl⟩
  · cases P <;> simp [Packet.sameContent, Packet.withOpcode]
  · cases P <;> rfl

theorem codec_round_trip_witness :
    (newData 7 [1, 2, 3]).wellFormed ∧
    ∃ b P', (newData 7 [1, 2, 3]).MarshalBinary = .ok b ∧ newPacket b (b.length : Nat) = .ok P'
      ∧ (newData 7 [1, 2, 3]).sameContent P' ∧ P'.OpCode = (newData 7 [1, 2, 3]).OpCode
      ∧ P' = (newData 7 [1, 2, 3]).withOpcode 0 :=
  ⟨⟨rfl, by decide⟩, codec_round_trip (newData 7 [1, 2, 3]) ⟨rfl, by decide⟩⟩

/-- Every packet value is encoded without error. -/
theorem marshal_total (P : Packet) : ∃ e, P.MarshalBinary = .ok e := by
  cases P with
  | readReq p => exact ⟨_, reqPacket_marshal p⟩
  | writeReq p => exact ⟨_, reqPacket_marshal p⟩
  | data p => exact ⟨_, DataPacket_marshal p⟩
  | ack p => exact ⟨_, AckPacket_marshal p⟩
  | error p => exact ⟨_, ErrorPacket_marshal p⟩

theorem byte_shift_val (b : Nat) (hb : b < 65536) : (byte (b / 256)).val = b >>> 8 := by
  rw [byte_val, Nat.shiftRight_eq_div_pow]
  omega

theorem byte_and_val (b : Nat) : (byte b).val = b &&& 0xFF := by
  rw [byte_val]
  exact (Nat.and_pow_two_sub_one_eq_mod b 8).symm

/-- C6. Wire layout of the packets the server builds: for 16-bit `b` and `c`,
`newData b d` encodes to `00 03, b >> 8, b & 0xFF` followed by `d` (so to
`2 + 2 + len d` bytes), `newAck b` to `00 04, b >> 8, b & 0xFF`, `newError c m` to
`00 05, c >> 8, c & 0xFF` followed by `m` and one NUL; and `MarshalBinary` returns
no error on any packet. -/
theorem wire_layout (b c : Nat) (hb : b < 65536) (hc : c < 65536) (d m : Bytes) :
    (∃ e, (newData b d).MarshalBinary = .ok e
      ∧ e.map Fin.val = [0x00, 0x03, b >>> 8, b &&& 0xFF] ++ d.map Fin.val
      ∧ e.length = 2 + 2 + d.length) ∧
    (∃ e, (newAck b).MarshalBinary = .ok e
      ∧ e.map Fin.val = [0x00, 0x04, b >>> 8, b &&& 0xFF]) ∧
    (∃ e, (newError c m).MarshalBinary = .ok e
      ∧ e.map Fin.val = [0x00, 0x05, c >>> 8, c &&& 0xFF] ++ m.map Fin.val ++ [0x00]) ∧
    (∀ P : Packet, ∃ e, P.MarshalBinary = .ok e) := by
  refine ⟨⟨_, DataPacket_marshal _, ?_, ?_⟩, ⟨_, AckPacket_marshal _, ?_⟩,
    ⟨_, ErrorPacket_marshal _, ?_⟩, marshal_total⟩
  · simp only [List.map_cons, byte_shift_val b hb, byte_and_val b, List.cons_append,
      List.nil_append]
    rfl
  · simp only [List.length_cons]
    omega
  · simp only [List.map_cons, List.map_nil, byte_shift_val b hb, byte_and_val b]
    rfl
  · simp only [List.map_cons, List.map_append, List.map_nil, byte_shift_val c hc,
      byte_and_val c, List.cons_append, List.nil_append]
    rfl

theorem wire_layout_witness :
    (258 < 65536 ∧ 4 < 65536) ∧
    ((∃ e, (newData 258 [1, 2]).MarshalBinary = .ok e
      ∧ e.map Fin.val = [0x00, 0x03, 258 >>> 8, 258 &&& 0xFF] ++ ([1, 2] : Bytes).map Fin.val
      ∧ e.length = 2 + 2 + ([1, 2] : Bytes).length) ∧
    (∃ e, (newAck 258).MarshalBinary = .ok e
      ∧ e.map Fin.val = [0x00, 0x04, 258 >>> 8, 258 &&& 0xFF]) ∧
    (∃ e, (newError 4 [104, 105]).MarshalBinary = .ok e
      ∧ e.map Fin.val = [0x00, 0x05, 4 >>> 8, 4 &&& 0xFF]
          ++ ([104, 105] : Bytes).map Fin.val ++ [0x00]) ∧
    (∀ P : Packet, ∃ e, P.MarshalBinary = .ok e)) :=
  ⟨by decide, wire_layout 258 4 (by decide) (by decide) [1, 2] [104, 105]⟩

/-! ### Failure cases of the decoder -/

/-- For `4 ≤ n ≤ len buf` the decoder sees the first `n` bytes as two opcode
bytes and a body, and dispatches on the opcode. -/
theorem newPacket_cases (buf : Bytes) (n : Int) (h4 : 4 ≤ n) (hn : n ≤ buf.length) :
    ∃ hi lo body, buf.take n.toNat = hi :: lo :: body ∧ (body.length : Int) + 2 = n
      ∧ buf.getD 0 0 = hi ∧ buf.getD 1 0 = lo
      ∧ newPacket buf n = match packets (hi.val * 256 + lo.val) with
        | some p => p.UnmarshalBinary body
        | none => .error .unsupported := by
  match buf, hn with
  | [], hn => simp at hn; omega
  | [_], hn => simp at hn; omega
  | hi :: lo :: tl, hn =>
    have hk : n.toNat = (n.toNat - 2) + 2 := by omega
    refine ⟨hi, lo, tl.take (n.toNat - 2), ?_, ?_, rfl, rfl, ?_⟩
    · rw [hk]
      simp
    · simp only [List.length_cons] at hn
      simp only [List.length_take]
      omega
    · have hlen : ¬ n < 4 := by omega
      have h1 : subslice (hi :: lo :: tl) 0 2 = .ok [hi, lo] := by
        rw [subslice_ok _ _ _ (by omega) (by omega)
          (by simp only [List.length_cons]; omega)]
        rfl
      have h2 : subslice (hi :: lo :: tl) 2 n = .ok (tl.take (n.toNat - 2)) := by
        rw [subslice_ok _ _ _ (by omega) (by omega) hn]
        rw [hk]
        simp
      simp only [newPacket, hlen, if_false, h1, NetShort.read, h2]

theorem packets_one : packets 1 = some (.readReq ⟨0, [], []⟩) := by decide

theorem packets_two : packets 2 = some (.writeReq ⟨0, [], []⟩) := by decide

theorem packets_three : packets 3 = some (.data ⟨0, 0, []⟩) := by decide

theorem packets_four : packets 4 = some (.ack ⟨0, 0⟩) := by decide

theorem packets_five : packets 5 = some (.error ⟨0, 0, []⟩) := by decide

theorem packets_none (op : Nat) (h : op < 1 ∨ 5 < op) : packets op = none := by
  have h1 : op ≠ 1 := by omega
  have h2 : op ≠ 2 := by omega
  have h3 : op ≠ 3 := by omega
  have h4 : op ≠ 4 := by omega
  have h5 : op ≠ 5 := by omega
  simp only [packets, ReadReq, WriteReq, Data, Ack, Error, h1, h2, h3, h4, h5, if_false]

theorem first_split_unique (f f' r r' : Bytes) (c : Byte) (hf : c ∉ f) (hf' : c ∉ f')
    (h : f ++ c :: r = f' ++ c :: r') : f = f' ∧ r = r' := by
  have h1 := indexByte_append f r c hf
  have h2 := indexByte_append f' r' c hf'
  rw [h] at h1
  have hl : f.length = f'.length := by
    have : (f.length : Int) = f'.length := by rw [← h1, ← h2]
    exact_mod_cast this
  have := List.append_inj h hl
  exact ⟨this.1, by simpa using this.2⟩

/-- A request body either has no NUL, or a first NUL with none after it, or two
NUL terminated fields. -/
theorem body_trichotomy (body : Bytes) :
    (0 : Byte) ∉ body
    ∨ (∃ f rest, body = f ++ 0 :: rest ∧ (0 : Byte) ∉ f ∧ (0 : Byte) ∉ rest)
    ∨ (∃ f m t, body = f ++ 0 :: (m ++ 0 :: t) ∧ (0 : Byte) ∉ f ∧ (0 : Byte) ∉ m) := by
  by_cases h : (0 : Byte) ∈ body
  · obtain ⟨f, rest, e, hf⟩ := first_split body 0 h
    by_cases h2 : (0 : Byte) ∈ rest
    · obtain ⟨m, t, e2, hm⟩ := first_split rest 0 h2
      exact Or.inr (Or.inr ⟨f, m, t, by rw [e, e2], hf, hm⟩)
    · exact Or.inr (Or.inl ⟨f, rest, e, hf, h2⟩)
  · exact Or.inl h

theorem classify_result {R : Except PktError Packet} {S U M : Prop}
    (h1 : S → R = .error .shortBuffer) (h2 : U → R = .error .unsupported)
    (h3 : M → R = .error .malformed) (h4 : ¬ S → ¬ U → ¬ M → ∃ p, R = .ok p) :
    (R = .error .shortBuffer ↔ S) ∧ (R = .error .unsupported ↔ U)
      ∧ (R = .error .malformed ↔ M) ∧ ((∃ p, R = .ok p) ↔ ¬ S ∧ ¬ U ∧ ¬ M)
      ∧ (∀ e, R = .error e → e = .shortBuffer ∨ e = .unsupported ∨ e = .malformed) := by
  by_cases hS : S
  · have := h1 hS
    subst this
    refine ⟨by simp [hS], ?_, ?_, by simp [hS], by simp⟩
    · exact ⟨fun h => by simp at h, fun h => by simpa using h2 h⟩
    · exact ⟨fun h => by simp at h, fun h => by simpa using h3 h⟩
  · by_cases hU : U
    · have := h2 hU
      subst this
      refine ⟨by simp [hS], by simp [hU], ?_, by simp [hU], by simp⟩
      exact ⟨fun h => by simp at h, fun h => by simpa using h3 h⟩
    · by_cases hM : M
      · have := h3 hM
        subst this
        exact ⟨by simp [hS], by simp [hU], by simp [hM], by simp [hM], by simp⟩
      · obtain ⟨p, hp⟩ := h4 hS hU hM
        subst hp
        exact ⟨by simp [hS], by simp [hU], by simp [hM], by simp [hS, hU, hM], by simp⟩

/-- The bytes of the buffer at positions `≥ n` do not influence `newPacket`. -/
theorem newPacket_indep (buf : Bytes) (n : Int) (hn : n ≤ buf.length) :
    ∀ buf' : Bytes, n ≤ buf'.length → buf'.take n.toNat = buf.take n.toNat →
      newPacket buf' n = newPacket buf n := by
  intro buf' hn' ht
  by_cases h4 : n < 4
  · simp [newPacket, h4]
  · obtain ⟨hi, lo, bd, e1, _, _, _, r1⟩ := newPacket_cases buf n (by omega) hn
    obtain ⟨hi', lo', bd', e1', _, _, _, r1'⟩ := newPacket_cases buf' n (by omega) hn'
    rw [ht, e1] at e1'
    injection e1' with a1 a2
    injection a2 with a2 a3
    subst a1 a2 a3
    rw [r1, r1']

/-- C5. Decode failure characterisation: for `n ≤ len buf`, `newPacket buf n`
gives `ShortBuffer` exactly when `n < 4`; `Unsupported` exactly when `4 ≤ n` and
the big-endian opcode of the first two bytes is outside `1..5`; `Malformed`
exactly when `4 ≤ n` and either the packet is an RRQ/WRQ whose body `buf[2:n]`
has no NUL, or a first NUL with no later NUL, or it is an ERROR and `buf[4:n]`
has no NUL; it succeeds in every other case, gives no other error, and is not
influenced by the bytes of `buf` at positions `≥ n`. -/
theorem newPacket_failure_cases (buf : Bytes) (n : Int) (hn : n ≤ buf.length) :
    let op := (buf.getD 0 0).val * 256 + (buf.getD 1 0).val
    let body := (buf.take n.toNat).drop 2
    let noFileNul := (0 : Byte) ∉ body
    let noModeNul := ∃ f rest, body = f ++ 0 :: rest ∧ (0 : Byte) ∉ f ∧ (0 : Byte) ∉ rest
    let noMsgNul := (0 : Byte) ∉ body.drop 2
    let short := n < 4
    let unsupported := 4 ≤ n ∧ (op < 1 ∨ 5 < op)
    let malformed := 4 ≤ n ∧ (((op = ReadReq ∨ op = WriteReq) ∧ (noFileNul ∨ noModeNul))
      ∨ (op = Error ∧ noMsgNul))
    (newPacket buf n = .error .shortBuffer ↔ short) ∧
    (newPacket buf n = .error .unsupported ↔ unsupported) ∧
    (newPacket buf n = .error .malformed ↔ malformed) ∧
    ((∃ p, newPacket buf n = .ok p) ↔ ¬ short ∧ ¬ unsupported ∧ ¬ malformed) ∧
    (∀ e, newPacket buf n = .error e → e = .shortBuffer ∨ e = .unsupported ∨ e = .malformed) ∧
    (∀ buf' : Bytes, n ≤ buf'.length → buf'.take n.toNat = buf.take n.toNat →
      newPacket buf' n = newPacket buf n) := by
  intro op body noFileNul noModeNul noMsgNul short unsupported malformed
  have hindep := newPacket_indep buf n hn
  have hcls : (newPacket buf n = .error .shortBuffer ↔ short) ∧
      (newPacket buf n = .error .unsupported ↔ unsupported) ∧
      (newPacket buf n = .error .malformed ↔ malformed) ∧
      ((∃ p, newPacket buf n = .ok p) ↔ ¬ short ∧ ¬ unsupported ∧ ¬ malformed) ∧
      (∀ e, newPacket buf n = .error e →
        e = .shortBuffer ∨ e = .unsupported ∨ e = .malformed) := by
    apply classify_result
    · intro h
      simp only [short] at h
      simp [newPacket, h]
    · rintro ⟨h4, hop⟩
      obtain ⟨hi, lo, bd, e1, _, g0, g1, r1⟩ := newPacket_cases buf n h4 hn
      have hop' : hi.val * 256 + lo.val < 1 ∨ 5 < hi.val * 256 + lo.val := by
        simpa only [op, g0, g1] using hop
      rw [r1, packets_none _ hop']
    · rintro ⟨h4, hm⟩
      obtain ⟨hi, lo, bd, e1, hl, g0, g1, r1⟩ := newPacket_cases buf n h4 hn
      have hbody : body = bd := by simp only [body, e1, List.drop_succ_cons, List.drop_zero]
      rw [r1]
      rcases hm with ⟨hop, hnul⟩ | ⟨hop, hnul⟩
      · have hnul' : (0 : Byte) ∉ bd
            ∨ ∃ f rest, bd = f ++ 0 :: rest ∧ (0 : Byte) ∉ f ∧ (0 : Byte) ∉ rest := by
          simpa only [noFileNul, noModeNul, hbody] using hnul
        have hU : ∀ p : reqPacket, p.UnmarshalBinary bd = .error .malformed := by
          intro p
          rcases hnul' with h | ⟨f, rest, e, hf, hr⟩
          · exact reqPacket_unmarshal_noFile p bd h
          · rw [e]; exact reqPacket_unmarshal_noMode p f rest hf hr
        rcases hop with hop | hop
        · have hop' : hi.val * 256 + lo.val = 1 := by simpa only [op, g0, g1] using hop
          rw [hop', packets_one]
          simp only [Packet.UnmarshalBinary, hU]
          rfl
        · have hop' : hi.val * 256 + lo.val = 2 := by simpa only [op, g0, g1] using hop
          rw [hop', packets_two]
          simp only [Packet.UnmarshalBinary, hU]
          rfl
      · have hop' : hi.val * 256 + lo.val = 5 := by simpa only [op, g0, g1] using hop
        rw [hop', packets_five]
        match bd, hl, hbody with
        | [], hl, _ => simp at hl; omega
        | [_], hl, _ => simp at hl; omega
        | a :: b :: m, _, hbody =>
          have hm : (0 : Byte) ∉ m := by
            simpa only [noMsgNul, hbody, List.drop_succ_cons, List.drop_zero] using hnul
          simp only [Packet.UnmarshalBinary, ErrorPacket_unmarshal_noMsg _ a b m hm]
          rfl
    · intro hS hU hM
      have h4 : 4 ≤ n := by
        simp only [short] at hS
        omega
      obtain ⟨hi, lo, bd, e1, hl, g0, g1, r1⟩ := newPacket_cases buf n h4 hn
      have hbody : body = bd := by simp only [body, e1, List.drop_succ_cons, List.drop_zero]
      have hopv : op = hi.val * 256 + lo.val := by simp only [op, g0, g1]
      have hrange : 1 ≤ op ∧ op ≤ 5 := by
        by_contra hc
        exact hU ⟨h4, by omega⟩
      rw [r1, ← hopv]
      obtain ⟨a, b, d, hbd⟩ : ∃ a b d, bd = a :: b :: d := by
        match bd, hl with
        | [], hl => simp at hl; omega
        | [_], hl => simp at hl; omega
        | a :: b :: d, _ => exact ⟨a, b, d, rfl⟩
      have hreq : (op = ReadReq ∨ op = WriteReq) → ∃ f m t,
          bd = f ++ 0 :: (m ++ 0 :: t) ∧ (0 : Byte) ∉ f ∧ (0 : Byte) ∉ m := by
        intro hop
        rcases body_trichotomy bd with h | h | h
        · exact absurd ⟨h4, Or.inl ⟨hop, Or.inl (by simpa only [noFileNul, hbody] using h)⟩⟩ hM
        · exact absurd ⟨h4, Or.inl ⟨hop, Or.inr (by simpa only [noModeNul, hbody] using h)⟩⟩ hM
        · exact h
      have h5 : op = 1 ∨ op = 2 ∨ op = 3 ∨ op = 4 ∨ op = 5 := by omega
      rcases h5 with h | h | h | h | h
      · obtain ⟨f, m, t, e, hf, hm⟩ := hreq (Or.inl h)
        rw [h, e, packets_one]
        simp only [Packet.UnmarshalBinary, reqPacket_unmarshal_ok _ f m t hf hm]
        exact ⟨_, rfl⟩
      · obtain ⟨f, m, t, e, hf, hm⟩ := hreq (Or.inr h)
        rw [h, e, packets_two]
        simp only [Packet.UnmarshalBinary, reqPacket_unmarshal_ok _ f m t hf hm]
        exact ⟨_, rfl⟩
      · rw [h, hbd, packets_three]
        simp only [Packet.UnmarshalBinary, DataPacket_unmarshal]
        exact ⟨_, rfl⟩
      · rw [h, hbd, packets_four]
        simp only [Packet.UnmarshalBinary, AckPacket_unmarshal]
        exact ⟨_, rfl⟩
      · have hmem : (0 : Byte) ∈ d := by
          by_contra hc
          apply hM
          refine ⟨h4, Or.inr ⟨h, ?_⟩⟩
          simpa only [noMsgNul, hbody, hbd, List.drop_succ_cons, List.drop_zero] using hc
        obtain ⟨m, t, e, hm⟩ := first_split d 0 hmem
        rw [h, hbd, e, packets_five]
        simp only [Packet.UnmarshalBinary, ErrorPacket_unmarshal_ok _ a b m t hm]
        exact ⟨_, rfl⟩
  exact ⟨hcls.1, hcls.2.1, hcls.2.2.1, hcls.2.2.2.1, hcls.2.2.2.2, hindep⟩

theorem newPacket_failure_cases_witness :
    ((5 : Int) ≤ (([0, 1, 97, 0, 98] : Bytes).length : Nat)) ∧
    newPacket ([0, 1, 97, 0, 98] : Bytes) 5 = .error .malformed :=
  ⟨by decide,
    ((newPacket_failure_cases [0, 1, 97, 0, 98] 5 (by decide)).2.2.1).mpr
      ⟨by decide, Or.inl ⟨Or.inl rfl, Or.inr ⟨[97], [98], rfl, by decide, by decide⟩⟩⟩⟩

/-! ### Encoding a decoded packet -/

theorem opcode_bytes (hi lo : Byte) (k : Nat) (hk : k < 256)
    (h : hi.val * 256 + lo.val = k) : hi = byte (k / 256) ∧ lo = byte k := by
  constructor
  · apply Fin.ext
    rw [byte_val]
    omega
  · apply Fin.ext
    rw [byte_val]
    omega

theorem bytes_of_read (a b : Byte) :
    byte ((a.val * 256 + b.val) / 256) = a ∧ byte (a.val * 256 + b.val) = b := by
  constructor
  · apply Fin.ext
    rw [byte_val]
    omega
  · apply Fin.ext
    rw [byte_val]
    omega

/-- C7, on the code. A datagram that `newPacket` decodes and that carries no
bytes after its last field is not what `MarshalBinary` gives back on the
decoded packet: the decoder leaves the `opcode` field at zero, so the encoding
is the datagram with its two opcode bytes replaced by `00 00`; once the field
is set to the opcode of the variant the encoding is the datagram itself. -/
theorem marshal_of_decoded (d : Bytes) (P : Packet)
    (hd : newPacket d (d.length : Nat) = .ok P) (hlen : P.wireLength = d.length) :
    P.opcodeField = 0 ∧ P.MarshalBinary = .ok (0 :: 0 :: d.drop 2)
      ∧ (P.withOpcode P.OpCode).MarshalBinary = .ok d := by
  have h4 : (4 : Int) ≤ (d.length : Nat) := by
    by_contra hc
    have : ((d.length : Nat) : Int) < 4 := by omega
    simp [newPacket, this] at hd
  obtain ⟨hi, lo, bd, e1, hl, _, _, r1⟩ := newPacket_cases d (d.length : Nat) h4 (le_refl _)
  have hd' : d = hi :: lo :: bd := by
    have : ((d.length : Nat) : Int).toNat = d.length := by omega
    rw [this, List.take_length] at e1
    exact e1
  rw [r1] at hd
  by_cases hout : hi.val * 256 + lo.val < 1 ∨ 5 < hi.val * 256 + lo.val
  · rw [packets_none _ hout] at hd
    cases hd
  have h5 : hi.val * 256 + lo.val = 1 ∨ hi.val * 256 + lo.val = 2 ∨ hi.val * 256 + lo.val = 3
      ∨ hi.val * 256 + lo.val = 4 ∨ hi.val * 256 + lo.val = 5 := by omega
  obtain ⟨a, b, t0, hbd⟩ : ∃ a b t0, bd = a :: b :: t0 := by
    match bd, hl with
    | [], hl => simp at hl; omega
    | [_], hl => simp at hl; omega
    | a :: b :: t0, _ => exact ⟨a, b, t0, rfl⟩
  have hreq : ∀ p0 q : reqPacket, p0.opcode = 0 → p0.UnmarshalBinary bd = .ok q →
      2 + q.filepath.length + 1 + q.mode.length + 1 = d.length →
      q.opcode = 0 ∧ bd = q.filepath ++ 0 :: (q.mode ++ [0]) := by
    intro p0 q hp0 hq hlenq
    rcases body_trichotomy bd with h | ⟨f, rest, e, hf, hr⟩ | ⟨f, m, t, e, hf, hm⟩
    · rw [reqPacket_unmarshal_noFile p0 bd h] at hq
      cases hq
    · rw [e, reqPacket_unmarshal_noMode p0 f rest hf hr] at hq
      cases hq
    · rw [e, reqPacket_unmarshal_ok p0 f m t hf hm] at hq
      injection hq with hq
      subst hq
      have ht : t = [] := by
        apply List.eq_nil_of_length_eq_zero
        have hdl : d.length = bd.length + 2 := by rw [hd']; simp
        rw [e] at hdl
        simp only [List.length_append, List.length_cons] at hdl hlenq
        omega
      subst ht
      exact ⟨hp0, e⟩
  rcases h5 with h | h | h | h | h
  · obtain ⟨ehi, elo⟩ := opcode_bytes hi lo 1 (by decide) h
    rw [h, packets_one] at hd
    simp only [Packet.UnmarshalBinary] at hd
    cases hq : reqPacket.UnmarshalBinary ⟨0, [], []⟩ bd with
    | error e => rw [hq] at hd; cases hd
    | ok q =>
      rw [hq] at hd
      injection hd with hd
      subst hd
      obtain ⟨ho, hb⟩ := hreq _ q rfl hq hlen
      refine ⟨ho, ?_, ?_⟩
      · rw [hd', hb]
        show q.MarshalBinary = _
        rw [reqPacket_marshal, ho]
        rfl
      · rw [hd', hb, ehi, elo]
        show reqPacket.MarshalBinary _ = _
        rw [reqPacket_marshal]
        rfl
  · obtain ⟨ehi, elo⟩ := opcode_bytes hi lo 2 (by decide) h
    rw [h, packets_two] at hd
    simp only [Packet.UnmarshalBinary] at hd
    cases hq : reqPacket.UnmarshalBinary ⟨0, [], []⟩ bd with
    | error e => rw [hq] at hd; cases hd
    | ok q =>
      rw [hq] at hd
      injection hd with hd
      subst hd
      obtain ⟨ho, hb⟩ := hreq _ q rfl hq hlen
      refine ⟨ho, ?_, ?_⟩
      · rw [hd', hb]
        show q.MarshalBinary = _
        rw [reqPacket_marshal, ho]
        rfl
      · rw [hd', hb, ehi, elo]
        show reqPacket.MarshalBinary _ = _
        rw [reqPacket_marshal]
        rfl
  · obtain ⟨ehi, elo⟩ := opcode_bytes hi lo 3 (by decide) h
    rw [h, packets_three, hbd] at hd
    simp only [Packet.UnmarshalBinary, DataPacket_unmarshal] at hd
    injection hd with hd
    subst hd
    refine ⟨rfl, ?_, ?_⟩
    · rw [hd', hbd]
      show DataPacket.MarshalBinary _ = _
      rw [DataPacket_marshal]
      dsimp only
      rw [(bytes_of_read a b).1, (bytes_of_read a b).2]
      rfl
    · rw [hd', hbd, ehi, elo]
      show DataPacket.MarshalBinary _ = _
      rw [DataPacket_marshal]
      dsimp only
      rw [(bytes_of_read a b).1, (bytes_of_read a b).2]
      rfl
  · obtain ⟨ehi, elo⟩ := opcode_bytes hi lo 4 (by decide) h
    rw [h, packets_four, hbd] at hd
    simp only [Packet.UnmarshalBinary, AckPacket_unmarshal] at hd
    injection hd with hd
    subst hd
    have ht : t0 = [] := by
      apply List.eq_nil_of_length_eq_zero
      have hdl : d.length = bd.length + 2 := by rw [hd']; simp
      rw [hbd] at hdl
      simp only [List.length_cons] at hdl
      simp only [Packet.wireLength] at hlen
      omega
    subst ht
    refine ⟨rfl, ?_, ?_⟩
    · rw [hd', hbd]
      show AckPacket.MarshalBinary _ = _
      rw [AckPacket_marshal]
      dsimp only
      rw [(bytes_of_read a b).1, (bytes_of_read a b).2]
      rfl
    · rw [hd', hbd, ehi, elo]
      show AckPacket.MarshalBinary _ = _
      rw [AckPacket_marshal]
      dsimp only
      rw [(bytes_of_read a b).1, (bytes_of_read a b).2]
      rfl
  · obtain ⟨ehi, elo⟩ := opcode_bytes hi lo 5 (by decide) h
    rw [h, packets_five, hbd] at hd
    simp only [Packet.UnmarshalBinary] at hd
    by_cases hmem : (0 : Byte) ∈ t0
    · obtain ⟨m, t, e, hm⟩ := first_split t0 0 hmem
      rw [e, ErrorPacket_unmarshal_ok _ a b m t hm] at hd
      injection hd with hd
      subst hd
      have ht : t = [] := by
        apply List.eq_nil_of_length_eq_zero
        have hdl : d.length = bd.length + 2 := by rw [hd']; simp
        rw [hbd, e] at hdl
        simp only [List.length_cons, List.length_append] at hdl
        simp only [Packet.wireLength] at hlen
        omega
      subst ht
      refine ⟨rfl, ?_, ?_⟩
      · rw [hd', hbd, e]
        show ErrorPacket.MarshalBinary _ = _
        rw [ErrorPacket_marshal]
        dsimp only
        rw [(bytes_of_read a b).1, (bytes_of_read a b).2]
        rfl
      · rw [hd', hbd, e, ehi, elo]
        show ErrorPacket.MarshalBinary _ = _
        rw [ErrorPacket_marshal]
        dsimp only
        rw [(bytes_of_read a b).1, (bytes_of_read a b).2]
        rfl
    · rw [ErrorPacket_unmarshal_noMsg _ a b t0 hmem] at hd
      cases hd

theorem marshal_of_decoded_witness :
    (newPacket ([0, 4, 0, 1] : Bytes) ((([0, 4, 0, 1] : Bytes).length : Nat) : Int)
        = .ok (.ack ⟨0, 1⟩)
      ∧ (Packet.ack ⟨0, 1⟩).wireLength = ([0, 4, 0, 1] : Bytes).length) ∧
    ((Packet.ack ⟨0, 1⟩).opcodeField = 0
      ∧ (Packet.ack ⟨0, 1⟩).MarshalBinary = .ok (0 :: 0 :: ([0, 4, 0, 1] : Bytes).drop 2)
      ∧ ((Packet.ack ⟨0, 1⟩).withOpcode (Packet.ack ⟨0, 1⟩).OpCode).MarshalBinary
          = .ok [0, 4, 0, 1]) :=
  ⟨⟨by decide, rfl⟩, marshal_of_decoded [0, 4, 0, 1] (.ack ⟨0, 1⟩) (by decide) rfl⟩

/-- C7 as stated fails: the 4-byte ACK datagram `00 04 00 01` decodes, carries
nothing after its block number, and the decoded packet encodes to
`00 00 00 01`. -/
theorem marshal_of_decoded_counterexample :
    newPacket ([0, 4, 0, 1] : Bytes) 4 = .ok (.ack ⟨0, 1⟩)
      ∧ (Packet.ack ⟨0, 1⟩).wireLength = 4
      ∧ (Packet.ack ⟨0, 1⟩).MarshalBinary = .ok [0, 0, 0, 1]
      ∧ (Packet.ack ⟨0, 1⟩).MarshalBinary ≠ .ok [0, 4, 0, 1] := by
  decide

/-! ## The transition guard -/

theorem send_once (s : St) (pkt : Packet) (hw : WriteToUDP s.ctx.conn = true) :
    send s pkt true = (true, { s with log := s.log ++ [.write s.ctx.raddr pkt.bytes true] }) := by
  obtain ⟨b, hb⟩ := marshal_total pkt
  simp only [send, Packet.bytes, hb, hw]
  rfl

theorem send_retransmit (s : St) (pkt : Packet) (hw : WriteToUDP s.ctx.conn = true) :
    send s pkt false
      = (true, { ctx := { s.ctx with activeTx := true }, store := s.store,
                 log := s.log ++ [.write s.ctx.raddr pkt.bytes false] }) := by
  obtain ⟨b, hb⟩ := marshal_total pkt
  simp only [send, Packet.bytes, hb, hw]
  rfl

theorem guard_iff (op : Nat) (st : SessionState) :
    transitionMap op &&& st.bits = 0 ↔ (op, st) ∉ legalPairs := by
  by_cases h1 : op = 1
  · subst h1; cases st <;> decide
  by_cases h2 : op = 2
  · subst h2; cases st <;> decide
  by_cases h3 : op = 3
  · subst h3; cases st <;> decide
  by_cases h4 : op = 4
  · subst h4; cases st <;> decide
  have ht : transitionMap op = 0 := by
    simp only [transitionMap, ReadReq, WriteReq, Data, Ack, h1, h2, h3, h4, if_false]
  have hl : (op, st) ∉ legalPairs := by
    simp only [legalPairs, ReadReq, WriteReq, Data, Ack, List.mem_cons, Prod.mk.injEq,
      List.mem_nil_iff, h1, h2, h3, h4, false_and, or_self, not_false_eq_true]
  simp only [ht, hl, not_false_eq_true, iff_true]
  exact Nat.zero_and _

/-- A packet the guard rejects: one `Error(IllegalOp)` to the peer, sent once,
nothing else changed, no handler called. -/
theorem process_reject (handlers : Nat → Option PacketHandler) (s : St) (pkt : Packet)
    (hw : WriteToUDP s.ctx.conn = true) (hl : (pkt.OpCode, s.ctx.state) ∉ legalPairs) :
    process handlers s pkt
      = .ret false { s with log := s.log ++ [.write s.ctx.raddr [0, 5, 0, 4, 0] true] } := by
  have hg := (guard_iff _ _).mpr hl
  simp only [process, hg, if_true, send_once s _ hw]
  rfl

/-- A packet the guard accepts goes to the handler of its opcode. -/
theorem process_accept (handlers : Nat → Option PacketHandler) (s : St) (pkt : Packet)
    (hl : (pkt.OpCode, s.ctx.state) ∈ legalPairs) :
    process handlers s pkt = match handlers pkt.OpCode with
      | some h => h s pkt
      | none => .panic := by
  have hg : ¬ (transitionMap pkt.OpCode &&& s.ctx.state.bits = 0) :=
    fun h => (guard_iff _ _).mp h hl
  simp only [process, hg, if_false]

/-- C8. Transition guard: the guard of `process` rejects a packet exactly when
the pair of its opcode and the state of the session is none of (RRQ, INI),
(WRQ, INI), (DATA, WRQ), (ACK, RRQ). A rejected packet is answered by one
datagram to the peer, `Error` with code 4 and an empty message (the bytes
`00 05 00 04 00`), sent once without retransmission task; the context and the
store are as before, no handler of the table is called (the result is the same
for every table), and `process` returns false. An accepted packet goes to the
handler of its opcode. An ERROR packet is rejected in every state. -/
theorem transition_guard (handlers : Nat → Option PacketHandler) (s : St) (pkt : Packet)
    (hw : WriteToUDP s.ctx.conn = true) :
    (transitionMap pkt.OpCode &&& s.ctx.state.bits = 0 ↔ (pkt.OpCode, s.ctx.state) ∉ legalPairs) ∧
    ((pkt.OpCode, s.ctx.state) ∉ legalPairs →
      process handlers s pkt
        = .ret false { s with log := s.log ++ [.write s.ctx.raddr [0, 5, 0, 4, 0] true] }) ∧
    ((pkt.OpCode, s.ctx.state) ∈ legalPairs →
      process handlers s pkt = match handlers pkt.OpCode with
        | some h => h s pkt
        | none => .panic) ∧
    (pkt.OpCode = Error → (pkt.OpCode, s.ctx.state) ∉ legalPairs) ∧
    (newError IllegalOp []).MarshalBinary = .ok [0, 5, 0, 4, 0] := by
  refine ⟨guard_iff _ _, process_reject handlers s pkt hw, process_accept handlers s pkt, ?_,
    by decide⟩
  intro he
  rw [he]
  cases s.ctx.state <;> decide

theorem transition_guard_witness :
    WriteToUDP wrqSession.ctx.conn = true ∧
      process loopHandlers wrqSession (.ack ⟨0, 1⟩)
        = .ret false { wrqSession with
            log := wrqSession.log ++ [.write wrqSession.ctx.raddr [0, 5, 0, 4, 0] true] } :=
  ⟨rfl, (transition_guard loopHandlers wrqSession (.ack ⟨0, 1⟩) rfl).2.1 (by decide)⟩

/-! ## The receive loop, one turn at a time -/

theorem serveLoop_stop (dally : Nat) (evs : List Event) (buf : Bytes) (i : Nat) (s : St)
    (hi : dally ≤ i) : serveLoop dally evs buf i true s = .ret none s := by
  have : ¬ i < dally := by omega
  cases evs <;> simp [serveLoop, this]

theorem serveLoop_deadline (dally : Nat) (rest : List Event) (buf : Bytes) (i : Nat)
    (done : Bool) (s : St) (hc : done = false ∨ i < dally) :
    serveLoop dally (.deadline :: rest) buf i done s
      = serveLoop dally rest buf (if done then i + 1 else i) done s := by
  rcases hc with h | h <;> simp [serveLoop, h]

/-- A datagram from another address than `ctx.raddr`: one `Error(UnknownTID)` is
written, to `ctx.raddr`, and the loop goes on with the same `done`. -/
theorem serveLoop_foreign (dally : Nat) (rest : List Event) (buf : Bytes) (i : Nat)
    (done : Bool) (s : St) (addr : UDPAddr) (d : Bytes)
    (hc : done = false ∨ i < dally)
    (hf : ipEqual addr.IP s.ctx.raddr.IP = false ∨ addr.Port ≠ s.ctx.raddr.Port)
    (hw : WriteToUDP s.ctx.conn = true) :
    serveLoop dally (.datagram addr d :: rest) buf i done s
      = serveLoop dally rest (ReadFromUDP buf d).2 0 done
          { s with log := s.log ++ [.write s.ctx.raddr [0, 5, 0, 5, 0] true] } := by
  have hb : (newError UnknownTID []).bytes = [0, 5, 0, 5, 0] := by decide
  have hcond : (!done || decide (i < dally)) = true := by
    rcases hc with h | h <;> simp [h]
  have hfor : (!ipEqual addr.IP s.ctx.raddr.IP || decide (addr.Port ≠ s.ctx.raddr.Port))
      = true := by
    rcases hf with h | h <;> simp [h]
  rw [serveLoop]
  simp only [hcond, if_true, hfor, send_once s _ hw, hb]

/-- A datagram from the peer that decodes to a packet: the loop hands it to
`process` and goes on with the value returned as `done`. -/
theorem serveLoop_process (dally : Nat) (rest : List Event) (buf : Bytes) (i : Nat)
    (done : Bool) (s : St) (addr : UDPAddr) (d : Bytes) (pkt : Packet)
    (hc : done = false ∨ i < dally)
    (hip : ipEqual addr.IP s.ctx.raddr.IP = true) (hport : addr.Port = s.ctx.raddr.Port)
    (hdec : newPacket (ReadFromUDP buf d).2 ((ReadFromUDP buf d).1 : Nat) = .ok pkt) :
    serveLoop dally (.datagram addr d :: rest) buf i done s
      = match process loopHandlers s pkt with
        | .ret v s1 => serveLoop dally rest (ReadFromUDP buf d).2 0 v s1
        | .blocked s1 => .blocked s1
        | .panic => .panic
        | .nested => .nested := by
  have hcond : (!done || decide (i < dally)) = true := by
    rcases hc with h | h <;> simp [h]
  have hfor : (!ipEqual addr.IP s.ctx.raddr.IP || decide (addr.Port ≠ s.ctx.raddr.Port))
      = false := by
    simp [hip, hport]
  rw [serveLoop]
  simp only [hcond, if_true, hfor, hdec]
  rfl

/-- A datagram from the peer that does not decode is dropped. -/
theorem serveLoop_undecoded (dally : Nat) (rest : List Event) (buf : Bytes) (i : Nat)
    (done : Bool) (s : St) (addr : UDPAddr) (d : Bytes) (e : PktError)
    (hc : done = false ∨ i < dally)
    (hip : ipEqual addr.IP s.ctx.raddr.IP = true) (hport : addr.Port = s.ctx.raddr.Port)
    (hdec : newPacket (ReadFromUDP buf d).2 ((ReadFromUDP buf d).1 : Nat) = .error e) :
    serveLoop dally (.datagram addr d :: rest) buf i done s
      = serveLoop dally rest (ReadFromUDP buf d).2 0 done s := by
  have hcond : (!done || decide (i < dally)) = true := by
    rcases hc with h | h <;> simp [h]
  have hfor : (!ipEqual addr.IP s.ctx.raddr.IP || decide (addr.Port ≠ s.ctx.raddr.Port))
      = false := by
    simp [hip, hport]
  rw [serveLoop]
  simp only [hcond, if_true, hfor, hdec]
  rfl

/-- C3, on the code. In a session with `peer` waiting for block 1, a DATA
datagram from `stranger` leaves the context and the store as they are and is
not processed, and the one `Error(UnknownTID)` datagram (`00 05 00 05 00`) it
triggers is addressed to `peer`, not to `stranger`. -/
theorem unknown_tid_reply_to_peer :
    serveReq dallyDelay [.datagram stranger [0, 3, 0, 1, 104, 105]] wrqSession
      = .blocked { wrqSession with log := [.write peer [0, 5, 0, 5, 0] true] }
    ∧ stranger ≠ peer
    ∧ (ipEqual stranger.IP wrqSession.ctx.raddr.IP = false
        ∨ stranger.Port ≠ wrqSession.ctx.raddr.Port) := by
  refine ⟨?_, by decide, Or.inl (by decide)⟩
  rw [serveReq, serveLoop_foreign dallyDelay [] _ 0 false wrqSession stranger _ (Or.inl rfl)
    (Or.inl (by decide)) rfl]
  rfl

/-- C9, on the code. A packet whose opcode is not allowed in the state of the
session is answered by one `Error(IllegalOp)` (`00 05 00 04 00`), sent once, and
`process` returns false. For the packet that opens a session (state `INI`) the
session task ends there. Inside the receive loop of a transfer that is not
complete (`done` is false) the packet does not end the session: the loop goes
on to the next datagram, the transfer still not complete. -/
theorem illegal_op_reply (s : St) (pkt : Packet)
    (hw : WriteToUDP s.ctx.conn = true) (hill : (pkt.OpCode, s.ctx.state) ∉ legalPairs) :
    (∀ env : Env, s.ctx.state = .INI →
      process (handlers env) s pkt
        = .ret false { s with log := s.log ++ [.write s.ctx.raddr [0, 5, 0, 4, 0] true] }) ∧
    (∀ (dally : Nat) (rest : List Event) (buf : Bytes) (i : Nat)
        (addr : UDPAddr) (d : Bytes),
      ipEqual addr.IP s.ctx.raddr.IP = true → addr.Port = s.ctx.raddr.Port →
      newPacket (ReadFromUDP buf d).2 ((ReadFromUDP buf d).1 : Nat) = .ok pkt →
      serveLoop dally (.datagram addr d :: rest) buf i false s
        = serveLoop dally rest (ReadFromUDP buf d).2 0 false
            { s with log := s.log ++ [.write s.ctx.raddr [0, 5, 0, 4, 0] true] }) := by
  constructor
  · intro env _
    exact process_reject (handlers env) s pkt hw hill
  · intro dally rest buf i addr d hip hport hdec
    rw [serveLoop_process dally rest buf i false s addr d pkt (Or.inl rfl) hip hport hdec,
      process_reject loopHandlers s pkt hw hill]

theorem illegal_op_reply_witness :
    (WriteToUDP wrqSession.ctx.conn = true
      ∧ ((Packet.error ⟨0, 0, []⟩).OpCode, wrqSession.ctx.state) ∉ legalPairs) ∧
    serveLoop dallyDelay [.datagram peer [0, 5, 0, 0, 0], .deadline] [0, 0, 0, 0, 0] 0 false
        wrqSession
      = serveLoop dallyDelay [.deadline] (ReadFromUDP [0, 0, 0, 0, 0] [0, 5, 0, 0, 0]).2 0 false
          { wrqSession with
            log := wrqSession.log ++ [.write wrqSession.ctx.raddr [0, 5, 0, 4, 0] true] } :=
  ⟨⟨rfl, by decide⟩,
    (illegal_op_reply wrqSession (.error ⟨0, 0, []⟩) rfl (by decide)).2 dallyDelay [.deadline]
      [0, 0, 0, 0, 0] 0 peer [0, 5, 0, 0, 0] (by decide) rfl (by decide)⟩

set_option maxRecDepth 100000 in
/-- C9 as stated fails: in a WRQ session waiting for block 1, an ERROR packet
from the peer is answered by `Error(IllegalOp)` and the session goes on: the
DATA(1, "hi") that follows is written to the file and acknowledged, and the loop
returns without error after the dally period. -/
theorem illegal_op_counterexample :
    (serveReq dallyDelay
        [.datagram peer [0, 5, 0, 0, 0], .datagram peer [0, 3, 0, 1, 104, 105],
         .deadline, .deadline, .deadline] wrqSession).log
      = [.write peer [0, 5, 0, 4, 0] true, .confirm, .write peer [0, 4, 0, 1] true]
    ∧ (serveReq dallyDelay
        [.datagram peer [0, 5, 0, 0, 0], .datagram peer [0, 3, 0, 1, 104, 105],
         .deadline, .deadline, .deadline] wrqSession).value = some none
    ∧ ((serveReq dallyDelay
        [.datagram peer [0, 5, 0, 0, 0], .datagram peer [0, 3, 0, 1, 104, 105],
         .deadline, .deadline, .deadline] wrqSession).state.bind
          (fun s => s.store.content 0)) = some [104, 105] := by
  decide

/-! ## Files: reading and writing a block -/

theorem chunk_length_full (D : Bytes) (b : Nat) (hb : 1 ≤ b) (h : b * 512 ≤ D.length) :
    (chunk D b).length = 512 := by
  simp only [chunk, List.length_take, List.length_drop]
  have : (b - 1) * 512 + 512 = b * 512 := by
    obtain ⟨k, rfl⟩ : ∃ k, b = k + 1 := ⟨b - 1, by omega⟩
    simp only [Nat.add_sub_cancel]
    ring
  omega

theorem chunk_length_last (D : Bytes) :
    (chunk D (blockCount D.length)).length = D.length % 512 := by
  simp only [chunk, blockCount, List.length_take, List.length_drop, Nat.add_sub_cancel]
  omega

theorem copy_fits (dst src : Bytes) (h : src.length ≤ dst.length) :
    (filesystem.copy dst src).1 = (src.length : Nat)
      ∧ (filesystem.copy dst src).2.take src.length = src := by
  by_cases hlt : src.length < dst.length
  · simp [filesystem.copy, hlt]
  · have he : src.length = dst.length := by omega
    simp [filesystem.copy, hlt, ← he]

/-- Reading block `b` of a file with content `D` into a buffer of 512 bytes,
where the block starts inside the file. -/
theorem ReadAt_block (f : MemoryFile) (buf : Bytes) (b : Nat) (hbuf : buf.length = 512)
    (hb : 1 ≤ b) (hin : (b - 1) * 512 < f.data.length) :
    ∃ buf', f.ReadAt buf (((b : Int) - 1) * 512)
        = ((((chunk f.data b).length : Nat) : Int), none, buf')
      ∧ buf'.take (chunk f.data b).length = chunk f.data b := by
  have hoff : (((b : Int) - 1) * 512) = (((b - 1) * 512 : Nat) : Int) := by
    push_cast
    omega
  set off : Nat := (b - 1) * 512 with hoffdef
  have h1 : ¬ ((off : Int) < 0) := by omega
  have h2 : ¬ ((off : Int) ≥ (f.data.length : Int)) := by omega
  have hsrc : (f.data.take (filesystem.min ((off : Int) + (buf.length : Int))
      (f.data.length : Int)).toNat).drop ((off : Nat) : Int).toNat = chunk f.data b := by
    simp only [filesystem.min, hbuf, chunk, Int.toNat_ofNat]
    rw [List.drop_take]
    split_ifs with hlt
    · have : ((off : Int) + ((512 : Nat) : Int)).toNat - off = 512 := by omega
      rw [this]
    · have e1 : ((f.data.length : Int)).toNat - off = f.data.length - off := by omega
      rw [e1]
      rw [List.take_eq_take]
      simp only [List.length_drop]
      omega
  have hfit : (chunk f.data b).length ≤ buf.length := by
    simp only [chunk, List.length_take, hbuf]
    omega
  obtain ⟨c1, c2⟩ := copy_fits buf (chunk f.data b) hfit
  refine ⟨(filesystem.copy buf (chunk f.data b)).2, ?_, c2⟩
  simp only [MemoryFile.ReadAt, h1, h2, if_false, hoff, hsrc, c1]

theorem make_length (n : Nat) : (make n).length = n := by
  simp [make]

theorem chunk_nil_of_le (D : Bytes) (b : Nat) (h : D.length ≤ (b - 1) * 512) : chunk D b = [] := by
  simp only [chunk, List.drop_eq_nil_of_le h, List.take_nil]

theorem ReadAt_eof (f : MemoryFile) (buf : Bytes) (off : Int) (h0 : 0 ≤ off)
    (h1 : (f.data.length : Int) ≤ off) : f.ReadAt buf off = (0, some .eof, buf) := by
  have a : ¬ off < 0 := by omega
  have b : off ≥ (f.data.length : Int) := by omega
  simp only [MemoryFile.ReadAt, a, b, if_false, if_true]

theorem ReadAt_neg (f : MemoryFile) (buf : Bytes) (off : Int) (h0 : off < 0) :
    f.ReadAt buf off = (-1, some .invalid, buf) := by
  simp only [MemoryFile.ReadAt, h0, if_true]

/-- `readBlock` on a block that starts in the file, or right at its end when no
short block has been read yet: the block is returned as a DATA packet, and
`lastBlock` is set when it is short. -/
theorem readBlock_data (s : St) (h : Handle) (f : MemoryFile) (b : Nat)
    (hfile : s.ctx.file = some h) (hobj : s.store.objs[h]? = some f) (hb : 1 ≤ b)
    (hin : (b - 1) * 512 ≤ f.data.length)
    (hlast : s.ctx.lastBlock = false ∨ (b - 1) * 512 < f.data.length) :
    readBlock s b = some (some (newData b (chunk f.data b)), none,
      if (chunk f.data b).length < 512 then { s with ctx := { s.ctx with lastBlock := true } }
      else s) := by
  by_cases hlt : (b - 1) * 512 < f.data.length
  · obtain ⟨buf', hr, ht⟩ := ReadAt_block f (make 512) b (make_length 512) hb hlt
    simp only [readBlock, hfile, Store.ReadAt, hobj, hr]
    simp only [Option.isSome_none, Bool.false_eq_true, false_and, if_false, Int.toNat_ofNat, ht,
      Nat.cast_lt_ofNat]
  · have he : (b - 1) * 512 = f.data.length := by omega
    have hl : s.ctx.lastBlock = false := by
      rcases hlast with h | h
      · exact h
      · exact absurd h hlt
    have hoff : (((b : Int) - 1) * 512) = ((f.data.length : Nat) : Int) := by
      rw [← he]
      push_cast
      omega
    have hc : chunk f.data b = [] := chunk_nil_of_le _ _ (by omega)
    have hr := ReadAt_eof f (make 512) (((b : Int) - 1) * 512) (by omega) (by omega)
    simp only [readBlock, hfile, Store.ReadAt, hobj, hr, hl, hc]
    simp

/-- `readBlock` behind the end of the file once a short block has been read:
no packet and no error. -/
theorem readBlock_done (s : St) (h : Handle) (f : MemoryFile) (b : Nat)
    (hfile : s.ctx.file = some h) (hobj : s.store.objs[h]? = some f) (hb : 1 ≤ b)
    (hout : f.data.length ≤ (b - 1) * 512) (hlast : s.ctx.lastBlock = true) :
    readBlock s b = some (none, none, s) := by
  have h1 : ¬ (((b : Int) - 1) * 512 < 0) := by omega
  have h2 : (((b : Int) - 1) * 512 ≥ (f.data.length : Int)) := by
    have : (((b - 1) * 512 : Nat) : Int) = ((b : Int) - 1) * 512 := by
      push_cast
      omega
    omega
  have hr := ReadAt_eof f (make 512) (((b : Int) - 1) * 512) (by omega) (by omega)
  simp only [readBlock, hfile, Store.ReadAt, hobj, hr, hlast]
  simp

/-- `readBlock` of block 0: the offset is `-512` and the read is refused. -/
theorem readBlock_zero (s : St) (h : Handle) (f : MemoryFile)
    (hfile : s.ctx.file = some h) (hobj : s.store.objs[h]? = some f) :
    readBlock s 0 = some (none, some .invalid, s) := by
  have hr := ReadAt_neg f (make 512) ((((0 : Nat) : Int) - 1) * 512) (by omega)
  simp only [readBlock, hfile, Store.ReadAt, hobj, hr]
  simp

/-! ## The receive loop and its buffer -/

theorem ReadFromUDP_fits (buf d : Bytes) (h : d.length ≤ buf.length) :
    (ReadFromUDP buf d).1 = d.length ∧ (ReadFromUDP buf d).2 = d ++ buf.drop d.length := by
  by_cases hlt : d.length < buf.length
  · simp [ReadFromUDP, hlt]
  · have he : d.length = buf.length := by omega
    simp [ReadFromUDP, hlt, ← he]

theorem ReadFromUDP_length (buf d : Bytes) : (ReadFromUDP buf d).2.length = buf.length := by
  by_cases hlt : d.length < buf.length
  · simp [ReadFromUDP, hlt]
    omega
  · simp [ReadFromUDP, hlt]
    omega

theorem ReadFromUDP_len_le (buf d : Bytes) :
    (ReadFromUDP buf d).1 ≤ (ReadFromUDP buf d).2.length := by
  rw [ReadFromUDP_length]
  by_cases hlt : d.length < buf.length
  · simp [ReadFromUDP, hlt]
    omega
  · simp [ReadFromUDP, hlt]

theorem ReadFromUDP_take (buf buf' d : Bytes) (h : buf.length = buf'.length) :
    (ReadFromUDP buf d).1 = (ReadFromUDP buf' d).1
      ∧ (ReadFromUDP buf d).2.take (ReadFromUDP buf d).1
          = (ReadFromUDP buf' d).2.take (ReadFromUDP buf' d).1 := by
  by_cases hlt : d.length < buf.length
  · have hlt' : d.length < buf'.length := by omega
    simp [ReadFromUDP, hlt, hlt']
  · have hlt' : ¬ d.length < buf'.length := by omega
    simp only [ReadFromUDP, hlt, hlt', if_false, h, true_and]
    rw [List.take_append_of_le_length (by simp; omega),
      List.take_append_of_le_length (by simp; omega)]

/-- The receive loop does not depend on what the buffer holds, only on its length. -/
theorem serveLoop_buf (dally : Nat) :
    ∀ (evs : List Event) (buf buf' : Bytes) (i : Nat) (done : Bool) (s : St),
      buf.length = buf'.length →
      serveLoop dally evs buf i done s = serveLoop dally evs buf' i done s := by
  intro evs
  induction evs with
  | nil => intro buf buf' i done s _; simp [serveLoop]
  | cons e rest ih =>
    intro buf buf' i done s hlen
    cases e with
    | timeout => simp [serveLoop]
    | deadline => simp only [serveLoop]; rw [ih buf buf' _ done s hlen]
    | readErr => simp only [serveLoop]; rw [ih buf buf' _ done s hlen]
    | datagram addr d =>
      have hn := (ReadFromUDP_take buf buf' d hlen).1
      have ht := (ReadFromUDP_take buf buf' d hlen).2
      have hb : (ReadFromUDP buf d).2.length = (ReadFromUDP buf' d).2.length := by
        rw [ReadFromUDP_length, ReadFromUDP_length, hlen]
      have hdec : newPacket (ReadFromUDP buf d).2 ((ReadFromUDP buf d).1 : Nat)
          = newPacket (ReadFromUDP buf' d).2 ((ReadFromUDP buf' d).1 : Nat) := by
        rw [← hn]
        apply newPacket_indep
        · have := ReadFromUDP_len_le buf' d
          rw [← hn] at this
          exact_mod_cast this
        · have := ReadFromUDP_len_le buf d
          exact_mod_cast this
        · simp only [Int.toNat_ofNat]
          rw [ht, hn]
      simp only [serveLoop]
      rw [hdec, ← hn]
      split_ifs with hc hfor
      · exact ih _ _ _ _ _ hb
      · cases hp : newPacket (ReadFromUDP buf' d).2 ((ReadFromUDP buf d).1 : Nat) with
        | error e => simp only []; exact ih _ _ _ _ _ hb
        | ok pkt =>
          simp only []
          cases process loopHandlers s pkt with
          | ret v s1 => exact ih _ _ _ _ _ hb
          | blocked s1 => rfl
          | panic => rfl
          | nested => rfl
      · rfl

/-- In the receive loop the encoding of a well-formed packet that fits the
buffer decodes to the packet, its `opcode` field at zero. -/
theorem decode_in_loop (buf : Bytes) (P : Packet) (hP : P.wellFormed)
    (hfit : P.bytes.length ≤ buf.length) :
    newPacket (ReadFromUDP buf P.bytes).2 ((ReadFromUDP buf P.bytes).1 : Nat)
      = .ok (P.withOpcode 0) := by
  obtain ⟨b, hb, hd⟩ := decode_encode P hP
  have hbytes : P.bytes = b := by simp only [Packet.bytes, hb]
  rw [hbytes] at hfit ⊢
  obtain ⟨h1, h2⟩ := ReadFromUDP_fits buf b hfit
  rw [h1, h2, ← hd]
  apply newPacket_indep
  · exact le_refl _
  · simp only [List.length_append, List.length_drop]
    push_cast
    omega
  · simp only [Int.toNat_ofNat, List.take_left, List.take_length]

/-! ## Serving a read request -/

theorem chunk_short_iff (D : Bytes) (b : Nat) (hb : 1 ≤ b) (hin : (b - 1) * 512 ≤ D.length) :
    (chunk D b).length < 512 ↔ D.length < b * 512 := by
  simp only [chunk, List.length_take, List.length_drop]
  have : (b - 1) * 512 + 512 = b * 512 := by
    obtain ⟨k, rfl⟩ : ∃ k, b = k + 1 := ⟨b - 1, by omega⟩
    simp only [Nat.add_sub_cancel]
    ring
  omega

theorem newData_bytes (b : Nat) (d : Bytes) :
    (newData b d).bytes = 0 :: 3 :: byte (b / 256) :: byte b :: d := by
  simp only [Packet.bytes, newData, Packet.MarshalBinary, DataPacket_marshal]
  rfl

theorem newAck_bytes (b : Nat) : (newAck b).bytes = [0, 4, byte (b / 256), byte b] := by
  simp only [Packet.bytes, newAck, Packet.MarshalBinary, AckPacket_marshal]
  rfl

/-- The ACK of block `b` when block `b + 1` exists: the next block is read and
sent with retransmission, and `block` advances. -/
theorem handleAck_next (conn : UDPConn) (raddr : UDPAddr) (h : Handle) (D : Bytes) (b op : Nat)
    (store : Store) (log : List Action) (name : Bytes)
    (hobj : store.objs[h]? = some ⟨D, name⟩) (hb : 1 ≤ b) (hmore : b * 512 ≤ D.length)
    (h16 : b + 1 < 65536) (hw : WriteToUDP (some conn) = true) :
    handleAck ⟨rrqCtx conn raddr h D b, store, log⟩ (.ack ⟨op, b⟩)
      = .ret false ⟨rrqCtx conn raddr h D (b + 1), store,
          log ++ [.confirm, .write raddr (newData (b + 1) (chunk D (b + 1))).bytes false]⟩ := by
  have hlast : (rrqCtx conn raddr h D b).lastBlock = false := by
    simp only [rrqCtx, decide_eq_false_iff_not]
    omega
  have hmod : (b + 1) % 65536 = b + 1 := Nat.mod_eq_of_lt h16
  have hrb := readBlock_data ⟨rrqCtx conn raddr h D b, store, log⟩ h ⟨D, name⟩ (b + 1) rfl hobj
    (by omega) (by simpa using hmore) (Or.inl hlast)
  have hsi := chunk_short_iff D (b + 1) (by omega) (by simpa using hmore)
  simp only [handleAck, getNextDataBlock, rrqCtx, ne_eq, not_true_eq_false, if_false, hmod]
  simp only [rrqCtx] at hrb
  rw [hrb]
  by_cases hs : (chunk D (b + 1)).length < 512
  · have hd : D.length < (b + 1) * 512 := hsi.mp hs
    simp only [hs, if_true, confirmPreviousPktSent]
    rw [send_retransmit _ _ hw]
    simp [hd, hmod]
  · have hd : ¬ D.length < (b + 1) * 512 := fun h => hs (hsi.mpr h)
    have hd' : ¬ D.length < b * 512 := by omega
    simp only [hs, if_false, confirmPreviousPktSent]
    rw [send_retransmit _ _ hw]
    simp [hd, hd', hmod]

/-- The ACK of the last block, when `block + 1` does not wrap: nothing is sent
and the handler returns true. -/
theorem handleAck_last (conn : UDPConn) (raddr : UDPAddr) (h : Handle) (D : Bytes) (b op : Nat)
    (store : Store) (log : List Action) (name : Bytes)
    (hobj : store.objs[h]? = some ⟨D, name⟩) (hb : 1 ≤ b) (hend : D.length < b * 512)
    (h16 : b + 1 < 65536) :
    handleAck ⟨rrqCtx conn raddr h D b, store, log⟩ (.ack ⟨op, b⟩)
      = .ret true ⟨{ rrqCtx conn raddr h D b with activeTx := false }, store,
          log ++ [.confirm]⟩ := by
  have hlast : (rrqCtx conn raddr h D b).lastBlock = true := by
    simp only [rrqCtx, decide_eq_true_eq]
    exact hend
  have hmod : (b + 1) % 65536 = b + 1 := Nat.mod_eq_of_lt h16
  have hrb := readBlock_done ⟨rrqCtx conn raddr h D b, store, log⟩ h ⟨D, name⟩ (b + 1) rfl hobj
    (by omega) (by simp only [Nat.add_sub_cancel]; omega) hlast
  simp only [handleAck, getNextDataBlock, ne_eq]
  simp only [rrqCtx] at hrb ⊢
  simp only [not_true_eq_false, if_false, hmod]
  rw [hrb]
  simp [confirmPreviousPktSent]

/-- The ACK of block 65535: `block + 1` wraps to 0, the read at offset `-512` is
refused, nothing is sent or confirmed and the handler returns false. -/
theorem handleAck_wrap (conn : UDPConn) (raddr : UDPAddr) (h : Handle) (D : Bytes) (op : Nat)
    (store : Store) (log : List Action) (name : Bytes)
    (hobj : store.objs[h]? = some ⟨D, name⟩) :
    handleAck ⟨rrqCtx conn raddr h D 65535, store, log⟩ (.ack ⟨op, 65535⟩)
      = .ret false ⟨rrqCtx conn raddr h D 65535, store, log⟩ := by
  have hrb := readBlock_zero ⟨rrqCtx conn raddr h D 65535, store, log⟩ h ⟨D, name⟩ rfl hobj
  have hmod : (65535 + 1) % 65536 = 0 := rfl
  simp only [handleAck, getNextDataBlock, ne_eq]
  simp only [rrqCtx] at hrb ⊢
  simp only [not_true_eq_false, if_false, hmod]
  rw [hrb]

theorem ipEqual_self (ip : Bytes) : ipEqual ip ip = true := by
  simp [ipEqual]

theorem ackEvents_append (addr : UDPAddr) (m n : Nat) :
    ∀ b, ackEvents addr b (m + n) = ackEvents addr b m ++ ackEvents addr (b + m) n := by
  induction m with
  | zero => intro b; simp [ackEvents]
  | succ m ih =>
    intro b
    have e : m + 1 + n = (m + n) + 1 := by omega
    rw [e]
    simp only [ackEvents, ih (b + 1), List.cons_append]
    have e2 : b + 1 + m = b + (m + 1) := by omega
    rw [e2]

theorem dataActions_append (addr : UDPAddr) (D : Bytes) (m n : Nat) :
    ∀ b, dataActions addr D b (m + n)
      = dataActions addr D b m ++ dataActions addr D (b + m) n := by
  induction m with
  | zero => intro b; simp [dataActions]
  | succ m ih =>
    intro b
    have e : m + 1 + n = (m + n) + 1 := by omega
    rw [e]
    simp only [dataActions, ih (b + 1), List.cons_append]
    have e2 : b + 1 + m = b + (m + 1) := by omega
    rw [e2]

theorem newAck_wellFormed (b : Nat) (hb : b < 65536) : (newAck b).wellFormed :=
  ⟨rfl, hb⟩

theorem newData_wellFormed (b : Nat) (d : Bytes) (hb : b < 65536) : (newData b d).wellFormed :=
  ⟨rfl, hb⟩

/-- One ACK of the peer in the receive loop of an RRQ session goes to `handleAck`. -/
theorem serveLoop_ack (dally : Nat) (conn : UDPConn) (raddr addr : UDPAddr) (h : Handle)
    (D : Bytes) (b : Nat) (store : Store) (log : List Action) (rest : List Event)
    (hip : ipEqual addr.IP raddr.IP = true) (hport : addr.Port = raddr.Port)
    (h16 : b < 65536) :
    serveLoop dally (.datagram addr (newAck b).bytes :: rest) (make (2 + 2 + 512)) 0 false
        ⟨rrqCtx conn raddr h D b, store, log⟩
      = match handleAck ⟨rrqCtx conn raddr h D b, store, log⟩ (.ack ⟨0, b⟩) with
        | .ret v s1 => serveLoop dally rest (make (2 + 2 + 512)) 0 v s1
        | .blocked s1 => .blocked s1
        | .panic => .panic
        | .nested => .nested := by
  have hfit : (newAck b).bytes.length ≤ (make (2 + 2 + 512)).length := by
    rw [newAck_bytes, make_length]
    simp
  have hdec := decode_in_loop (make (2 + 2 + 512)) (newAck b) (newAck_wellFormed b h16) hfit
  rw [serveLoop_process dally rest _ 0 false _ addr _ _ (Or.inl rfl) hip hport hdec]
  have hacc : process loopHandlers ⟨rrqCtx conn raddr h D b, store, log⟩
      ((newAck b).withOpcode 0)
      = handleAck ⟨rrqCtx conn raddr h D b, store, log⟩ (.ack ⟨0, b⟩) := by
    have hl : (((newAck b).withOpcode 0).OpCode,
        (⟨rrqCtx conn raddr h D b, store, log⟩ : St).ctx.state) ∈ legalPairs := by
      show (Ack, SessionState.RRQ) ∈ legalPairs
      decide
    rw [process_accept _ _ _ hl]
    rfl
  rw [hacc]
  cases handleAck ⟨rrqCtx conn raddr h D b, store, log⟩ (.ack ⟨0, b⟩) with
  | ret v s1 =>
    simp only []
    apply serveLoop_buf
    rw [ReadFromUDP_length]
  | blocked s1 => rfl
  | panic => rfl
  | nested => rfl

/-- The receive loop of an RRQ session over the ACKs of blocks `b .. b + m - 1`,
each followed by a further block: blocks `b + 1 .. b + m` are sent. -/
theorem rrq_loop (dally : Nat) (conn : UDPConn) (raddr addr : UDPAddr) (h : Handle) (D : Bytes)
    (store : Store) (name : Bytes) (rest : List Event)
    (hobj : store.objs[h]? = some ⟨D, name⟩) (hw : WriteToUDP (some conn) = true)
    (hip : ipEqual addr.IP raddr.IP = true) (hport : addr.Port = raddr.Port) :
    ∀ (m b : Nat) (log : List Action), 1 ≤ b → (b + m - 1) * 512 ≤ D.length → b + m < 65536 →
      serveLoop dally (ackEvents addr b m ++ rest) (make (2 + 2 + 512)) 0 false
          ⟨rrqCtx conn raddr h D b, store, log⟩
        = serveLoop dally rest (make (2 + 2 + 512)) 0 false
            ⟨rrqCtx conn raddr h D (b + m), store, log ++ dataActions raddr D (b + 1) m⟩ := by
  intro m
  induction m with
  | zero =>
    intro b log _ _ _
    simp [ackEvents, dataActions]
  | succ m ih =>
    intro b log hb hin h16
    have hmore : b * 512 ≤ D.length := by
      have : b + (m + 1) - 1 = b + m := by omega
      rw [this] at hin
      have : b * 512 ≤ (b + m) * 512 := Nat.mul_le_mul_right _ (by omega)
      omega
    simp only [ackEvents, List.cons_append]
    rw [serveLoop_ack dally conn raddr addr h D b store log _ hip hport (by omega),
      handleAck_next conn raddr h D b 0 store log name hobj hb hmore (by omega) hw]
    simp only []
    rw [ih (b + 1) _ (by omega) (by
      have : b + 1 + m - 1 = b + (m + 1) - 1 := by omega
      rw [this]; exact hin) (by omega)]
    have e : b + 1 + m = b + (m + 1) := by omega
    simp only [dataActions, e, List.append_assoc, List.cons_append, List.nil_append]

/-- `handleReadReq` on an `octet` request for a stored file: block 1 is sent with
retransmission and the receive loop is entered with no dally. -/
theorem handleReadReq_start (env : Env) (conn0 : Option UDPConn) (raddr : UDPAddr)
    (store : Store) (p : reqPacket) (h : Handle) (D name : Bytes) (c : UDPConn)
    (hmode : toLower p.mode = octet)
    (hopen : Root.Open store (pathBase p.filepath) = .ok h)
    (hobj : store.objs[h]? = some ⟨D, name⟩)
    (hlisten : env.listen = some c) (hw : WriteToUDP (some c) = true) :
    session env conn0 raddr store (.readReq p)
      = match serveReq 0 env.events ⟨rrqCtx c raddr h D 1, store,
            [.write raddr (newData 1 (chunk D 1)).bytes false]⟩ with
        | .ret _ s2 => .ret false (closeSession s2)
        | .blocked s2 => .blocked s2
        | .panic => .panic
        | .nested => .nested := by
  have hl : ((Packet.readReq p).OpCode,
      (⟨newSessionContext conn0 raddr, store, []⟩ : St).ctx.state) ∈ legalPairs := by
    show (ReadReq, SessionState.INI) ∈ legalPairs
    decide
  have hrb := readBlock_data
    ⟨{ newSessionContext conn0 raddr with state := .RRQ, conn := some c, file := some h },
      store, []⟩ h ⟨D, name⟩ 1 rfl hobj (le_refl _) (by simp) (Or.inl rfl)
  have hsi := chunk_short_iff D 1 (le_refl _) (by simp)
  rw [session, process_accept _ _ _ hl]
  show handleReadReq env _ _ = _
  simp only [handleReadReq, hlisten, hmode, ne_eq, not_true_eq_false, if_false, hopen,
    getDataBlock, newSessionContext]
  simp only [newSessionContext] at hrb
  rw [hrb]
  by_cases hs : (chunk D 1).length < 512
  · have hd : D.length < 1 * 512 := hsi.mp hs
    simp only [hs, if_true]
    rw [send_retransmit _ _ hw]
    simp only [rrqCtx, hd, decide_True, Bool.not_true, Bool.false_eq_true, if_false,
      List.nil_append]
    cases serveReq 0 env.events _ with
    | ret v s2 => cases v <;> rfl
    | blocked s2 => rfl
    | panic => rfl
    | nested => rfl
  · have hd : ¬ D.length < 1 * 512 := fun h => hs (hsi.mpr h)
    simp only [hs, if_false]
    rw [send_retransmit _ _ hw]
    simp only [rrqCtx, hd, decide_False, Bool.not_true, Bool.false_eq_true, if_false,
      List.nil_append]
    cases serveReq 0 env.events _ with
    | ret v s2 => cases v <;> rfl
    | blocked s2 => rfl
    | panic => rfl
    | nested => rfl

/-- An RRQ session on a file of fewer than `65535 * 512` bytes whose client
acknowledges each block in order: the blocks are sent one after the other; the
ACK of the last block ends the session when the block number is below 65535,
and is not recognised when it is 65535. -/
theorem rrq_run (env : Env) (conn0 : Option UDPConn) (raddr : UDPAddr)
    (store : Store) (p : reqPacket) (h : Handle) (D name : Bytes) (c : UDPConn)
    (hmode : toLower p.mode = octet)
    (hopen : Root.Open store (pathBase p.filepath) = .ok h)
    (hobj : store.objs[h]? = some ⟨D, name⟩)
    (hlisten : env.listen = some c) (hw : WriteToUDP (some c) = true)
    (hS : D.length < 65535 * 512)
    (hev : env.events = ackEvents raddr 1 (blockCount D.length)) :
    session env conn0 raddr store (.readReq p)
      = if blockCount D.length < 65535 then
          .ret false (closeSession
            ⟨{ rrqCtx c raddr h D (blockCount D.length) with activeTx := false }, store,
              .write raddr (newData 1 (chunk D 1)).bytes false
                :: (dataActions raddr D 2 (D.length / 512) ++ [.confirm])⟩)
        else
          .blocked ⟨rrqCtx c raddr h D (blockCount D.length), store,
            .write raddr (newData 1 (chunk D 1)).bytes false
              :: dataActions raddr D 2 (D.length / 512)⟩ := by
  have hK : blockCount D.length = D.length / 512 + 1 := rfl
  have hKle : blockCount D.length ≤ 65535 := by rw [hK]; omega
  rw [handleReadReq_start env conn0 raddr store p h D name c hmode hopen hobj hlisten hw, hev,
    serveReq, hK, ackEvents_append raddr (D.length / 512) 1 1,
    rrq_loop 0 c raddr raddr h D store name _ hobj hw (ipEqual_self _) rfl (D.length / 512) 1 _
      (le_refl _) (by simp only [Nat.add_sub_cancel_left]; omega) (by omega)]
  have e1 : 1 + D.length / 512 = D.length / 512 + 1 := by omega
  simp only [ackEvents, e1, List.singleton_append]
  rw [serveLoop_ack 0 c raddr raddr h D _ store _ _ (ipEqual_self _) rfl (by omega)]
  by_cases hlt : D.length / 512 + 1 < 65535
  · rw [handleAck_last c raddr h D _ 0 store _ name hobj (by omega) (by omega) (by omega)]
    simp only [hlt, if_true]
    rw [serveLoop_stop 0 [] _ 0 _ (le_refl _)]
    simp
  · have he : D.length / 512 + 1 = 65535 := by omega
    rw [he, handleAck_wrap c raddr h D 0 store _ name hobj]
    simp [serveLoop]

theorem dataBlocks_append (l1 l2 : List Action) :
    dataBlocks (l1 ++ l2) = dataBlocks l1 ++ dataBlocks l2 := by
  induction l1 with
  | nil => simp [dataBlocks]
  | cons a l ih =>
    rw [List.cons_append]
    cases a with
    | confirm =>
      simp only [dataBlocks]
      exact ih
    | write dst b once =>
      simp only [dataBlocks]
      rw [ih]
      cases newPacket b (b.length : Nat) with
      | error e => rfl
      | ok pkt => cases pkt <;> rfl

theorem dataBlocks_write_data (dst : UDPAddr) (b : Nat) (d : Bytes) (once : Bool)
    (rest : List Action) (hb : b < 65536) :
    dataBlocks (.write dst (newData b d).bytes once :: rest) = (b, d) :: dataBlocks rest := by
  obtain ⟨e, he, hd⟩ := decode_encode (newData b d) (newData_wellFormed b d hb)
  have hbytes : (newData b d).bytes = e := by simp only [Packet.bytes, he]
  simp only [dataBlocks, hbytes, hd]
  rfl

theorem dataBlocks_dataActions (addr : UDPAddr) (D : Bytes) (m : Nat) :
    ∀ b, b + m ≤ 65536 →
      dataBlocks (dataActions addr D b m) = (List.range m).map (fun j => (b + j, chunk D (b + j))) := by
  induction m with
  | zero => intro b _; rfl
  | succ m ih =>
    intro b hb
    simp only [dataActions]
    show dataBlocks (.write addr (newData b (chunk D b)).bytes false :: _) = _
    rw [dataBlocks_write_data addr b _ false _ (by omega), ih (b + 1) (by omega),
      List.range_succ_eq_map]
    simp only [List.map_cons, List.map_map, Nat.add_zero, List.cons.injEq, true_and]
    apply List.map_congr_left
    intro j _
    simp only [Function.comp_apply]
    have e : b + 1 + j = b + (j + 1) := by omega
    rw [e]

/-- C4, on the code. An RRQ of a stored file of `S < 65534 * 512` bytes whose
client acknowledges each block in order makes the server write exactly
`S / 512 + 1` DATA packets, numbered 1, 2, ... in this order, whose payloads are
the successive 512-byte pieces of the file: 512 bytes each except the last,
which has `S mod 512` bytes (empty when 512 divides `S`). The ACK of the last
block makes `handleAck` return true, with the previous packet confirmed and
nothing written, and the session returns: every DATA packet of the log is
followed by the confirmation that stops its retransmission task, and
`activeTx` is false at the end. -/
theorem last_block_signalling (env : Env) (conn0 : Option UDPConn) (raddr : UDPAddr)
    (store : Store) (p : reqPacket) (h : Handle) (D name : Bytes) (c : UDPConn)
    (hmode : toLower p.mode = octet)
    (hopen : Root.Open store (pathBase p.filepath) = .ok h)
    (hobj : store.objs[h]? = some ⟨D, name⟩)
    (hlisten : env.listen = some c) (hw : WriteToUDP (some c) = true)
    (hS : D.length < 65534 * 512)
    (hev : env.events = ackEvents raddr 1 (blockCount D.length)) :
    dataBlocks (session env conn0 raddr store (.readReq p)).log
        = (List.range (D.length / 512 + 1)).map (fun j => (j + 1, chunk D (j + 1)))
    ∧ (∀ b, 1 ≤ b → b < D.length / 512 + 1 → (chunk D b).length = 512)
    ∧ (chunk D (D.length / 512 + 1)).length = D.length % 512
    ∧ (∀ log : List Action,
        handleAck ⟨rrqCtx c raddr h D (D.length / 512 + 1), store, log⟩
            (.ack ⟨0, D.length / 512 + 1⟩)
          = .ret true ⟨{ rrqCtx c raddr h D (D.length / 512 + 1) with activeTx := false },
              store, log ++ [.confirm]⟩)
    ∧ (session env conn0 raddr store (.readReq p)).value = some false
    ∧ (session env conn0 raddr store (.readReq p)).log
        = .write raddr (newData 1 (chunk D 1)).bytes false
            :: (dataActions raddr D 2 (D.length / 512) ++ [.confirm])
    ∧ (session env conn0 raddr store (.readReq p)).state.map (fun s => s.ctx.activeTx)
        = some false := by
  have hrun := rrq_run env conn0 raddr store p h D name c hmode hopen hobj hlisten hw
    (by omega) hev
  have hK : blockCount D.length = D.length / 512 + 1 := rfl
  have hlt : blockCount D.length < 65535 := by rw [hK]; omega
  rw [if_pos hlt] at hrun
  have hblocks : dataBlocks (.write raddr (newData 1 (chunk D 1)).bytes false
      :: dataActions raddr D 2 (D.length / 512))
      = (List.range (D.length / 512 + 1)).map (fun j => (j + 1, chunk D (j + 1))) := by
    rw [dataBlocks_write_data raddr 1 _ false _ (by decide),
      dataBlocks_dataActions raddr D _ 2 (by omega), List.range_succ_eq_map]
    simp only [List.map_cons, List.map_map, Nat.zero_add, List.cons.injEq, true_and]
    apply List.map_congr_left
    intro j _
    simp only [Function.comp_apply]
    have e : 2 + j = j + 1 + 1 := by omega
    rw [e]
  refine ⟨?_, ?_, ?_, ?_, ?_, ?_, ?_⟩
  · rw [hrun]
    show dataBlocks (.write raddr (newData 1 (chunk D 1)).bytes false
        :: (dataActions raddr D 2 (D.length / 512) ++ [.confirm])) = _
    rw [← List.cons_append, dataBlocks_append, hblocks]
    simp [dataBlocks]
  · intro b hb hlt
    exact chunk_length_full D b hb (by
      have : b ≤ D.length / 512 := by omega
      have := Nat.mul_le_mul_right 512 this
      have := Nat.div_mul_le_self D.length 512
      omega)
  · exact chunk_length_last D
  · intro log
    exact handleAck_last c raddr h D _ 0 store log name hobj (by omega)
      (by have := Nat.lt_div_mul_add (a := D.length) (b := 512) (by decide); omega)
      (by omega)
  · rw [hrun]
    rfl
  · rw [hrun]
    rfl
  · rw [hrun]
    rfl

theorem last_block_signalling_witness :
    dataBlocks (session ⟨some goodConn, ackEvents peer 1 1⟩ (some goodConn) peer hiStore
        (.readReq ⟨ReadReq, [102], octet⟩)).log = [(1, [104, 105, 10])] :=
  (last_block_signalling ⟨some goodConn, ackEvents peer 1 1⟩ (some goodConn) peer hiStore
    ⟨ReadReq, [102], octet⟩ 0 [104, 105, 10] [102] goodConn (by decide) (by decide) rfl rfl rfl
    (by decide) rfl).1.trans (by decide)


theorem bigFile_length : bigFile.length = 65534 * 512 :=
  List.length_replicate _ _

/-- C4 as stated fails at `S = 65534 * 512`: the file is served as 65534 full
blocks and the empty block 65535; the ACK of block 65535 makes `handleAck`
compute block `65535 + 1 = 0` in 16 bits, read at offset `-512`, and return
false, so that after all 65535 ACKs the session is still in its receive loop. -/
theorem last_ack_counterexample :
    bigFile.length < 65535 * 512
    ∧ blockCount bigFile.length = 65535
    ∧ handleAck ⟨rrqCtx goodConn peer 0 bigFile 65535, bigStore, []⟩ (.ack ⟨0, 65535⟩)
        = .ret false ⟨rrqCtx goodConn peer 0 bigFile 65535, bigStore, []⟩
    ∧ session ⟨some goodConn, ackEvents peer 1 (blockCount bigFile.length)⟩ (some goodConn) peer
          bigStore (.readReq ⟨ReadReq, [102], octet⟩)
        = .blocked ⟨rrqCtx goodConn peer 0 bigFile (blockCount bigFile.length), bigStore,
            .write peer (newData 1 (chunk bigFile 1)).bytes false
              :: dataActions peer bigFile 2 (bigFile.length / 512)⟩ := by
  have hlen := bigFile_length
  have hK : blockCount bigFile.length = 65535 := by rw [hlen]; rfl
  refine ⟨by omega, hK, ?_, ?_⟩
  · exact handleAck_wrap goodConn peer 0 bigFile 0 bigStore [] [102] rfl
  · rw [rrq_run ⟨some goodConn, ackEvents peer 1 (blockCount bigFile.length)⟩ (some goodConn) peer
      bigStore ⟨ReadReq, [102], octet⟩ 0 bigFile [102] goodConn (by decide) (by decide) rfl rfl
      rfl (by omega) (by simp only)]
    rw [if_neg (by omega)]

/-! ## Serving a write request -/

/-- Writing at the end of a file appends. -/
theorem WriteAt_end (f : MemoryFile) (b : Bytes) :
    f.WriteAt b (f.data.length : Nat)
      = some (((b.length : Nat) : Int), none, { f with data := f.data ++ b }) := by
  have h0 : ¬ (((f.data.length : Nat) : Int) < 0) := by omega
  by_cases hb : b.length = 0
  · have hnil : b = [] := List.eq_nil_of_length_eq_zero hb
    subst hnil
    simp [MemoryFile.WriteAt]
  · have h1 : ((f.data.length : Nat) : Int) + ((b.length : Nat) : Int)
        > ((f.data.length : Nat) : Int) := by omega
    have h2 : ¬ (((f.data.length : Nat) : Int) > ((f.data.length : Nat) : Int)) := by omega
    simp only [MemoryFile.WriteAt, h0, if_false, h1, if_true, h2, Int.toNat_ofNat,
      List.take_length]

theorem take_chunk (B : Bytes) (b : Nat) (hb : 1 ≤ b) :
    B.take ((b - 1) * 512) ++ chunk B b = B.take (b * 512) := by
  have e : b * 512 = (b - 1) * 512 + 512 := by
    obtain ⟨k, rfl⟩ : ∃ k, b = k + 1 := ⟨b - 1, by omega⟩
    simp only [Nat.add_sub_cancel]
    ring
  rw [e, List.take_add]
  rfl

theorem chunk_length_le (B : Bytes) (b : Nat) : (chunk B b).length ≤ 512 := by
  simp only [chunk, List.length_take]
  omega

/-- `Store.WriteAt` of block `b` on the file of a transfer that holds the first
`b - 1` blocks of `B`. -/
theorem Store_WriteAt_block (objs : List MemoryFile) (files : Bytes → Option Handle)
    (h : Handle) (name B : Bytes) (b : Nat) (hh : h < objs.length) (hb : 1 ≤ b)
    (hin : (b - 1) * 512 ≤ B.length) :
    Store.WriteAt ⟨objs.set h ⟨B.take ((b - 1) * 512), name⟩, files⟩ h (chunk B b)
        (((b : Int) - 1) * 512)
      = some ((((chunk B b).length : Nat) : Int), none,
          ⟨objs.set h ⟨B.take (b * 512), name⟩, files⟩) := by
  have hoff : (((b : Int) - 1) * 512)
      = (((⟨B.take ((b - 1) * 512), name⟩ : MemoryFile).data.length : Nat) : Int) := by
    simp only [List.length_take]
    rw [Nat.min_eq_left hin]
    push_cast
    omega
  have hget : (objs.set h ⟨B.take ((b - 1) * 512), name⟩)[h]?
      = some ⟨B.take ((b - 1) * 512), name⟩ := List.getElem?_set_self hh
  simp only [Store.WriteAt, hget]
  rw [hoff, WriteAt_end]
  simp only [take_chunk B b hb, List.set_set]

/-- A full block `b` in order: it is written at the end of the file, the
previous ACK is confirmed, `Ack(b)` is sent with retransmission and `block`
advances. -/
theorem handleData_full (conn : UDPConn) (raddr : UDPAddr) (h : Handle)
    (objs : List MemoryFile) (files : Bytes → Option Handle) (name B : Bytes) (b op : Nat)
    (log : List Action) (hh : h < objs.length) (hb : 1 ≤ b) (hfull : b * 512 ≤ B.length)
    (h16 : b + 1 < 65536) (hw : WriteToUDP (some conn) = true) :
    handleData ⟨wrqCtx conn raddr h b, ⟨objs.set h ⟨B.take ((b - 1) * 512), name⟩, files⟩, log⟩
        (.data ⟨op, b, chunk B b⟩)
      = .ret false ⟨wrqCtx conn raddr h (b + 1),
          ⟨objs.set h ⟨B.take ((b + 1 - 1) * 512), name⟩, files⟩,
          log ++ [.confirm, .write raddr (newAck b).bytes false]⟩ := by
  have hin : (b - 1) * 512 ≤ B.length := by
    have := Nat.mul_le_mul_right 512 (Nat.sub_le b 1)
    omega
  have hwr := Store_WriteAt_block objs files h name B b hh hb hin
  have hlen : ¬ (chunk B b).length < 512 := by
    rw [chunk_length_full B b hb hfull]
    omega
  have hmod : (b + 1) % 65536 = b + 1 := Nat.mod_eq_of_lt h16
  simp only [handleData, wrqCtx, ne_eq, not_true_eq_false, if_false]
  rw [hwr]
  simp only [hlen, if_false, confirmPreviousPktSent, if_true]
  rw [send_retransmit _ _ hw]
  simp [hmod]

/-- The closing short block `b` in order: it is written, the previous ACK is
confirmed, `Ack(b)` is sent once and the handler returns true. -/
theorem handleData_last (conn : UDPConn) (raddr : UDPAddr) (h : Handle)
    (objs : List MemoryFile) (files : Bytes → Option Handle) (name B : Bytes) (b op : Nat)
    (log : List Action) (hh : h < objs.length) (hb : 1 ≤ b)
    (hin : (b - 1) * 512 ≤ B.length) (hshort : B.length < b * 512)
    (hw : WriteToUDP (some conn) = true) :
    handleData ⟨wrqCtx conn raddr h b, ⟨objs.set h ⟨B.take ((b - 1) * 512), name⟩, files⟩, log⟩
        (.data ⟨op, b, chunk B b⟩)
      = .ret true ⟨{ wrqCtx conn raddr h b with activeTx := false },
          ⟨objs.set h ⟨B, name⟩, files⟩,
          log ++ [.confirm, .write raddr (newAck b).bytes true]⟩ := by
  have hwr := Store_WriteAt_block objs files h name B b hh hb hin
  have hlen : (chunk B b).length < 512 := (chunk_short_iff B b hb hin).mpr hshort
  have htake : B.take (b * 512) = B := List.take_of_length_le (by omega)
  simp only [handleData, wrqCtx, ne_eq, not_true_eq_false, if_false]
  rw [hwr]
  simp only [hlen, if_true, confirmPreviousPktSent]
  rw [send_once _ _ hw]
  simp [htake]

theorem dataEvents_append (addr : UDPAddr) (B : Bytes) (m n : Nat) :
    ∀ b, dataEvents addr B b (m + n) = dataEvents addr B b m ++ dataEvents addr B (b + m) n := by
  induction m with
  | zero => intro b; simp [dataEvents]
  | succ m ih =>
    intro b
    have e : m + 1 + n = (m + n) + 1 := by omega
    rw [e]
    simp only [dataEvents, ih (b + 1), List.cons_append]
    have e2 : b + 1 + m = b + (m + 1) := by omega
    rw [e2]

theorem ackActions_append (addr : UDPAddr) (m n : Nat) :
    ∀ b, ackActions addr b (m + n) = ackActions addr b m ++ ackActions addr (b + m) n := by
  induction m with
  | zero => intro b; simp [ackActions]
  | succ m ih =>
    intro b
    have e : m + 1 + n = (m + n) + 1 := by omega
    rw [e]
    simp only [ackActions, ih (b + 1), List.cons_append]
    have e2 : b + 1 + m = b + (m + 1) := by omega
    rw [e2]

/-- One DATA packet of the peer in the receive loop of a WRQ session goes to
`handleData`. -/
theorem serveLoop_data (dally : Nat) (conn : UDPConn) (raddr addr : UDPAddr) (h : Handle)
    (b k : Nat) (d : Bytes) (store : Store) (log : List Action) (rest : List Event)
    (hip : ipEqual addr.IP raddr.IP = true) (hport : addr.Port = raddr.Port)
    (h16 : b < 65536) (hd : d.length ≤ 512) :
    serveLoop dally (.datagram addr (newData b d).bytes :: rest) (make (2 + 2 + 512)) 0 false
        ⟨wrqCtx conn raddr h k, store, log⟩
      = match handleData ⟨wrqCtx conn raddr h k, store, log⟩ (.data ⟨0, b, d⟩) with
        | .ret v s1 => serveLoop dally rest (make (2 + 2 + 512)) 0 v s1
        | .blocked s1 => .blocked s1
        | .panic => .panic
        | .nested => .nested := by
  have hfit : (newData b d).bytes.length ≤ (make (2 + 2 + 512)).length := by
    rw [newData_bytes, make_length]
    simp only [List.length_cons]
    omega
  have hdec := decode_in_loop (make (2 + 2 + 512)) (newData b d) (newData_wellFormed b d h16) hfit
  rw [serveLoop_process dally rest _ 0 false _ addr _ _ (Or.inl rfl) hip hport hdec]
  have hacc : process loopHandlers ⟨wrqCtx conn raddr h k, store, log⟩
      ((newData b d).withOpcode 0)
      = handleData ⟨wrqCtx conn raddr h k, store, log⟩ (.data ⟨0, b, d⟩) := by
    have hl : (((newData b d).withOpcode 0).OpCode,
        (⟨wrqCtx conn raddr h k, store, log⟩ : St).ctx.state) ∈ legalPairs := by
      show (Data, SessionState.WRQ) ∈ legalPairs
      decide
    rw [process_accept _ _ _ hl]
    rfl
  rw [hacc]
  cases handleData ⟨wrqCtx conn raddr h k, store, log⟩ (.data ⟨0, b, d⟩) with
  | ret v s1 =>
    simp only []
    apply serveLoop_buf
    rw [ReadFromUDP_length]
  | blocked s1 => rfl
  | panic => rfl
  | nested => rfl

/-- The receive loop of a WRQ session over the full blocks `b .. b + m - 1` of
`B`, sent in order: each is stored and acknowledged. -/
theorem wrq_loop (dally : Nat) (conn : UDPConn) (raddr addr : UDPAddr) (h : Handle)
    (objs : List MemoryFile) (files : Bytes → Option Handle) (name B : Bytes)
    (rest : List Event) (hh : h < objs.length) (hw : WriteToUDP (some conn) = true)
    (hip : ipEqual addr.IP raddr.IP = true) (hport : addr.Port = raddr.Port) :
    ∀ (m b : Nat) (log : List Action), 1 ≤ b → (b + m - 1) * 512 ≤ B.length → b + m < 65536 →
      serveLoop dally (dataEvents addr B b m ++ rest) (make (2 + 2 + 512)) 0 false
          ⟨wrqCtx conn raddr h b, ⟨objs.set h ⟨B.take ((b - 1) * 512), name⟩, files⟩, log⟩
        = serveLoop dally rest (make (2 + 2 + 512)) 0 false
            ⟨wrqCtx conn raddr h (b + m),
              ⟨objs.set h ⟨B.take ((b + m - 1) * 512), name⟩, files⟩,
              log ++ ackActions raddr b m⟩ := by
  intro m
  induction m with
  | zero =>
    intro b log _ _ _
    simp [dataEvents, ackActions]
  | succ m ih =>
    intro b log hb hin h16
    have hfull : b * 512 ≤ B.length := by
      have : b + (m + 1) - 1 = b + m := by omega
      rw [this] at hin
      have : b * 512 ≤ (b + m) * 512 := Nat.mul_le_mul_right _ (by omega)
      omega
    simp only [dataEvents, List.cons_append]
    rw [serveLoop_data dally conn raddr addr h b b _ _ log _ hip hport (by omega)
        (chunk_length_le B b),
      handleData_full conn raddr h objs files name B b 0 log hh hb hfull (by omega) hw]
    simp only []
    rw [ih (b + 1) _ (by omega) (by
      have : b + 1 + m - 1 = b + (m + 1) - 1 := by omega
      rw [this]; exact hin) (by omega)]
    have e : b + 1 + m = b + (m + 1) := by omega
    simp only [ackActions, e, List.append_assoc, List.cons_append, List.nil_append]

theorem serveLoop_dally (s : St) (buf : Bytes) :
    serveLoop dallyDelay [.deadline, .deadline, .deadline] buf 0 true s = .ret none s := by
  simp [serveLoop, dallyDelay]

theorem set_last (objs : List MemoryFile) (a b : MemoryFile) :
    (objs ++ [a]).set objs.length b = objs ++ [b] := by
  rw [List.set_append_right _ _ (le_refl _)]
  simp

/-- `handleWriteReq` on an `octet` request: the entry of the name is removed, an
empty file is created, `Ack(0)` is sent with retransmission and the receive loop
is entered with a dally of three turns; the file is saved when the loop returns
without error. -/
theorem handleWriteReq_start (env : Env) (conn0 : Option UDPConn) (raddr : UDPAddr)
    (store : Store) (p : reqPacket) (c : UDPConn)
    (hmode : toLower p.mode = octet)
    (hlisten : env.listen = some c) (hw : WriteToUDP (some c) = true) :
    session env conn0 raddr store (.writeReq p)
      = match serveReq dallyDelay env.events
            ⟨wrqCtx c raddr store.objs.length 1,
              ⟨store.objs ++ [⟨[], pathBase p.filepath⟩],
                fun k => if k = pathBase p.filepath then none else store.files k⟩,
              [.write raddr (newAck 0).bytes false]⟩ with
        | .ret (some _) s1 => .ret false (closeSession s1)
        | .ret none s1 =>
          match s1.ctx.file with
          | none => .panic
          | some file =>
            match Root.Save s1.store file with
            | none => .panic
            | some st => .ret false (closeSession { s1 with store := st })
        | .blocked s1 => .blocked s1
        | .panic => .panic
        | .nested => .nested := by
  have hl : ((Packet.writeReq p).OpCode,
      (⟨newSessionContext conn0 raddr, store, []⟩ : St).ctx.state) ∈ legalPairs := by
    show (WriteReq, SessionState.INI) ∈ legalPairs
    decide
  rw [session, process_accept _ _ _ hl]
  show handleWriteReq env _ _ = _
  simp only [handleWriteReq, hlisten, hmode, ne_eq, not_true_eq_false, if_false,
    Root.CreateMemoryFile, newSessionContext]
  rw [send_retransmit _ _ hw]
  simp only [Bool.not_true, Bool.false_eq_true, if_false, List.nil_append]
  rfl

/-- A WRQ session that receives the blocks of `B` in order and then three
silent turns: every block is stored and acknowledged, and the file is saved with
content `B` under the base name of the request. -/
theorem wrq_run (env : Env) (conn0 : Option UDPConn) (raddr : UDPAddr)
    (store : Store) (p : reqPacket) (B : Bytes) (c : UDPConn)
    (hmode : toLower p.mode = octet)
    (hlisten : env.listen = some c) (hw : WriteToUDP (some c) = true)
    (hB : B.length < 65535 * 512)
    (hev : env.events
      = dataEvents raddr B 1 (blockCount B.length) ++ [.deadline, .deadline, .deadline]) :
    session env conn0 raddr store (.writeReq p)
      = .ret false (closeSession
          ⟨{ wrqCtx c raddr store.objs.length (blockCount B.length) with activeTx := false },
            ⟨store.objs ++ [⟨B, pathBase p.filepath⟩],
              fun k => if k = pathBase p.filepath then some store.objs.length
                else if k = pathBase p.filepath then none else store.files k⟩,
            .write raddr (newAck 0).bytes false
              :: (ackActions raddr 1 (B.length / 512)
                  ++ [.confirm, .write raddr (newAck (blockCount B.length)).bytes true])⟩) := by
  have hK : blockCount B.length = B.length / 512 + 1 := rfl
  have hobjs : store.objs ++ [(⟨[], pathBase p.filepath⟩ : MemoryFile)]
      = (store.objs ++ [(⟨[], pathBase p.filepath⟩ : MemoryFile)]).set store.objs.length
          ⟨B.take ((1 - 1) * 512), pathBase p.filepath⟩ := by
    rw [set_last]
    simp
  have hh : store.objs.length < (store.objs ++ [(⟨[], pathBase p.filepath⟩ : MemoryFile)]).length := by
    simp
  have hdm := Nat.div_mul_le_self B.length 512
  have hlt := Nat.lt_div_mul_add (a := B.length) (b := 512) (by decide)
  rw [handleWriteReq_start env conn0 raddr store p c hmode hlisten hw, hev, serveReq, hK,
    dataEvents_append raddr B (B.length / 512) 1 1, List.append_assoc, hobjs,
    wrq_loop dallyDelay c raddr raddr _ _ _ _ B _ hh hw (ipEqual_self _) rfl (B.length / 512) 1 _
      (le_refl _) (by simp only [Nat.add_sub_cancel_left]; omega) (by omega)]
  have e1 : 1 + B.length / 512 = B.length / 512 + 1 := by omega
  simp only [dataEvents, e1, List.singleton_append, List.cons_append, List.nil_append]
  rw [serveLoop_data dallyDelay c raddr raddr _ _ _ _ _ _ _ (ipEqual_self _) rfl (by omega)
      (chunk_length_le B _),
    handleData_last c raddr _ _ _ _ B _ 0 _ hh (by omega)
      (by simp only [Nat.add_sub_cancel]; omega) (by omega) hw]
  simp only []
  rw [serveLoop_dally]
  simp only [wrqCtx, Root.Save, List.set_set, set_last, List.getElem?_concat_length,
    MemoryFile.Name, List.cons_append, List.nil_append, List.append_assoc]

/-! ## A write followed by a read -/

theorem flatten_chunks (B : Bytes) :
    ∀ m, ((List.range m).map (fun j => chunk B (j + 1))).flatten = B.take (m * 512) := by
  intro m
  induction m with
  | zero => simp
  | succ m ih =>
    rw [List.range_succ, List.map_append, List.flatten_append, ih]
    simp only [List.map_cons, List.map_nil, List.flatten_cons, List.flatten_nil,
      List.append_nil]
    have := take_chunk B (m + 1) (by omega)
    simpa using this

/-- A completed WRQ session has saved the file under the base name of the
request. -/
theorem wrq_saved (env : Env) (conn0 : Option UDPConn) (raddr : UDPAddr)
    (store : Store) (p : reqPacket) (B : Bytes) (c : UDPConn)
    (hmode : toLower p.mode = octet)
    (hlisten : env.listen = some c) (hw : WriteToUDP (some c) = true)
    (hB : B.length < 65535 * 512)
    (hev : env.events
      = dataEvents raddr B 1 (blockCount B.length) ++ [.deadline, .deadline, .deadline]) :
    ∃ s1 : St, session env conn0 raddr store (.writeReq p) = .ret false s1
      ∧ Root.Open s1.store (pathBase p.filepath) = .ok store.objs.length
      ∧ s1.store.objs[store.objs.length]? = some ⟨B, pathBase p.filepath⟩ := by
  refine ⟨_, wrq_run env conn0 raddr store p B c hmode hlisten hw hB hev, ?_, ?_⟩
  · simp [Root.Open, closeSession]
  · simp [closeSession]

/-- C1. WRQ-then-RRQ round trip: for every name `N` and byte string `B` of
fewer than `65535 * 512` bytes, a WRQ session (mode `octet`, in any letter case)
whose client sends the 512-byte pieces of `B` in order as DATA(1), DATA(2), ...,
closed by the short (possibly empty) last piece, and then stays silent for the
dally period, returns and has saved a file of content `B` under the base name
of `N`; and in a following RRQ of `N` whose client acknowledges each block in
order, the payloads of the DATA packets the server writes, concatenated in the
order written, are exactly `B`. -/
theorem wrq_then_rrq (N B : Bytes) (store : Store) (envW envR : Env)
    (connW connR : Option UDPConn) (peerW peerR : UDPAddr) (cW cR : UDPConn)
    (opW opR : Nat) (modeW modeR : Bytes)
    (hB : B.length < 65535 * 512)
    (hmodeW : toLower modeW = octet) (hmodeR : toLower modeR = octet)
    (hlistenW : envW.listen = some cW) (hwW : WriteToUDP (some cW) = true)
    (hlistenR : envR.listen = some cR) (hwR : WriteToUDP (some cR) = true)
    (hevW : envW.events
      = dataEvents peerW B 1 (blockCount B.length) ++ [.deadline, .deadline, .deadline])
    (hevR : envR.events = ackEvents peerR 1 (blockCount B.length)) :
    ∃ s1 : St,
      session envW connW peerW store (.writeReq ⟨opW, N, modeW⟩) = .ret false s1
      ∧ (∃ file, Root.Open s1.store (pathBase N) = .ok file ∧ s1.store.content file = some B)
      ∧ ((dataBlocks (session envR connR peerR s1.store (.readReq ⟨opR, N, modeR⟩)).log).map
            Prod.snd).flatten = B := by
  obtain ⟨s1, hwrq, hopen, hobj⟩ :=
    wrq_saved envW connW peerW store ⟨opW, N, modeW⟩ B cW hmodeW hlistenW hwW hB hevW
  refine ⟨s1, hwrq, ⟨store.objs.length, hopen, ?_⟩, ?_⟩
  · simp only [Store.content, hobj, Option.map_some']
  · have hrun := rrq_run envR connR peerR s1.store ⟨opR, N, modeR⟩ store.objs.length B
      (pathBase N) cR hmodeR hopen hobj hlistenR hwR hB hevR
    have hblocks : dataBlocks (.write peerR (newData 1 (chunk B 1)).bytes false
        :: dataActions peerR B 2 (B.length / 512))
        = (List.range (B.length / 512 + 1)).map (fun j => (j + 1, chunk B (j + 1))) := by
      rw [dataBlocks_write_data peerR 1 _ false _ (by decide),
        dataBlocks_dataActions peerR B _ 2 (by omega), List.range_succ_eq_map]
      simp only [List.map_cons, List.map_map, Nat.zero_add, List.cons.injEq, true_and]
      apply List.map_congr_left
      intro j _
      simp only [Function.comp_apply]
      have e : 2 + j = j + 1 + 1 := by omega
      rw [e]
    have hlog : dataBlocks (session envR connR peerR s1.store (.readReq ⟨opR, N, modeR⟩)).log
        = (List.range (B.length / 512 + 1)).map (fun j => (j + 1, chunk B (j + 1))) := by
      rw [hrun]
      split_ifs with hlt
      · show dataBlocks (.write peerR (newData 1 (chunk B 1)).bytes false
            :: (dataActions peerR B 2 (B.length / 512) ++ [.confirm])) = _
        rw [← List.cons_append, dataBlocks_append, hblocks]
        simp [dataBlocks]
      · exact hblocks
    rw [hlog, List.map_map]
    have hj := flatten_chunks B (B.length / 512 + 1)
    have hlt := Nat.lt_div_mul_add (a := B.length) (b := 512) (by decide)
    rw [List.take_of_length_le (by omega)] at hj
    exact hj

set_option maxRecDepth 4000 in
theorem wrq_then_rrq_witness :
    ∃ s1 : St,
      session ⟨some goodConn, dataEvents peer [104, 105, 10] 1
            (blockCount ([104, 105, 10] : Bytes).length) ++ [.deadline, .deadline, .deadline]⟩
          (some goodConn) peer filesystem.New (.writeReq ⟨WriteReq, [102], octet⟩) = .ret false s1
      ∧ (∃ file, Root.Open s1.store (pathBase [102]) = .ok file
          ∧ s1.store.content file = some [104, 105, 10])
      ∧ ((dataBlocks (session
            ⟨some goodConn, ackEvents peer 1 (blockCount ([104, 105, 10] : Bytes).length)⟩
            (some goodConn) peer s1.store (.readReq ⟨ReadReq, [102], octet⟩)).log).map
            Prod.snd).flatten = [104, 105, 10] :=
  wrq_then_rrq [102] [104, 105, 10] filesystem.New
    ⟨some goodConn, dataEvents peer [104, 105, 10] 1
      (blockCount ([104, 105, 10] : Bytes).length) ++ [.deadline, .deadline, .deadline]⟩
    ⟨some goodConn, ackEvents peer 1 (blockCount ([104, 105, 10] : Bytes).length)⟩
    (some goodConn) (some goodConn) peer peer goodConn goodConn WriteReq ReadReq octet octet
    (by simp) (by decide) (by decide) rfl rfl rfl rfl (by simp only) (by simp only)

/-! ## The store -/

theorem WriteAt_name (f f' : MemoryFile) (b : Bytes) (off n : Int) (e : Option FileError)
    (hf : f.WriteAt b off = some (n, e, f')) : f'.name = f.name := by
  simp only [MemoryFile.WriteAt] at hf
  by_cases h1 : off < 0
  · simp only [h1, if_true, Option.some.injEq, Prod.mk.injEq] at hf
    rw [← hf.2.2]
  · by_cases h2 : off + (b.length : Int) > (f.data.length : Int)
    · by_cases h3 : off > (f.data.length : Int)
      · simp [h1, h2, h3] at hf
      · simp only [h1, h2, h3, if_false, if_true, Option.some.injEq, Prod.mk.injEq] at hf
        rw [← hf.2.2]
    · simp only [h1, h2, if_false, Option.some.injEq, Prod.mk.injEq] at hf
      rw [← hf.2.2]

theorem Store_WriteAt_frame (r r' : Store) (h : Nat) (b : Bytes) (off n : Int)
    (e : Option FileError) (hw : r.WriteAt h b off = some (n, e, r')) :
    r'.files = r.files ∧ r'.objs.length = r.objs.length
      ∧ (∀ g, g ≠ h → r'.objs[g]? = r.objs[g]?)
      ∧ (r'.objs[h]?).map MemoryFile.name = (r.objs[h]?).map MemoryFile.name := by
  unfold Store.WriteAt at hw
  cases hobj : r.objs[h]? with
  | none => simp [hobj] at hw
  | some f =>
    simp only [hobj] at hw
    cases hf : f.WriteAt b off with
    | none => simp [hf] at hw
    | some res =>
      obtain ⟨n', e', f'⟩ := res
      simp only [hf, Option.some.injEq, Prod.mk.injEq] at hw
      obtain ⟨_, _, hr⟩ := hw
      subst hr
      have hlt : h < r.objs.length := by
        by_contra hc
        rw [List.getElem?_eq_none (by omega)] at hobj
        cases hobj
      have hname : f'.name = f.name := WriteAt_name f f' b off n' e' hf
      refine ⟨rfl, by simp, ?_, ?_⟩
      · intro g hg
        exact List.getElem?_set_ne (Ne.symm hg)
      · simp [List.getElem?_set_self hlt, hname]

theorem writeAll_frame (h : Nat) (ws : List (Bytes × Int)) :
    ∀ r : Store, (r.writeAll h ws).files = r.files
      ∧ (r.writeAll h ws).objs.length = r.objs.length
      ∧ (∀ g, g ≠ h → (r.writeAll h ws).objs[g]? = r.objs[g]?)
      ∧ ((r.writeAll h ws).objs[h]?).map MemoryFile.name = (r.objs[h]?).map MemoryFile.name := by
  induction ws with
  | nil => intro r; exact ⟨rfl, rfl, fun _ _ => rfl, rfl⟩
  | cons w ws ih =>
    intro r
    obtain ⟨b, off⟩ := w
    simp only [Store.writeAll]
    cases hw : r.WriteAt h b off with
    | none => exact ih r
    | some res =>
      obtain ⟨n, e, r'⟩ := res
      obtain ⟨f1, f2, f3, f4⟩ := Store_WriteAt_frame r r' h b off n e hw
      obtain ⟨i1, i2, i3, i4⟩ := ih r'
      simp only []
      refine ⟨i1.trans f1, i2.trans f2, fun g hg => (i3 g hg).trans (f3 g hg), i4.trans f4⟩

theorem send_store (s : St) (pkt : Packet) (once : Bool) : (send s pkt once).2.store = s.store := by
  unfold send
  cases pkt.MarshalBinary with
  | error e => rfl
  | ok b =>
    simp only []
    split_ifs <;> rfl

theorem confirm_store (s : St) : (confirmPreviousPktSent s).store = s.store := by
  unfold confirmPreviousPktSent
  split_ifs <;> rfl

theorem readBlock_store (s s1 : St) (b : Nat) (p : Option Packet) (e : Option FileError)
    (h : readBlock s b = some (p, e, s1)) : s1.store = s.store := by
  unfold readBlock at h
  cases hf : s.ctx.file with
  | none => simp [hf] at h
  | some file =>
    simp only [hf] at h
    cases hr : s.store.ReadAt file (make 512) (((b : Int) - 1) * 512) with
    | none => simp [hr] at h
    | some res =>
      obtain ⟨n, err, buf⟩ := res
      simp only [hr] at h
      split_ifs at h <;> simp only [Option.some.injEq, Prod.mk.injEq] at h <;>
        (obtain ⟨_, _, h⟩ := h; subst h; rfl)

/-- `handleData` changes no entry of the map of the store. -/
theorem handleData_files (s : St) (pkt : Packet) :
    (handleData s pkt).holds (fun s1 => s1.store.files = s.store.files) := by
  cases pkt with
  | data p =>
    simp only [handleData]
    by_cases hb : s.ctx.block ≠ p.block
    · rw [if_pos hb]
      exact rfl
    · rw [if_neg hb]
      cases hf : s.ctx.file with
      | none => simp only [Res.holds]
      | some file =>
        simp only []
        cases hw : s.store.WriteAt file p.data (((s.ctx.block : Int) - 1) * 512) with
        | none => simp only [Res.holds]
        | some res =>
          obtain ⟨n, e, st⟩ := res
          have hfr : st.files = s.store.files :=
            (Store_WriteAt_frame s.store st file p.data _ n e hw).1
          cases e with
          | some err =>
            simp only [Res.holds]
            exact hfr
          | none =>
            simp only []
            by_cases hl : p.data.length < 512
            · rw [if_pos hl]
              simp only [Res.holds, send_store, confirm_store]
              exact hfr
            · rw [if_neg hl]
              split_ifs
              · simp only [Res.holds, send_store, confirm_store]
                exact hfr
              · simp only [Res.holds, send_store, confirm_store]
                exact hfr
  | readReq p => simp only [handleData, Res.holds]
  | writeReq p => simp only [handleData, Res.holds]
  | ack p => simp only [handleData, Res.holds]
  | error p => simp only [handleData, Res.holds]

/-- `handleAck` leaves the store as it is. -/
theorem handleAck_store (s : St) (pkt : Packet) :
    (handleAck s pkt).holds (fun s1 => s1.store = s.store) := by
  cases pkt with
  | ack p =>
    simp only [handleAck]
    by_cases hb : s.ctx.block ≠ p.block
    · rw [if_pos hb]
      exact rfl
    · rw [if_neg hb]
      cases hr : getNextDataBlock s with
      | none => simp only [Res.holds]
      | some res =>
        obtain ⟨b, e, s2⟩ := res
        have hs2 : s2.store = s.store := readBlock_store s s2 _ b e hr
        cases e with
        | some err =>
          simp only [Res.holds]
          exact hs2
        | none =>
          cases b with
          | none =>
            simp only [Res.holds, confirm_store]
            exact hs2
          | some pk =>
            simp only []
            split_ifs
            · simp only [Res.holds, send_store, confirm_store]
              exact hs2
            · simp only [Res.holds, send_store, confirm_store]
              exact hs2
  | readReq p => simp only [handleAck, Res.holds]
  | writeReq p => simp only [handleAck, Res.holds]
  | data p => simp only [handleAck, Res.holds]
  | error p => simp only [handleAck, Res.holds]

theorem Res.holds_mono {α : Type} {P Q : St → Prop} (r : Res α) (h : ∀ s, P s → Q s)
    (hr : r.holds P) : r.holds Q := by
  cases r with
  | ret v s => exact h s hr
  | blocked s => exact h s hr
  | panic => exact trivial
  | nested => exact trivial

/-- `process` inside the receive loop changes no entry of the map of the store. -/
theorem process_loop_files (s : St) (pkt : Packet) :
    (process loopHandlers s pkt).holds (fun s1 => s1.store.files = s.store.files) := by
  simp only [process]
  split_ifs with hg
  · show (send _ _ _).2.store.files = _
    rw [send_store]
  · cases pkt with
    | readReq p => exact trivial
    | writeReq p => exact trivial
    | data p => exact handleData_files s _
    | ack p =>
      exact Res.holds_mono _ (fun s1 h => by rw [h]) (handleAck_store s (.ack p))
    | error p => exact trivial

/-- The receive loop changes no entry of the map of the store. -/
theorem serveLoop_files (dally : Nat) :
    ∀ (evs : List Event) (buf : Bytes) (i : Nat) (done : Bool) (s : St),
      (serveLoop dally evs buf i done s).holds (fun s1 => s1.store.files = s.store.files) := by
  intro evs
  induction evs with
  | nil =>
    intro buf i done s
    simp only [serveLoop]
    split_ifs <;> exact rfl
  | cons e rest ih =>
    intro buf i done s
    by_cases hc : (!done || decide (i < dally)) = true
    · cases e with
      | timeout =>
        simp only [serveLoop, hc, if_true]
        exact rfl
      | deadline =>
        simp only [serveLoop, hc, if_true]
        exact ih _ _ _ _
      | readErr =>
        simp only [serveLoop, hc, if_true]
        exact ih _ _ _ _
      | datagram addr d =>
        simp only [serveLoop, hc, if_true]
        split_ifs with hfor
        · refine Res.holds_mono _ (fun s1 h => ?_)
            (ih _ 0 done (send s (newError UnknownTID []) true).2)
          rw [h, send_store]
        · cases hp : newPacket (ReadFromUDP buf d).2 ((ReadFromUDP buf d).1 : Nat) with
          | error e => exact ih _ _ _ _
          | ok pkt =>
            simp only []
            have hpr := process_loop_files s pkt
            cases hr : process loopHandlers s pkt with
            | ret v s2 =>
              rw [hr] at hpr
              simp only []
              exact Res.holds_mono _ (fun s1 h => h.trans hpr) (ih _ 0 v s2)
            | blocked s2 =>
              rw [hr] at hpr
              exact hpr
            | panic => simp only [Res.holds]
            | nested => simp only [Res.holds]
    · simp only [serveLoop, hc]
      exact rfl

/-- While a WRQ session waits in its receive loop, the name it writes has no
entry in the store. -/
theorem wrq_in_progress (env : Env) (conn0 : Option UDPConn) (raddr : UDPAddr) (r : Store)
    (p : reqPacket) (st : St)
    (h : session env conn0 raddr r (.writeReq p) = .blocked st) :
    Root.Open st.store (pathBase p.filepath) = .error .notExist := by
  have hl : ((Packet.writeReq p).OpCode,
      (⟨newSessionContext conn0 raddr, r, []⟩ : St).ctx.state) ∈ legalPairs := by
    show (WriteReq, SessionState.INI) ∈ legalPairs
    decide
  rw [session, process_accept _ _ _ hl] at h
  change handleWriteReq env _ _ = _ at h
  simp only [handleWriteReq] at h
  cases hlisten : env.listen with
  | none => simp [hlisten] at h
  | some c =>
    simp only [hlisten] at h
    by_cases hmode : toLower p.mode ≠ octet
    · simp [hmode] at h
    · simp only [hmode, if_false] at h
      split_ifs at h with hs
      generalize hst0 : (send _ (newAck 0) false).2 = s0 at h
      have hs0 : s0.store.files = fun k => if k = pathBase p.filepath then none else r.files k := by
        rw [← hst0, send_store]
        rfl
      have hinv := serveLoop_files dallyDelay env.events (make (2 + 2 + 512)) 0 false s0
      rw [serveReq] at h
      cases hr : serveLoop dallyDelay env.events (make (2 + 2 + 512)) 0 false s0 with
      | ret v s1 =>
        rw [hr] at h
        cases v with
        | some e => simp at h
        | none =>
          simp only [] at h
          cases hf : s1.ctx.file with
          | none => simp [hf] at h
          | some file =>
            simp only [hf] at h
            cases hsv : Root.Save s1.store file with
            | none => simp [hsv] at h
            | some st2 => simp [hsv] at h
      | blocked s1 =>
        rw [hr] at h hinv
        simp only [Res.blocked.injEq] at h
        subst h
        have hfiles : s1.store.files = s0.store.files := hinv
        simp only [Root.Open, hfiles, hs0, if_true]
      | panic => rw [hr] at h; simp at h
      | nested => rw [hr] at h; simp at h

/-- C10. Store visibility and overwrite atomicity: after `CreateMemoryFile(N)`
the call `Open(N)` fails with not-found, and goes on failing after any sequence
of `WriteAt` calls on the new handle; `Save` of the handle then succeeds and
`Open(N)` returns that same handle, holding what the writes left in it;
`CreateMemoryFile`, the writes and `Save` do not change what `Open` returns for
another name, nor the content behind a handle that existed before (one saved
earlier under `N` among them). While a WRQ session is in its receive loop,
`Open` of the name it writes fails with not-found. -/
theorem store_visibility (r : Store) (N : Bytes) (ws : List (Bytes × Int)) :
    let r1 := (Root.CreateMemoryFile r N).1
    let h := (Root.CreateMemoryFile r N).2
    let r2 := r1.writeAll h ws
    Root.Open r1 N = .error .notExist
    ∧ Root.Open r2 N = .error .notExist
    ∧ (∃ r3, Root.Save r2 h = some r3 ∧ Root.Open r3 N = .ok h
        ∧ r3.content h = r2.content h
        ∧ (∀ M, M ≠ N → Root.Open r3 M = Root.Open r M)
        ∧ (∀ g, g < r.objs.length → r3.content g = r.content g))
    ∧ (∀ M, M ≠ N → Root.Open r1 M = Root.Open r M ∧ Root.Open r2 M = Root.Open r M)
    ∧ (∀ g, g < r.objs.length → r1.content g = r.content g ∧ r2.content g = r.content g)
    ∧ (∀ (env : Env) (conn0 : Option UDPConn) (raddr : UDPAddr) (p : reqPacket) (st : St),
        session env conn0 raddr r (.writeReq p) = .blocked st →
          Root.Open st.store (pathBase p.filepath) = .error .notExist) := by
  intro r1 h r2
  obtain ⟨w1, w2, w3, w4⟩ := writeAll_frame h ws r1
  have hh : (h : Nat) = r.objs.length := rfl
  have hr1files : r1.files = fun k => if k = N then none else r.files k := rfl
  have hr1obj : r1.objs[h]? = some ⟨[], N⟩ := by
    show (r.objs ++ [_])[r.objs.length]? = _
    exact List.getElem?_concat_length _ _
  have hr1old : ∀ g, g < r.objs.length → r1.objs[g]? = r.objs[g]? := by
    intro g hg
    show (r.objs ++ [_])[g]? = _
    exact List.getElem?_append_left hg
  have hopen1 : Root.Open r1 N = .error .notExist := by
    simp only [Root.Open, hr1files, if_true]
  have hopen2 : Root.Open r2 N = .error .notExist := by
    simp only [Root.Open, show r2.files = r1.files from w1, hr1files, if_true]
  have hother1 : ∀ M, M ≠ N → Root.Open r1 M = Root.Open r M := by
    intro M hM
    simp only [Root.Open, hr1files, hM, if_false]
  have hother2 : ∀ M, M ≠ N → Root.Open r2 M = Root.Open r M := by
    intro M hM
    rw [← hother1 M hM]
    simp only [Root.Open, show r2.files = r1.files from w1]
  have hold2 : ∀ g, g < r.objs.length → r2.objs[g]? = r.objs[g]? := by
    intro g hg
    have hne : g ≠ h := fun e => by
      rw [e, hh] at hg
      exact Nat.lt_irrefl _ hg
    rw [show r2.objs[g]? = r1.objs[g]? from w3 g hne, hr1old g hg]
  obtain ⟨f2, hf2, hname2⟩ : ∃ f2, r2.objs[h]? = some f2 ∧ f2.name = N := by
    have hm : (r2.objs[h]?).map MemoryFile.name = some N := by
      rw [show (r2.objs[h]?).map MemoryFile.name = (r1.objs[h]?).map MemoryFile.name from w4,
        hr1obj]
      rfl
    cases hx : r2.objs[h]? with
    | none => rw [hx] at hm; cases hm
    | some f2 =>
      rw [hx] at hm
      exact ⟨f2, rfl, by simpa using hm⟩
  refine ⟨hopen1, hopen2, ?_, fun M hM => ⟨hother1 M hM, hother2 M hM⟩, ?_, ?_⟩
  · refine ⟨{ r2 with files := fun k => if k = f2.Name then some h else r2.files k }, ?_, ?_,
      rfl, ?_, ?_⟩
    · simp only [Root.Save, hf2]
    · simp only [Root.Open, MemoryFile.Name, hname2, if_true]
    · intro M hM
      rw [← hother2 M hM]
      simp only [Root.Open, MemoryFile.Name, hname2, hM, if_false]
    · intro g hg
      simp only [Store.content, hold2 g hg]
  · intro g hg
    exact ⟨by simp only [Store.content, hr1old g hg], by simp only [Store.content, hold2 g hg]⟩
  · intro env conn0 raddr p st hst
    exact wrq_in_progress env conn0 raddr r p st hst

theorem store_visibility_witness :
    Root.Open ((Root.CreateMemoryFile hiStore [102]).1.writeAll
      (Root.CreateMemoryFile hiStore [102]).2 [([1, 2], 0)]) [102] = .error .notExist :=
  (store_visibility hiStore [102] [([1, 2], 0)]).2.1

/-! ## Writing inside a file -/

theorem WriteAt_at (f : MemoryFile) (b : Bytes) (k : Nat) (hk : k ≤ f.data.length) :
    f.WriteAt b (k : Int)
      = some ((b.length : Int), none, { data := overwrite f.data k b, name := f.name }) := by
  have a1 : ¬ ((k : Int) < 0) := by omega
  have a3 : ¬ ((k : Int) > (f.data.length : Int)) := by omega
  by_cases h2 : (k : Int) + (b.length : Int) > (f.data.length : Int)
  · have hd : f.data.drop (k + b.length) = [] := List.drop_eq_nil_of_le (by omega)
    simp only [MemoryFile.WriteAt, a1, h2, a3, if_false, if_true, Int.toNat_ofNat, overwrite,
      hd, List.append_nil]
  · have e : ((k : Int) + (b.length : Int)).toNat = k + b.length := by omega
    simp only [MemoryFile.WriteAt, a1, h2, if_false, Int.toNat_ofNat, e, overwrite,
      List.append_assoc]

theorem overwrite_length (D p : Bytes) (k : Nat) (hk : k ≤ D.length) :
    k + p.length ≤ (overwrite D k p).length := by
  simp only [overwrite, List.length_append, List.length_take, List.length_drop]
  omega

/-- Writing the same bytes at the same place again changes nothing. -/
theorem overwrite_idem (D p : Bytes) (k : Nat) (hk : k ≤ D.length) :
    overwrite (overwrite D k p) k p = overwrite D k p := by
  have ht : (D.take k).length = k := by
    rw [List.length_take]; exact Nat.min_eq_left hk
  have h1 : (overwrite D k p).take k = D.take k := by
    simp only [overwrite, List.append_assoc]
    rw [List.take_append_of_le_length (by omega)]
    rw [List.take_of_length_le (by omega)]
  have h2 : (overwrite D k p).drop (k + p.length) = D.drop (k + p.length) := by
    have e : overwrite D k p = (D.take k ++ p) ++ D.drop (k + p.length) := rfl
    have hl : (D.take k ++ p).length = k + p.length := by
      rw [List.length_append, ht]
    rw [e, ← hl, List.drop_left]
  show (overwrite D k p).take k ++ p ++ (overwrite D k p).drop (k + p.length) = _
  rw [h1, h2]
  rfl


/-! ## `WriteAt` on slices -/

theorem Slice.bytes_length (m : Heap) (s : Slice) (h : s.valid m) :
    (s.bytes m).length = s.len := by
  obtain ⟨_, h2, h3⟩ := h
  simp only [Slice.bytes, List.length_take, List.length_drop]
  omega

theorem Heap.array_set_self (m : Heap) (a : Nat) (A : Bytes) (h : a < m.length) :
    Heap.array (m.set a A) a = A := by
  simp only [Heap.array, List.getElem?_set_self h, Option.getD_some]

theorem Heap.array_set_ne (m : Heap) (a c : Nat) (A : Bytes) (h : c ≠ a) :
    Heap.array (m.set a A) c = Heap.array m c := by
  simp only [Heap.array]
  rw [List.getElem?_set_ne (fun e => h e.symm)]

theorem Heap.array_append_old (m : Heap) (A : Bytes) (c : Nat) (h : c < m.length) :
    Heap.array (m ++ [A]) c = Heap.array m c := by
  simp only [Heap.array]
  rw [List.getElem?_append_left h]

theorem Heap.array_append_new (m : Heap) (A : Bytes) :
    Heap.array (m ++ [A]) m.length = A := by
  simp only [Heap.array, List.getElem?_concat_length, Option.getD_some]

/-- The elements `lo .. lo + len + |xs|` of an array after `xs` was written
at `lo + len`. -/
theorem splice_window (A xs : Bytes) (lo len : Nat) (h : lo + len + xs.length ≤ A.length) :
    ((A.take (lo + len) ++ xs ++ A.drop (lo + len + xs.length)).drop lo).take (len + xs.length)
      = (A.drop lo).take len ++ xs := by
  have e1 : (A.take (lo + len)).length = lo + len := by
    rw [List.length_take]
    omega
  rw [List.append_assoc, List.drop_append_of_le_length (by omega),
    List.take_append_eq_append_take]
  have e2 : ((A.take (lo + len)).drop lo).length = len := by
    rw [List.length_drop, e1]
    omega
  rw [e2, List.take_of_length_le (by omega)]
  have e3 : len + xs.length - len = xs.length := by omega
  rw [e3, List.take_append_of_le_length (le_refl _), List.take_of_length_le (le_refl _)]
  congr 1
  rw [List.drop_take]
  have e4 : lo + len - lo = len := by omega
  rw [e4]

theorem splice_length (A xs : Bytes) (k : Nat) (h : k + xs.length ≤ A.length) :
    (A.take k ++ xs ++ A.drop (k + xs.length)).length = A.length := by
  simp only [List.length_append, List.length_take, List.length_drop]
  omega

/-- What `append` returns: the elements of both slices, in a slice that is the
first one grown in place or lies in a new array; the other arrays are as
before. -/
theorem goAppend_spec (spare : Nat → Nat) (m : Heap) (s t : Slice)
    (hs : s.valid m) (ht : t.valid m) :
    (goAppend spare m s t).2.bytes (goAppend spare m s t).1 = s.bytes m ++ t.bytes m
    ∧ (goAppend spare m s t).2.valid (goAppend spare m s t).1
    ∧ (goAppend spare m s t).2.len = s.len + t.len
    ∧ ((goAppend spare m s t).2.arr = s.arr ∨ (goAppend spare m s t).2.arr = m.length)
    ∧ m.length ≤ (goAppend spare m s t).1.length
    ∧ (∀ c, c ≠ s.arr → c < m.length →
        Heap.array (goAppend spare m s t).1 c = Heap.array m c)
    ∧ (Heap.array (goAppend spare m s t).1 s.arr).length = (Heap.array m s.arr).length := by
  have hsl := Slice.bytes_length m s hs
  have htl := Slice.bytes_length m t ht
  obtain ⟨hs1, hs2, hs3⟩ := hs
  by_cases hfit : s.len + t.len ≤ s.cap
  · have hg : goAppend spare m s t
        = (m.set s.arr ((Heap.array m s.arr).take (s.lo + s.len) ++ t.bytes m
              ++ (Heap.array m s.arr).drop (s.lo + s.len + (t.bytes m).length)),
           { arr := s.arr, lo := s.lo, len := s.len + t.len, cap := s.cap }) := by
      simp only [goAppend, hfit, if_true]
    have hin : s.lo + s.len + (t.bytes m).length ≤ (Heap.array m s.arr).length := by
      rw [htl]
      omega
    have hA := Heap.array_set_self m s.arr
      ((Heap.array m s.arr).take (s.lo + s.len) ++ t.bytes m
        ++ (Heap.array m s.arr).drop (s.lo + s.len + (t.bytes m).length)) hs1
    have hlenA := splice_length (Heap.array m s.arr) (t.bytes m) (s.lo + s.len) hin
    rw [hg]
    refine ⟨?_, ⟨?_, hfit, ?_⟩, rfl, Or.inl rfl, ?_, ?_, ?_⟩
    · show ((Heap.array (m.set s.arr _) s.arr).drop s.lo).take (s.len + t.len) = _
      rw [hA, ← htl, splice_window _ _ _ _ hin]
      rfl
    · show s.arr < (m.set s.arr _).length
      rw [List.length_set]
      exact hs1
    · show s.lo + s.cap ≤ (Heap.array (m.set s.arr _) s.arr).length
      rw [hA, hlenA]
      exact hs3
    · show m.length ≤ (m.set s.arr _).length
      rw [List.length_set]
    · intro c hc _
      exact Heap.array_set_ne m s.arr c _ hc
    · show (Heap.array (m.set s.arr _) s.arr).length = _
      rw [hA, hlenA]
  · have hg : goAppend spare m s t
        = (m ++ [s.bytes m ++ t.bytes m ++ make (spare (s.len + t.len))],
           { arr := m.length, lo := 0, len := s.len + t.len,
             cap := s.len + t.len + spare (s.len + t.len) }) := by
      simp only [goAppend, hfit, if_false]
    rw [hg]
    refine ⟨?_, ⟨?_, ?_, ?_⟩, rfl, Or.inr rfl, ?_, ?_, ?_⟩
    · show ((Heap.array (m ++ [_]) m.length).drop 0).take (s.len + t.len) = _
      rw [Heap.array_append_new, List.drop_zero,
        List.take_append_of_le_length (by rw [List.length_append, hsl, htl]),
        List.take_of_length_le (by rw [List.length_append, hsl, htl])]
    · show m.length < (m ++ [_]).length
      simp
    · show s.len + t.len ≤ s.len + t.len + spare (s.len + t.len)
      omega
    · show 0 + (s.len + t.len + spare (s.len + t.len))
        ≤ (Heap.array (m ++ [_]) m.length).length
      rw [Heap.array_append_new]
      simp only [List.length_append, hsl, htl, make_length]
      omega
    · show m.length ≤ (m ++ [_]).length
      simp
    · intro c _ hc
      exact Heap.array_append_old m _ c hc
    · show (Heap.array (m ++ [_]) s.arr).length = _
      rw [Heap.array_append_old m _ s.arr hs1]

theorem Slice.upTo_spec (m : Heap) (data : Slice) (k : Nat) (hd : data.valid m)
    (hk : k ≤ data.len) :
    data.upTo k = some { arr := data.arr, lo := data.lo, len := k, cap := data.cap }
    ∧ Slice.valid m { arr := data.arr, lo := data.lo, len := k, cap := data.cap }
    ∧ Slice.bytes m { arr := data.arr, lo := data.lo, len := k, cap := data.cap }
        = (data.bytes m).take k := by
  obtain ⟨h1, h2, h3⟩ := hd
  refine ⟨?_, ⟨h1, by show k ≤ data.cap; omega, h3⟩, ?_⟩
  · simp only [Slice.upTo, show k ≤ data.cap by omega, if_true]
  · show ((Heap.array m data.arr).drop data.lo).take k
      = (((Heap.array m data.arr).drop data.lo).take data.len).take k
    rw [List.take_take, Nat.min_eq_left hk]

theorem Slice.startAt_spec (m : Heap) (data : Slice) (n : Nat) (hd : data.valid m)
    (hn : n ≤ data.len) :
    data.startAt n
      = some { arr := data.arr, lo := data.lo + n, len := data.len - n, cap := data.cap - n }
    ∧ Slice.valid m
        { arr := data.arr, lo := data.lo + n, len := data.len - n, cap := data.cap - n }
    ∧ Slice.bytes m
        { arr := data.arr, lo := data.lo + n, len := data.len - n, cap := data.cap - n }
        = (data.bytes m).drop n := by
  obtain ⟨h1, h2, h3⟩ := hd
  refine ⟨?_, ⟨h1, ?_, ?_⟩, ?_⟩
  · simp only [Slice.startAt, hn, if_true]
  · show data.len - n ≤ data.cap - n
    omega
  · show data.lo + n + (data.cap - n) ≤ (Heap.array m data.arr).length
    omega
  · show ((Heap.array m data.arr).drop (data.lo + n)).take (data.len - n)
      = (((Heap.array m data.arr).drop data.lo).take data.len).drop n
    rw [List.drop_take, List.drop_drop]

/-- `WriteAt` on slices, for an offset inside the file or at its end and an
argument that lies in another array than the content of the file: the content
on return is the one the function on values gives, and it lies in the array
of the file or in a new one, never in the array of the argument. -/
theorem WriteAtSlices_spec (spare : Nat → Nat) (m : Heap) (data b : Slice) (k : Nat)
    (hd : data.valid m) (hb : b.valid m) (hsep : data.arr ≠ b.arr) (hk : k ≤ data.len) :
    ∃ m' data', WriteAtSlices spare m data b (k : Int) = some ((b.len : Int), none, m', data')
      ∧ data'.bytes m' = overwrite (data.bytes m) k (b.bytes m)
      ∧ data'.valid m' ∧ data'.arr ≠ b.arr := by
  have hdl := Slice.bytes_length m data hd
  have hbl := Slice.bytes_length m b hb
  obtain ⟨hu, hsv, hsb⟩ := Slice.upTo_spec m data k hd hk
  have a1 : ¬ ((k : Int) < 0) := by omega
  have hb1 : b.arr < m.length := hb.1
  by_cases hext : (k : Int) + (b.len : Int) > (data.len : Int)
  · obtain ⟨g1, g2, _, g4, g5, _, _⟩ := goAppend_spec spare m _ b hsv hb
    refine ⟨_, _, ?_, ?_, g2, ?_⟩
    · simp only [WriteAtSlices, a1, hext, if_false, if_true, Int.toNat_ofNat, hu]
    · rw [g1, hsb]
      have hdrop : (data.bytes m).drop (k + (b.bytes m).length) = [] :=
        List.drop_eq_nil_of_le (by rw [hdl, hbl]; omega)
      simp only [overwrite, hdrop, List.append_nil]
    · rcases g4 with e | e
      · rw [e]; exact hsep
      · rw [e]; omega
  · have hn : k + b.len ≤ data.len := by omega
    obtain ⟨ht, htv, htb⟩ := Slice.startAt_spec m data (k + b.len) hd hn
    obtain ⟨x1, x2, x3, x4, x5, x6, x7⟩ := goAppend_spec spare m b _ hb htv
    have harr : Heap.array (goAppend spare m b
        { arr := data.arr, lo := data.lo + (k + b.len), len := data.len - (k + b.len),
          cap := data.cap - (k + b.len) }).1 data.arr = Heap.array m data.arr :=
      x6 data.arr hsep hd.1
    have hsv1 : Slice.valid (goAppend spare m b
        { arr := data.arr, lo := data.lo + (k + b.len), len := data.len - (k + b.len),
          cap := data.cap - (k + b.len) }).1
        { arr := data.arr, lo := data.lo, len := k, cap := data.cap } := by
      refine ⟨?_, hsv.2.1, ?_⟩
      · show data.arr < _
        have := hd.1
        omega
      · show data.lo + data.cap ≤ (Heap.array _ data.arr).length
        rw [harr]
        exact hd.2.2
    have hsb1 : Slice.bytes (goAppend spare m b
        { arr := data.arr, lo := data.lo + (k + b.len), len := data.len - (k + b.len),
          cap := data.cap - (k + b.len) }).1
        { arr := data.arr, lo := data.lo, len := k, cap := data.cap }
        = (data.bytes m).take k := by
      rw [← hsb]
      show ((Heap.array _ data.arr).drop data.lo).take k = _
      rw [harr]
      rfl
    obtain ⟨y1, y2, _, y4, _, _, _⟩ := goAppend_spec spare _ _ _ hsv1 x2
    have e : ((k : Int) + (b.len : Int)).toNat = k + b.len := by omega
    refine ⟨_, _, ?_, ?_, y2, ?_⟩
    · simp only [WriteAtSlices, a1, hext, if_false, Int.toNat_ofNat, hu, e, ht]
    · rw [y1, hsb1, x1, htb]
      simp only [overwrite, hbl, List.append_assoc]
    · rcases y4 with e1 | e1
      · rw [e1]; exact hsep
      · rw [e1]; omega

/-- C11. `MemoryFile.WriteAt` on a file of content `D`, for an offset
`0 ≤ off ≤ len D`: it returns `(len b, no error)`; when `off + len b ≤ len D`
the new content is `D[0:off] ++ b ++ D[off + len b:]` and the size is the
same; when `off + len b > len D` the new content is `D[0:off] ++ b`, of size
`off + len b`. For `off < 0` it fails with the invalid-argument error and the
file is as before. The stored bytes are a copy: followed on the slices, with
`f.data` and the argument in two arrays, the call leaves `f.data` in the array
of the file or in a new one, holding the content above, and that content is
the same in every heap that differs from the heap on return in the array of
the argument only. -/
theorem WriteAt_result (f : MemoryFile) (b : Bytes) (off : Int) :
    (0 ≤ off → off ≤ (f.data.length : Int) → off + (b.length : Int) ≤ (f.data.length : Int) →
        f.WriteAt b off = some ((b.length : Int), none,
            { data := f.data.take off.toNat ++ b ++ f.data.drop (off.toNat + b.length),
              name := f.name })
          ∧ (f.data.take off.toNat ++ b ++ f.data.drop (off.toNat + b.length)).length
              = f.data.length)
    ∧ (0 ≤ off → off ≤ (f.data.length : Int) → off + (b.length : Int) > (f.data.length : Int) →
        f.WriteAt b off = some ((b.length : Int), none,
            { data := f.data.take off.toNat ++ b, name := f.name })
          ∧ (f.data.take off.toNat ++ b).length = off.toNat + b.length)
    ∧ (off < 0 → f.WriteAt b off = some (-1, some .invalid, f))
    ∧ (∀ (spare : Nat → Nat) (m : Heap) (data arg : Slice),
        data.valid m → arg.valid m → data.arr ≠ arg.arr →
        data.bytes m = f.data → arg.bytes m = b → 0 ≤ off → off ≤ (f.data.length : Int) →
        ∃ m' data',
          WriteAtSlices spare m data arg off = some ((b.length : Int), none, m', data')
          ∧ f.WriteAt b off
              = some ((b.length : Int), none, { data := data'.bytes m', name := f.name })
          ∧ ∀ m'' : Heap, (∀ a, a ≠ arg.arr → Heap.array m'' a = Heap.array m' a) →
              data'.bytes m'' = data'.bytes m') := by
  refine ⟨?_, ?_, ?_, ?_⟩
  · intro h0 h1 h2
    obtain ⟨k, rfl⟩ : ∃ k : Nat, off = (k : Int) := ⟨off.toNat, by omega⟩
    have a1 : ¬ ((k : Int) < 0) := by omega
    have a2 : ¬ ((k : Int) + (b.length : Int) > (f.data.length : Int)) := by omega
    have e : ((k : Int) + (b.length : Int)).toNat = k + b.length := by omega
    refine ⟨?_, ?_⟩
    · simp only [MemoryFile.WriteAt, a1, a2, if_false, Int.toNat_ofNat, e, List.append_assoc]
    · simp only [List.length_append, List.length_take, List.length_drop]
      omega
  · intro h0 h1 h2
    obtain ⟨k, rfl⟩ : ∃ k : Nat, off = (k : Int) := ⟨off.toNat, by omega⟩
    have a1 : ¬ ((k : Int) < 0) := by omega
    have a3 : ¬ ((k : Int) > (f.data.length : Int)) := by omega
    refine ⟨?_, ?_⟩
    · simp only [MemoryFile.WriteAt, a1, h2, a3, if_false, if_true, Int.toNat_ofNat]
    · simp only [List.length_append, List.length_take, Int.toNat_ofNat]
      omega
  · intro h
    simp only [MemoryFile.WriteAt, h, if_true]
  · intro spare m data arg hd ha hsep hD hB h0 h1
    obtain ⟨k, rfl⟩ : ∃ k : Nat, off = (k : Int) := ⟨off.toNat, by omega⟩
    have hdl := Slice.bytes_length m data hd
    have hal := Slice.bytes_length m arg ha
    rw [hD] at hdl
    rw [hB] at hal
    have hk : k ≤ data.len := by omega
    obtain ⟨m', data', w1, w2, _, w4⟩ := WriteAtSlices_spec spare m data arg k hd ha hsep hk
    refine ⟨m', data', ?_, ?_, ?_⟩
    · rw [w1, hal]
    · rw [WriteAt_at f b k (by omega), w2, hD, hB]
    · intro m'' hm
      simp only [Slice.bytes, hm data'.arr w4]

theorem WriteAt_result_witness :
    ((0 : Int) ≤ 1 ∧ (1 : Int) ≤ ((⟨[104, 105, 10], [102]⟩ : MemoryFile).data.length : Int)
      ∧ (1 : Int) + (([7, 8, 9] : Bytes).length : Int)
          > ((⟨[104, 105, 10], [102]⟩ : MemoryFile).data.length : Int)
      ∧ Slice.valid [[104, 105, 10, 0, 0], [0, 3, 0, 1, 7, 8, 9]] ⟨0, 0, 3, 5⟩
      ∧ Slice.valid [[104, 105, 10, 0, 0], [0, 3, 0, 1, 7, 8, 9]] ⟨1, 4, 3, 3⟩
      ∧ Slice.bytes [[104, 105, 10, 0, 0], [0, 3, 0, 1, 7, 8, 9]] ⟨0, 0, 3, 5⟩ = [104, 105, 10]
      ∧ Slice.bytes [[104, 105, 10, 0, 0], [0, 3, 0, 1, 7, 8, 9]] ⟨1, 4, 3, 3⟩ = [7, 8, 9])
    ∧ ((⟨[104, 105, 10], [102]⟩ : MemoryFile).WriteAt [7, 8, 9] 1
        = some ((([7, 8, 9] : Bytes).length : Int), none,
            { data := (⟨[104, 105, 10], [102]⟩ : MemoryFile).data.take (1 : Int).toNat ++ [7, 8, 9],
              name := (⟨[104, 105, 10], [102]⟩ : MemoryFile).name })
      ∧ ((⟨[104, 105, 10], [102]⟩ : MemoryFile).data.take (1 : Int).toNat
            ++ ([7, 8, 9] : Bytes)).length
          = (1 : Int).toNat + ([7, 8, 9] : Bytes).length)
    ∧ ∃ m' data',
        WriteAtSlices (fun _ => 0) [[104, 105, 10, 0, 0], [0, 3, 0, 1, 7, 8, 9]] ⟨0, 0, 3, 5⟩
            ⟨1, 4, 3, 3⟩ 1
          = some ((([7, 8, 9] : Bytes).length : Int), none, m', data')
        ∧ (⟨[104, 105, 10], [102]⟩ : MemoryFile).WriteAt [7, 8, 9] 1
            = some ((([7, 8, 9] : Bytes).length : Int), none,
                { data := data'.bytes m', name := (⟨[104, 105, 10], [102]⟩ : MemoryFile).name })
        ∧ ∀ m'' : Heap,
            (∀ a, a ≠ (⟨1, 4, 3, 3⟩ : Slice).arr → Heap.array m'' a = Heap.array m' a) →
              data'.bytes m'' = data'.bytes m' :=
  ⟨⟨by decide, by decide, by decide, ⟨by decide, by decide, by decide⟩,
      ⟨by decide, by decide, by decide⟩, rfl, rfl⟩,
    (WriteAt_result ⟨[104, 105, 10], [102]⟩ [7, 8, 9] 1).2.1 (by decide) (by decide) (by decide),
    (WriteAt_result ⟨[104, 105, 10], [102]⟩ [7, 8, 9] 1).2.2.2 (fun _ => 0)
      [[104, 105, 10, 0, 0], [0, 3, 0, 1, 7, 8, 9]] ⟨0, 0, 3, 5⟩ ⟨1, 4, 3, 3⟩
      ⟨by decide, by decide, by decide⟩ ⟨by decide, by decide, by decide⟩ (by decide) rfl rfl
      (by decide) (by decide)⟩

/-! ## `ReadAt` on slices -/

theorem splice_front (A xs : Bytes) (lo len : Nat) (h : lo + len ≤ A.length)
    (hx : xs.length ≤ len) :
    ((A.take lo ++ xs ++ A.drop (lo + xs.length)).drop lo).take len
      = xs ++ ((A.drop lo).take len).drop xs.length := by
  have e1 : (A.take lo).length = lo := by
    rw [List.length_take]
    omega
  rw [List.append_assoc, List.drop_left' e1, List.take_append_eq_append_take,
    List.take_of_length_le hx, List.drop_take, List.drop_drop]

/-- `ReadAt` on slices, the buffer lying in another array than the content of
the file: count and error are those of the function on values, the buffer
holds what that function gives, and the content of the file is as before. -/
theorem ReadAtSlices_spec (m : Heap) (data b : Slice) (off : Int) (name : Bytes)
    (hd : data.valid m) (hb : b.valid m) (hsep : data.arr ≠ b.arr) :
    ∃ m', ReadAtSlices m data b off
        = some ((MemoryFile.ReadAt ⟨data.bytes m, name⟩ (b.bytes m) off).1,
            (MemoryFile.ReadAt ⟨data.bytes m, name⟩ (b.bytes m) off).2.1, m')
      ∧ b.bytes m' = (MemoryFile.ReadAt ⟨data.bytes m, name⟩ (b.bytes m) off).2.2
      ∧ data.bytes m' = data.bytes m := by
  have hdl := Slice.bytes_length m data hd
  have hbl := Slice.bytes_length m b hb
  by_cases h0 : off < 0
  · refine ⟨m, ?_, ?_, rfl⟩
    · simp only [ReadAtSlices, MemoryFile.ReadAt, h0, if_true]
    · simp only [MemoryFile.ReadAt, h0, if_true]
  by_cases h1 : off ≥ (data.len : Int)
  · have h1' : off ≥ (((data.bytes m).length : Nat) : Int) := by rw [hdl]; exact h1
    refine ⟨m, ?_, ?_, rfl⟩
    · simp only [ReadAtSlices, MemoryFile.ReadAt, h0, h1, h1', if_true, if_false]
    · simp only [MemoryFile.ReadAt, h0, h1', if_true, if_false]
  obtain ⟨k, rfl⟩ : ∃ k : Nat, off = (k : Int) := ⟨off.toNat, by omega⟩
  have hk : k < data.len := by omega
  have h1' : ¬ ((k : Int) ≥ (((data.bytes m).length : Nat) : Int)) := by rw [hdl]; exact h1
  obtain ⟨e, he, hek, hel⟩ : ∃ e : Nat,
      filesystem.min ((k : Int) + (b.len : Int)) (data.len : Int) = (e : Int)
        ∧ k ≤ e ∧ e ≤ data.len := by
    simp only [filesystem.min]
    split_ifs with hlt
    · exact ⟨k + b.len, by push_cast; rfl, by omega, by omega⟩
    · exact ⟨data.len, rfl, by omega, le_refl _⟩
  have hwin : data.window k e
      = some { arr := data.arr, lo := data.lo + k, len := e - k, cap := data.cap - k } := by
    have : k ≤ e ∧ e ≤ data.cap := ⟨hek, by have := hd.2.1; omega⟩
    simp only [Slice.window, this, and_self, if_true]
  have hsrc : Slice.bytes m
      { arr := data.arr, lo := data.lo + k, len := e - k, cap := data.cap - k }
      = ((data.bytes m).take e).drop k := by
    show ((Heap.array m data.arr).drop (data.lo + k)).take (e - k)
      = ((((Heap.array m data.arr).drop data.lo).take data.len).take e).drop k
    rw [List.take_take, Nat.min_eq_left hel, List.drop_take, List.drop_drop]
  have hsl : (((data.bytes m).take e).drop k).length = e - k := by
    rw [List.length_drop, List.length_take, hdl, Nat.min_eq_left hel]
  have hval : MemoryFile.ReadAt ⟨data.bytes m, name⟩ (b.bytes m) (k : Int)
      = ((filesystem.copy (b.bytes m) (((data.bytes m).take e).drop k)).1, none,
          (filesystem.copy (b.bytes m) (((data.bytes m).take e).drop k)).2) := by
    simp only [MemoryFile.ReadAt, h0, h1, h1', if_false, hdl, hbl, he, Int.toNat_ofNat]
  have hg : goCopy m b { arr := data.arr, lo := data.lo + k, len := e - k, cap := data.cap - k }
      = (m.set b.arr ((Heap.array m b.arr).take b.lo
            ++ (((data.bytes m).take e).drop k).take (if e - k < b.len then e - k else b.len)
            ++ (Heap.array m b.arr).drop (b.lo
                + ((((data.bytes m).take e).drop k).take
                    (if e - k < b.len then e - k else b.len)).length)),
          if e - k < b.len then e - k else b.len) := by
    simp only [goCopy, hsrc]
  have hnl : ((((data.bytes m).take e).drop k).take
      (if e - k < b.len then e - k else b.len)).length
      = (if e - k < b.len then e - k else b.len) := by
    rw [List.length_take, hsl]
    split_ifs <;> omega
  have hnle : (if e - k < b.len then e - k else b.len) ≤ b.len := by
    split_ifs <;> omega
  refine ⟨(goCopy m b
    { arr := data.arr, lo := data.lo + k, len := e - k, cap := data.cap - k }).1, ?_, ?_, ?_⟩
  · simp only [ReadAtSlices, h0, h1, if_false, he, Int.toNat_ofNat, hwin, hg, hval,
      filesystem.copy, hsl, hbl]
  · rw [hval]
    show ((Heap.array (goCopy m b _).1 b.arr).drop b.lo).take b.len = _
    rw [hg]
    show ((Heap.array (m.set b.arr _) b.arr).drop b.lo).take b.len = _
    rw [Heap.array_set_self m b.arr _ hb.1,
      splice_front _ _ _ _ (by have := hb.2.1; have := hb.2.2; omega) (by rw [hnl]; exact hnle),
      hnl]
    simp only [filesystem.copy, hsl, hbl]
    rfl
  · show ((Heap.array (goCopy m b _).1 data.arr).drop data.lo).take data.len = _
    rw [hg]
    show ((Heap.array (m.set b.arr _) data.arr).drop data.lo).take data.len = _
    rw [Heap.array_set_ne m b.arr data.arr _ hsep]
    rfl

/-! ## `ReadAt` and `WriteAt` -/

theorem copy_result (dst src : Bytes) :
    (filesystem.copy dst src).1 = ((Nat.min dst.length src.length : Nat) : Int)
      ∧ (filesystem.copy dst src).2.take (Nat.min dst.length src.length)
          = src.take (Nat.min dst.length src.length)
      ∧ (filesystem.copy dst src).2.drop (Nat.min dst.length src.length)
          = dst.drop (Nat.min dst.length src.length)
      ∧ (filesystem.copy dst src).2.length = dst.length := by
  by_cases hlt : src.length < dst.length
  · have hm : Nat.min dst.length src.length = src.length := Nat.min_eq_right (by omega)
    rw [hm]
    simp only [filesystem.copy, hlt, if_true, List.take_length, true_and]
    refine ⟨?_, ?_, ?_⟩
    · rw [List.take_append_of_le_length (by simp)]
      simp
    · rw [List.drop_append_of_le_length (by simp)]
      simp
    · simp only [List.length_append, List.length_take, List.length_drop, Nat.min_self]
      omega
  · have hm : Nat.min dst.length src.length = dst.length := Nat.min_eq_left (by omega)
    rw [hm]
    simp only [filesystem.copy, hlt, if_false, true_and]
    refine ⟨?_, ?_, ?_⟩
    · rw [List.take_append_of_le_length (by simp; omega)]
      simp
    · rw [List.drop_append_of_le_length (by simp; omega)]
      simp
    · simp only [List.length_append, List.length_take, List.length_drop]
      omega

/-- C12. `MemoryFile.ReadAt` on a file of content `D`: for `off < 0` it fails
with the invalid-argument error (count `-1`); for `off ≥ len D`, so for every
read of an empty file at an offset `≥ 0`, it returns `(0, EOF)`; otherwise it
returns `n = min (len b) (len D - off)` without error, the first `n` bytes of
the buffer are `D[off : off + n]` and the rest of the buffer is as before. In
the first two cases the buffer is as before. The file is not changed: followed
on the slices, with `f.data` and the buffer in two arrays, the call returns the
same count and error, leaves that result in the buffer and the content of
`f.data` as it was. -/
theorem ReadAt_result (f : MemoryFile) (b : Bytes) (off : Int) :
    (off < 0 → f.ReadAt b off = (-1, some .invalid, b))
    ∧ (0 ≤ off → (f.data.length : Int) ≤ off → f.ReadAt b off = (0, some .eof, b))
    ∧ (f.data = [] → 0 ≤ off → f.ReadAt b off = (0, some .eof, b))
    ∧ (0 ≤ off → off < (f.data.length : Int) →
        ∃ b', f.ReadAt b off
            = (((Nat.min b.length (f.data.length - off.toNat) : Nat) : Int), none, b')
          ∧ b'.take (Nat.min b.length (f.data.length - off.toNat))
              = (f.data.drop off.toNat).take (Nat.min b.length (f.data.length - off.toNat))
          ∧ b'.drop (Nat.min b.length (f.data.length - off.toNat))
              = b.drop (Nat.min b.length (f.data.length - off.toNat))
          ∧ b'.length = b.length)
    ∧ (∀ (m : Heap) (data buf : Slice),
        data.valid m → buf.valid m → data.arr ≠ buf.arr →
        data.bytes m = f.data → buf.bytes m = b →
        ∃ m', ReadAtSlices m data buf off = some ((f.ReadAt b off).1, (f.ReadAt b off).2.1, m')
          ∧ buf.bytes m' = (f.ReadAt b off).2.2
          ∧ data.bytes m' = f.data) := by
  refine ⟨fun h => ReadAt_neg f b off h, fun h0 h1 => ReadAt_eof f b off h0 h1, ?_, ?_, ?_⟩
  · intro hD h0
    exact ReadAt_eof f b off h0 (by rw [hD]; simpa using h0)
  · intro h0 h1
    obtain ⟨k, rfl⟩ : ∃ k : Nat, off = (k : Int) := ⟨off.toNat, by omega⟩
    have hk : k < f.data.length := by exact_mod_cast h1
    have a1 : ¬ ((k : Int) < 0) := by omega
    have a2 : ¬ ((k : Int) ≥ (f.data.length : Int)) := by omega
    have hsrc : (f.data.take (filesystem.min ((k : Int) + (b.length : Int))
        (f.data.length : Int)).toNat).drop k
        = (f.data.drop k).take (Nat.min b.length (f.data.length - k)) := by
      simp only [filesystem.min]
      rw [List.drop_take]
      split_ifs with hlt
      · have e1 : ((k : Int) + (b.length : Int)).toNat - k = b.length := by omega
        rw [e1, List.take_eq_take]
        simp only [List.length_drop]
        have : Nat.min b.length (f.data.length - k) = b.length := Nat.min_eq_left (by omega)
        rw [this]
      · have e1 : ((f.data.length : Int)).toNat - k = f.data.length - k := by omega
        rw [e1, List.take_eq_take]
        simp only [List.length_drop]
        have : Nat.min b.length (f.data.length - k) = f.data.length - k :=
          Nat.min_eq_right (by omega)
        rw [this]
    have hsl : ((f.data.drop k).take (Nat.min b.length (f.data.length - k))).length
        = Nat.min b.length (f.data.length - k) := by
      simp only [List.length_take, List.length_drop]
      have := Nat.min_le_right b.length (f.data.length - k)
      exact Nat.min_eq_left this
    obtain ⟨c1, c2, c3, c4⟩ :=
      copy_result b ((f.data.drop k).take (Nat.min b.length (f.data.length - k)))
    rw [hsl] at c1 c2 c3
    have hmm : Nat.min b.length (Nat.min b.length (f.data.length - k))
        = Nat.min b.length (f.data.length - k) :=
      Nat.min_eq_right (Nat.min_le_left _ _)
    rw [hmm] at c1 c2 c3
    refine ⟨(filesystem.copy b
      ((f.data.drop k).take (Nat.min b.length (f.data.length - k)))).2, ?_, ?_, c3, c4⟩
    · simp only [MemoryFile.ReadAt, a1, a2, if_false, Int.toNat_ofNat]
      rw [hsrc, c1]
    · simp only [Int.toNat_ofNat]
      rw [c2, List.take_take, Nat.min_self]
  · intro m data buf hd hb hsep hD hB
    obtain ⟨m', w1, w2, w3⟩ := ReadAtSlices_spec m data buf off f.name hd hb hsep
    rw [hD, hB] at w1 w2
    rw [hD] at w3
    exact ⟨m', w1, w2, w3⟩

theorem ReadAt_result_witness :
    ((0 : Int) ≤ 1 ∧ (1 : Int) < ((⟨[104, 105, 10], [102]⟩ : MemoryFile).data.length : Int)
      ∧ Slice.valid [[104, 105, 10, 0, 0], [0, 0, 0, 0]] ⟨0, 0, 3, 5⟩
      ∧ Slice.valid [[104, 105, 10, 0, 0], [0, 0, 0, 0]] ⟨1, 0, 4, 4⟩
      ∧ Slice.bytes [[104, 105, 10, 0, 0], [0, 0, 0, 0]] ⟨0, 0, 3, 5⟩ = [104, 105, 10]
      ∧ Slice.bytes [[104, 105, 10, 0, 0], [0, 0, 0, 0]] ⟨1, 0, 4, 4⟩ = [0, 0, 0, 0])
    ∧ (∃ b', (⟨[104, 105, 10], [102]⟩ : MemoryFile).ReadAt [0, 0, 0, 0] 1
        = (((Nat.min ([0, 0, 0, 0] : Bytes).length
              ((⟨[104, 105, 10], [102]⟩ : MemoryFile).data.length - (1 : Int).toNat) : Nat) : Int),
            none, b')
      ∧ b'.take (Nat.min ([0, 0, 0, 0] : Bytes).length
            ((⟨[104, 105, 10], [102]⟩ : MemoryFile).data.length - (1 : Int).toNat))
          = ((⟨[104, 105, 10], [102]⟩ : MemoryFile).data.drop (1 : Int).toNat).take
              (Nat.min ([0, 0, 0, 0] : Bytes).length
                ((⟨[104, 105, 10], [102]⟩ : MemoryFile).data.length - (1 : Int).toNat))
      ∧ b'.drop (Nat.min ([0, 0, 0, 0] : Bytes).length
            ((⟨[104, 105, 10], [102]⟩ : MemoryFile).data.length - (1 : Int).toNat))
          = ([0, 0, 0, 0] : Bytes).drop (Nat.min ([0, 0, 0, 0] : Bytes).length
              ((⟨[104, 105, 10], [102]⟩ : MemoryFile).data.length - (1 : Int).toNat))
      ∧ b'.length = ([0, 0, 0, 0] : Bytes).length)
    ∧ ∃ m', ReadAtSlices [[104, 105, 10, 0, 0], [0, 0, 0, 0]] ⟨0, 0, 3, 5⟩ ⟨1, 0, 4, 4⟩ 1
        = some (((⟨[104, 105, 10], [102]⟩ : MemoryFile).ReadAt [0, 0, 0, 0] 1).1,
            ((⟨[104, 105, 10], [102]⟩ : MemoryFile).ReadAt [0, 0, 0, 0] 1).2.1, m')
      ∧ Slice.bytes m' ⟨1, 0, 4, 4⟩
          = ((⟨[104, 105, 10], [102]⟩ : MemoryFile).ReadAt [0, 0, 0, 0] 1).2.2
      ∧ Slice.bytes m' ⟨0, 0, 3, 5⟩ = (⟨[104, 105, 10], [102]⟩ : MemoryFile).data :=
  ⟨⟨by decide, by decide, ⟨by decide, by decide, by decide⟩,
      ⟨by decide, by decide, by decide⟩, rfl, rfl⟩,
    (ReadAt_result ⟨[104, 105, 10], [102]⟩ [0, 0, 0, 0] 1).2.2.2.1 (by decide) (by decide),
    (ReadAt_result ⟨[104, 105, 10], [102]⟩ [0, 0, 0, 0] 1).2.2.2.2
      [[104, 105, 10, 0, 0], [0, 0, 0, 0]] ⟨0, 0, 3, 5⟩ ⟨1, 0, 4, 4⟩
      ⟨by decide, by decide, by decide⟩ ⟨by decide, by decide, by decide⟩ (by decide) rfl rfl⟩

/-! ## Invariants of the receive loop -/

theorem confirm_inactive (s : St) : (confirmPreviousPktSent s).ctx.activeTx = false := by
  unfold confirmPreviousPktSent
  split_ifs with h
  · rfl
  · simpa using h

theorem readBlock_cases (s s1 : St) (b : Nat) (p : Option Packet) (e : Option FileError)
    (h : readBlock s b = some (p, e, s1)) :
    (s1 = s ∨ s1 = { ctx := { state := s.ctx.state, conn := s.ctx.conn, raddr := s.ctx.raddr,
                              block := s.ctx.block, file := s.ctx.file,
                              activeTx := s.ctx.activeTx, lastBlock := true },
                     store := s.store, log := s.log })
      ∧ ∀ pk, p = some pk → ∃ d, pk = newData b d := by
  unfold readBlock at h
  cases hf : s.ctx.file with
  | none => simp [hf] at h
  | some file =>
    simp only [hf] at h
    cases hr : s.store.ReadAt file (make 512) (((b : Int) - 1) * 512) with
    | none => simp [hr] at h
    | some res =>
      obtain ⟨n, err, buf⟩ := res
      simp only [hr] at h
      split_ifs at h <;> simp only [Option.some.injEq, Prod.mk.injEq] at h <;>
        obtain ⟨h1, _, h3⟩ := h <;> subst h1 <;> subst h3
      · exact ⟨Or.inl rfl, fun pk hpk => by cases hpk⟩
      · exact ⟨Or.inl rfl, fun pk hpk => by cases hpk⟩
      · exact ⟨Or.inr rfl, fun pk hpk => ⟨_, (Option.some.inj hpk).symm⟩⟩
      · exact ⟨Or.inl rfl, fun pk hpk => ⟨_, (Option.some.inj hpk).symm⟩⟩

theorem handleData_stable (I : St → Prop) (hI : Stable I) (s : St) (pkt : Packet) (h : I s) :
    (handleData s pkt).holds I := by
  cases pkt with
  | data p =>
    simp only [handleData]
    by_cases hb : s.ctx.block ≠ p.block
    · rw [if_pos hb]
      exact h
    · rw [if_neg hb]
      cases hf : s.ctx.file with
      | none => simp only [Res.holds]
      | some file =>
        simp only []
        cases hw : s.store.WriteAt file p.data (((s.ctx.block : Int) - 1) * 512) with
        | none => simp only [Res.holds]
        | some res =>
          obtain ⟨n, e, st⟩ := res
          have h1 : I { ctx := s.ctx, store := st, log := s.log } :=
            hI.write s file p.data _ n e st hf hw h
          cases e with
          | some err =>
            simp only [Res.holds]
            exact h1
          | none =>
            simp only []
            have h2 := hI.conf _ h1
            have ha := confirm_inactive { ctx := s.ctx, store := st, log := s.log }
            by_cases hl : p.data.length < 512
            · rw [if_pos hl]
              simp only [Res.holds]
              exact hI.once _ _ (Or.inl ⟨_, rfl⟩) h2
            · rw [if_neg hl]
              have h3 := hI.retx _ (newAck (confirmPreviousPktSent
                { ctx := s.ctx, store := st, log := s.log }).ctx.block) (Or.inl ⟨_, rfl⟩) ha h2
              split_ifs
              · simp only [Res.holds]
                exact h3
              · simp only [Res.holds]
                exact hI.block _ _ h3
  | readReq p => simp only [handleData, Res.holds]
  | writeReq p => simp only [handleData, Res.holds]
  | ack p => simp only [handleData, Res.holds]
  | error p => simp only [handleData, Res.holds]

theorem handleAck_stable (I : St → Prop) (hI : Stable I) (s : St) (pkt : Packet) (h : I s) :
    (handleAck s pkt).holds I := by
  cases pkt with
  | ack p =>
    simp only [handleAck]
    by_cases hb : s.ctx.block ≠ p.block
    · rw [if_pos hb]
      exact h
    · rw [if_neg hb]
      cases hr : getNextDataBlock s with
      | none => simp only [Res.holds]
      | some res =>
        obtain ⟨b, e, s2⟩ := res
        obtain ⟨hs2, hpk⟩ := readBlock_cases s s2 _ b e hr
        have h1 : I s2 := by
          rcases hs2 with e1 | e1
          · rw [e1]; exact h
          · rw [e1]; exact hI.last s h
        cases e with
        | some err =>
          simp only [Res.holds]
          exact h1
        | none =>
          have h2 := hI.conf _ h1
          have ha := confirm_inactive s2
          cases b with
          | none =>
            simp only [Res.holds]
            exact h2
          | some pk =>
            obtain ⟨d, hd⟩ := hpk pk rfl
            have h3 := hI.retx _ pk (Or.inr (Or.inl ⟨_, _, hd⟩)) ha h2
            simp only []
            split_ifs
            · simp only [Res.holds]
              exact h3
            · simp only [Res.holds]
              exact hI.block _ _ h3
  | readReq p => simp only [handleAck, Res.holds]
  | writeReq p => simp only [handleAck, Res.holds]
  | data p => simp only [handleAck, Res.holds]
  | error p => simp only [handleAck, Res.holds]

theorem process_stable (I : St → Prop) (hI : Stable I) (s : St) (pkt : Packet) (h : I s) :
    (process loopHandlers s pkt).holds I := by
  simp only [process]
  split_ifs with hg
  · exact hI.once s _ (Or.inr (Or.inr (Or.inl rfl))) h
  · cases pkt with
    | readReq p => exact trivial
    | writeReq p => exact trivial
    | data p => exact handleData_stable I hI s _ h
    | ack p => exact handleAck_stable I hI s _ h
    | error p => exact trivial

/-- A stable property that holds when the receive loop is entered holds in the
state the loop ends in. -/
theorem serveLoop_stable (I : St → Prop) (hI : Stable I) (dally : Nat) :
    ∀ (evs : List Event) (buf : Bytes) (i : Nat) (done : Bool) (s : St), I s →
      (serveLoop dally evs buf i done s).holds I := by
  intro evs
  induction evs with
  | nil =>
    intro buf i done s h
    simp only [serveLoop]
    split_ifs <;> exact h
  | cons e rest ih =>
    intro buf i done s h
    by_cases hc : (!done || decide (i < dally)) = true
    · cases e with
      | timeout =>
        simp only [serveLoop, hc, if_true]
        exact h
      | deadline =>
        simp only [serveLoop, hc, if_true]
        exact ih _ _ _ _ h
      | readErr =>
        simp only [serveLoop, hc, if_true]
        exact ih _ _ _ _ h
      | datagram addr d =>
        simp only [serveLoop, hc, if_true]
        split_ifs with hfor
        · exact ih _ 0 done _ (hI.once s _ (Or.inr (Or.inr (Or.inr rfl))) h)
        · cases hp : newPacket (ReadFromUDP buf d).2 ((ReadFromUDP buf d).1 : Nat) with
          | error e => exact ih _ _ _ _ h
          | ok pkt =>
            simp only []
            have hpr := process_stable I hI s pkt h
            cases hr : process loopHandlers s pkt with
            | ret v s2 =>
              rw [hr] at hpr
              simp only []
              exact ih _ 0 v s2 hpr
            | blocked s2 =>
              rw [hr] at hpr
              exact hpr
            | panic => simp only [Res.holds]
            | nested => simp only [Res.holds]
    · simp only [serveLoop, hc]
      exact h

/-! ## Invariants of the log of a session -/

theorem send_once_cases (s : St) (pkt : Packet) :
    (send s pkt true).2 = s
      ∨ (send s pkt true).2
          = { ctx := s.ctx, store := s.store,
              log := s.log ++ [.write s.ctx.raddr pkt.bytes true] } := by
  obtain ⟨b, hb⟩ := marshal_total pkt
  cases hw : WriteToUDP s.ctx.conn with
  | false =>
    left
    simp only [send, hb, hw]
    rfl
  | true =>
    right
    rw [send_once s pkt hw]

theorem send_retransmit_cases (s : St) (pkt : Packet) :
    send s pkt false = (false, s)
      ∨ send s pkt false
          = (true, { ctx := { s.ctx with activeTx := true }, store := s.store,
                     log := s.log ++ [.write s.ctx.raddr pkt.bytes false] }) := by
  obtain ⟨b, hb⟩ := marshal_total pkt
  cases hw : WriteToUDP s.ctx.conn with
  | false =>
    left
    simp only [send, hb, hw]
    rfl
  | true =>
    right
    rw [send_retransmit s pkt hw]

/-- A property `J` of the flag `activeTx` and the log that the three kinds of
log entries keep is a stable property of the state. -/
theorem stable_of_log (J : Bool → List Action → Prop) (ok : Bytes → Prop)
    (hconf : ∀ l, J true l → J false (l ++ [.confirm]))
    (honce : ∀ a l dst b, ok b → J a l → J a (l ++ [.write dst b true]))
    (hretx : ∀ l dst b, ok b → J false l → J true (l ++ [.write dst b false]))
    (hok : ∀ pkt, loopPacket pkt → ok pkt.bytes) :
    Stable (fun s => J s.ctx.activeTx s.log) := by
  refine ⟨?_, ?_, ?_, ?_, ?_, ?_⟩
  · intro s pkt hp h
    rcases send_once_cases s pkt with e | e
    · rw [e]; exact h
    · rw [e]; exact honce _ _ _ _ (hok pkt hp) h
  · intro s pkt hp ha h
    rcases send_retransmit_cases s pkt with e | e
    · rw [e]; exact h
    · rw [e]
      rw [ha] at h
      exact hretx _ _ _ (hok pkt hp) h
  · intro s h
    unfold confirmPreviousPktSent
    split_ifs with ha
    · rw [ha] at h
      exact hconf _ h
    · exact h
  · intro s file b off n e st _ _ h
    exact h
  · intro s b h
    exact h
  · intro s h
    exact h

theorem handleWriteReq_log (J : Bool → List Action → Prop) (ok : Bytes → Prop)
    (hconf : ∀ l, J true l → J false (l ++ [.confirm]))
    (honce : ∀ a l dst b, ok b → J a l → J a (l ++ [.write dst b true]))
    (hretx : ∀ l dst b, ok b → J false l → J true (l ++ [.write dst b false]))
    (hok : ∀ pkt, loopPacket pkt → ok pkt.bytes)
    (env : Env) (s : St) (p : reqPacket)
    (hmode : toLower p.mode ≠ octet → ok (newError Undefined unsupportedMode).bytes)
    (ha : s.ctx.activeTx = false) (h : J s.ctx.activeTx s.log) :
    (handleWriteReq env s (.writeReq p)).holds (fun s1 => J s1.ctx.activeTx s1.log) := by
  have hI := stable_of_log J ok hconf honce hretx hok
  unfold handleWriteReq
  cases hl : env.listen with
  | none => exact h
  | some c =>
    simp only []
    by_cases hm : toLower p.mode ≠ octet
    · rw [if_pos hm]
      rcases send_once_cases
        { ctx := { state := .WRQ, conn := some c, raddr := s.ctx.raddr, block := s.ctx.block,
                   file := s.ctx.file, activeTx := s.ctx.activeTx, lastBlock := s.ctx.lastBlock },
          store := s.store, log := s.log } (newError Undefined unsupportedMode) with e | e
      · show J (send _ _ true).2.ctx.activeTx (send _ _ true).2.log
        rw [e]; exact h
      · show J (send _ _ true).2.ctx.activeTx (send _ _ true).2.log
        rw [e]; exact honce _ _ _ _ (hmode hm) h
    · rw [if_neg hm]
      rcases send_retransmit_cases
        { ctx := { state := .WRQ, conn := some c, raddr := s.ctx.raddr, block := s.ctx.block,
                   file := some (Root.CreateMemoryFile s.store (pathBase p.filepath)).2,
                   activeTx := s.ctx.activeTx, lastBlock := s.ctx.lastBlock },
          store := (Root.CreateMemoryFile s.store (pathBase p.filepath)).1, log := s.log }
        (newAck 0) with e | e
      · simp only [e, Bool.not_false, if_true]
        exact h
      · simp only [e, Bool.not_true, Bool.false_eq_true, if_false]
        have h1 : J true (s.log ++ [.write s.ctx.raddr (newAck 0).bytes false]) := by
          rw [ha] at h
          exact hretx _ _ _ (hok _ (Or.inl ⟨0, rfl⟩)) h
        have h2 := serveLoop_stable _ hI dallyDelay env.events (make (2 + 2 + 512)) 0 false
          { ctx := { state := .WRQ, conn := some c, raddr := s.ctx.raddr, block := s.ctx.block,
                     file := some (Root.CreateMemoryFile s.store (pathBase p.filepath)).2,
                     activeTx := true, lastBlock := s.ctx.lastBlock },
            store := (Root.CreateMemoryFile s.store (pathBase p.filepath)).1,
            log := s.log ++ [.write s.ctx.raddr (newAck 0).bytes false] } h1
        unfold serveReq
        cases hr : serveLoop dallyDelay env.events (make (2 + 2 + 512)) 0 false
          { ctx := { state := .WRQ, conn := some c, raddr := s.ctx.raddr, block := s.ctx.block,
                     file := some (Root.CreateMemoryFile s.store (pathBase p.filepath)).2,
                     activeTx := true, lastBlock := s.ctx.lastBlock },
            store := (Root.CreateMemoryFile s.store (pathBase p.filepath)).1,
            log := s.log ++ [.write s.ctx.raddr (newAck 0).bytes false] } with
        | ret v s1 =>
          rw [hr] at h2
          cases v with
          | some err => exact h2
          | none =>
            simp only []
            cases hf : s1.ctx.file with
            | none => simp only [Res.holds]
            | some file =>
              simp only []
              cases hsv : Root.Save s1.store file with
              | none => simp only [Res.holds]
              | some st => exact h2
        | blocked s1 =>
          rw [hr] at h2
          exact h2
        | panic => simp only [Res.holds]
        | nested => simp only [Res.holds]

theorem handleReadReq_log (J : Bool → List Action → Prop) (ok : Bytes → Prop)
    (hconf : ∀ l, J true l → J false (l ++ [.confirm]))
    (honce : ∀ a l dst b, ok b → J a l → J a (l ++ [.write dst b true]))
    (hretx : ∀ l dst b, ok b → J false l → J true (l ++ [.write dst b false]))
    (hok : ∀ pkt, loopPacket pkt → ok pkt.bytes)
    (hnf : ok (newError FileNotFound []).bytes)
    (env : Env) (s : St) (p : reqPacket)
    (hmode : toLower p.mode ≠ octet → ok (newError Undefined unsupportedMode).bytes)
    (ha : s.ctx.activeTx = false) (h : J s.ctx.activeTx s.log) :
    (handleReadReq env s (.readReq p)).holds (fun s1 => J s1.ctx.activeTx s1.log) := by
  have hI := stable_of_log J ok hconf honce hretx hok
  unfold handleReadReq
  cases hl : env.listen with
  | none => exact h
  | some c =>
    simp only []
    by_cases hm : toLower p.mode ≠ octet
    · rw [if_pos hm]
      rcases send_once_cases
        { ctx := { state := .RRQ, conn := some c, raddr := s.ctx.raddr, block := s.ctx.block,
                   file := s.ctx.file, activeTx := s.ctx.activeTx, lastBlock := s.ctx.lastBlock },
          store := s.store, log := s.log } (newError Undefined unsupportedMode) with e | e
      · show J (send _ _ true).2.ctx.activeTx (send _ _ true).2.log
        rw [e]; exact h
      · show J (send _ _ true).2.ctx.activeTx (send _ _ true).2.log
        rw [e]; exact honce _ _ _ _ (hmode hm) h
    · rw [if_neg hm]
      cases hop : Root.Open s.store (pathBase p.filepath) with
      | error err =>
        simp only []
        rcases send_once_cases
          { ctx := { state := .RRQ, conn := some c, raddr := s.ctx.raddr, block := s.ctx.block,
                     file := none, activeTx := s.ctx.activeTx, lastBlock := s.ctx.lastBlock },
            store := s.store, log := s.log } (newError FileNotFound []) with e | e
        · show J (send _ _ true).2.ctx.activeTx (send _ _ true).2.log
          rw [e]; exact h
        · show J (send _ _ true).2.ctx.activeTx (send _ _ true).2.log
          rw [e]; exact honce _ _ _ _ hnf h
      | ok file =>
        simp only []
        cases hg : getDataBlock
          { ctx := { state := .RRQ, conn := some c, raddr := s.ctx.raddr, block := s.ctx.block,
                     file := some file, activeTx := s.ctx.activeTx,
                     lastBlock := s.ctx.lastBlock },
            store := s.store, log := s.log } with
        | none => simp only [Res.holds]
        | some res =>
          obtain ⟨b, e, s1⟩ := res
          obtain ⟨hs1, hpk⟩ := readBlock_cases _ s1 _ b e hg
          have h1 : J s1.ctx.activeTx s1.log ∧ s1.ctx.activeTx = false := by
            rcases hs1 with e1 | e1
            · rw [e1]; exact ⟨h, ha⟩
            · rw [e1]; exact ⟨h, ha⟩
          cases b with
          | none =>
            cases e with
            | some err => exact h1.1
            | none => simp only [Res.holds]
          | some pk =>
            cases e with
            | some err => exact h1.1
            | none =>
              simp only []
              obtain ⟨d, hd⟩ := hpk pk rfl
              rcases send_retransmit_cases s1 pk with e | e
              · simp only [e, Bool.not_false, if_true]
                exact h1.1
              · simp only [e, Bool.not_true, Bool.false_eq_true, if_false]
                have h2 : J true (s1.log ++ [.write s1.ctx.raddr pk.bytes false]) := by
                  have h1a := h1.1
                  rw [h1.2] at h1a
                  exact hretx _ _ _ (hok _ (Or.inr (Or.inl ⟨_, _, hd⟩))) h1a
                have h3 := serveLoop_stable _ hI 0 env.events (make (2 + 2 + 512)) 0 false
                  { ctx := { s1.ctx with activeTx := true }, store := s1.store,
                    log := s1.log ++ [.write s1.ctx.raddr pk.bytes false] } h2
                unfold serveReq
                cases hr : serveLoop 0 env.events (make (2 + 2 + 512)) 0 false
                  { ctx := { s1.ctx with activeTx := true }, store := s1.store,
                    log := s1.log ++ [.write s1.ctx.raddr pk.bytes false] } with
                | ret v s2 =>
                  rw [hr] at h3
                  cases v with
                  | some err => exact h3
                  | none => exact h3
                | blocked s2 =>
                  rw [hr] at h3
                  exact h3
                | panic => simp only [Res.holds]
                | nested => simp only [Res.holds]

/-- A property of `activeTx` and the log that the log entries keep holds at
the end of every session, when it holds of the empty log. -/
theorem session_log (J : Bool → List Action → Prop) (ok : Bytes → Prop)
    (hconf : ∀ l, J true l → J false (l ++ [.confirm]))
    (honce : ∀ a l dst b, ok b → J a l → J a (l ++ [.write dst b true]))
    (hretx : ∀ l dst b, ok b → J false l → J true (l ++ [.write dst b false]))
    (hok : ∀ pkt, loopPacket pkt → ok pkt.bytes)
    (hnf : ok (newError FileNotFound []).bytes)
    (env : Env) (conn : Option UDPConn) (raddr : UDPAddr) (store : Store) (pkt : Packet)
    (hmode : ∀ p, pkt = .readReq p ∨ pkt = .writeReq p → toLower p.mode ≠ octet →
      ok (newError Undefined unsupportedMode).bytes)
    (h0 : J false []) :
    (session env conn raddr store pkt).holds (fun s1 => J s1.ctx.activeTx s1.log) := by
  have hI := stable_of_log J ok hconf honce hretx hok
  unfold session
  simp only [process]
  split_ifs with hg
  · exact hI.once _ _ (Or.inr (Or.inr (Or.inl rfl))) h0
  · cases pkt with
    | readReq p =>
      exact handleReadReq_log J ok hconf honce hretx hok hnf env _ p
        (hmode p (Or.inl rfl)) rfl h0
    | writeReq p =>
      exact handleWriteReq_log J ok hconf honce hretx hok env _ p
        (hmode p (Or.inr rfl)) rfl h0
    | data p => exact handleData_stable _ hI _ _ h0
    | ack p => exact handleAck_stable _ hI _ _ h0
    | error p => exact trivial

/-! ## The entries `nested` of the table are never called -/

theorem state_stable (st : SessionState) : Stable (fun s => s.ctx.state = st) := by
  refine ⟨?_, ?_, ?_, ?_, ?_, ?_⟩
  · intro s pkt _ h
    rcases send_once_cases s pkt with e | e <;> rw [e] <;> exact h
  · intro s pkt _ _ h
    rcases send_retransmit_cases s pkt with e | e <;> rw [e] <;> exact h
  · intro s h
    unfold confirmPreviousPktSent
    split_ifs <;> exact h
  · intro s file b off n e st _ _ h
    exact h
  · intro s b h
    exact h
  · intro s h
    exact h

theorem handleData_not_nested (s : St) (pkt : Packet) : handleData s pkt ≠ .nested := by
  cases pkt with
  | data p =>
    simp only [handleData]
    by_cases hb : s.ctx.block ≠ p.block
    · rw [if_pos hb]
      exact fun h => by cases h
    · rw [if_neg hb]
      cases hf : s.ctx.file with
      | none => exact fun h => by cases h
      | some file =>
        simp only []
        cases hw : s.store.WriteAt file p.data (((s.ctx.block : Int) - 1) * 512) with
        | none => exact fun h => by cases h
        | some res =>
          obtain ⟨n, e, st⟩ := res
          cases e with
          | some err => exact fun h => by cases h
          | none =>
            simp only []
            by_cases hl : p.data.length < 512
            · rw [if_pos hl]
              exact fun h => by cases h
            · rw [if_neg hl]
              split_ifs <;> exact fun h => by cases h
  | readReq p => exact fun h => by cases h
  | writeReq p => exact fun h => by cases h
  | ack p => exact fun h => by cases h
  | error p => exact fun h => by cases h

theorem handleAck_not_nested (s : St) (pkt : Packet) : handleAck s pkt ≠ .nested := by
  cases pkt with
  | ack p =>
    simp only [handleAck]
    by_cases hb : s.ctx.block ≠ p.block
    · rw [if_pos hb]
      exact fun h => by cases h
    · rw [if_neg hb]
      cases hr : getNextDataBlock s with
      | none => exact fun h => by cases h
      | some res =>
        obtain ⟨b, e, s3⟩ := res
        cases e with
        | some err => exact fun h => by cases h
        | none =>
          cases b with
          | none => exact fun h => by cases h
          | some pk =>
            simp only []
            split_ifs <;> exact fun h => by cases h
  | readReq p => exact fun h => by cases h
  | writeReq p => exact fun h => by cases h
  | data p => exact fun h => by cases h
  | error p => exact fun h => by cases h

/-- Outside the state `INI` the guard of `process` rejects the two request
opcodes, so that the entries `nested` of the table are not called. -/
theorem process_not_nested (s : St) (pkt : Packet) (hst : s.ctx.state ≠ .INI) :
    process loopHandlers s pkt ≠ .nested := by
  simp only [process]
  split_ifs with hg
  · exact fun h => by cases h
  · cases pkt with
    | readReq p =>
      exfalso
      apply hg
      cases hs : s.ctx.state with
      | INI => exact absurd hs hst
      | RRQ => exact (by decide : transitionMap ReadReq &&& SessionState.RRQ.bits = 0)
      | WRQ => exact (by decide : transitionMap ReadReq &&& SessionState.WRQ.bits = 0)
    | writeReq p =>
      exfalso
      apply hg
      cases hs : s.ctx.state with
      | INI => exact absurd hs hst
      | RRQ => exact (by decide : transitionMap WriteReq &&& SessionState.RRQ.bits = 0)
      | WRQ => exact (by decide : transitionMap WriteReq &&& SessionState.WRQ.bits = 0)
    | data p => exact handleData_not_nested s _
    | ack p => exact handleAck_not_nested s _
    | error p => exact fun h => by cases h

theorem serveLoop_not_nested (dally : Nat) :
    ∀ (evs : List Event) (buf : Bytes) (i : Nat) (done : Bool) (s : St),
      s.ctx.state ≠ .INI → serveLoop dally evs buf i done s ≠ .nested := by
  intro evs
  induction evs with
  | nil =>
    intro buf i done s _
    simp only [serveLoop]
    split_ifs <;> exact fun h => by cases h
  | cons e rest ih =>
    intro buf i done s hst
    by_cases hc : (!done || decide (i < dally)) = true
    · cases e with
      | timeout =>
        simp only [serveLoop, hc, if_true]
        exact fun h => by cases h
      | deadline =>
        simp only [serveLoop, hc, if_true]
        exact ih _ _ _ _ hst
      | readErr =>
        simp only [serveLoop, hc, if_true]
        exact ih _ _ _ _ hst
      | datagram addr d =>
        simp only [serveLoop, hc, if_true]
        split_ifs with hfor
        · refine ih _ 0 done _ ?_
          rw [(state_stable s.ctx.state).once s _ (Or.inr (Or.inr (Or.inr rfl))) rfl]
          exact hst
        · cases hp : newPacket (ReadFromUDP buf d).2 ((ReadFromUDP buf d).1 : Nat) with
          | error e => exact ih _ _ _ _ hst
          | ok pkt =>
            simp only []
            have hpr := process_stable _ (state_stable s.ctx.state) s pkt rfl
            have hnn := process_not_nested s pkt hst
            cases hr : process loopHandlers s pkt with
            | ret v s2 =>
              rw [hr] at hpr
              simp only []
              refine ih _ 0 v s2 ?_
              rw [show s2.ctx.state = s.ctx.state from hpr]
              exact hst
            | blocked s2 => exact fun h => by cases h
            | panic => exact fun h => by cases h
            | nested => exact absurd hr hnn
    · simp only [serveLoop, hc]
      exact fun h => by cases h

theorem send_state (s : St) (pkt : Packet) (once : Bool) :
    (send s pkt once).2.ctx.state = s.ctx.state := by
  cases once with
  | true => rcases send_once_cases s pkt with e | e <;> rw [e]
  | false => rcases send_retransmit_cases s pkt with e | e <;> rw [e]

theorem handleWriteReq_not_nested (env : Env) (s : St) (pkt : Packet) :
    handleWriteReq env s pkt ≠ .nested := by
  unfold handleWriteReq
  cases hl : env.listen with
  | none => exact fun h => by cases h
  | some c =>
    simp only []
    cases pkt with
    | writeReq p =>
      simp only []
      by_cases hm : toLower p.mode ≠ octet
      · rw [if_pos hm]
        exact fun h => by cases h
      · rw [if_neg hm]
        split_ifs with hsend
        · exact fun h => by cases h
        · have hst : (send
              { ctx := { state := .WRQ, conn := some c, raddr := s.ctx.raddr,
                         block := s.ctx.block,
                         file := some (Root.CreateMemoryFile s.store (pathBase p.filepath)).2,
                         activeTx := s.ctx.activeTx, lastBlock := s.ctx.lastBlock },
                store := (Root.CreateMemoryFile s.store (pathBase p.filepath)).1,
                log := s.log } (newAck 0) false).2.ctx.state ≠ .INI := by
            rw [send_state]
            exact fun h => by cases h
          have hn := serveLoop_not_nested dallyDelay env.events (make (2 + 2 + 512)) 0 false _ hst
          unfold serveReq
          cases hr : serveLoop dallyDelay env.events (make (2 + 2 + 512)) 0 false (send
              { ctx := { state := .WRQ, conn := some c, raddr := s.ctx.raddr,
                         block := s.ctx.block,
                         file := some (Root.CreateMemoryFile s.store (pathBase p.filepath)).2,
                         activeTx := s.ctx.activeTx, lastBlock := s.ctx.lastBlock },
                store := (Root.CreateMemoryFile s.store (pathBase p.filepath)).1,
                log := s.log } (newAck 0) false).2 with
          | ret v s1 =>
            cases v with
            | some err => exact fun h => by cases h
            | none =>
              simp only []
              cases hf : s1.ctx.file with
              | none => exact fun h => by cases h
              | some file =>
                simp only []
                cases hsv : Root.Save s1.store file with
                | none => exact fun h => by cases h
                | some st => exact fun h => by cases h
          | blocked s1 => exact fun h => by cases h
          | panic => exact fun h => by cases h
          | nested => exact absurd hr hn
    | readReq p => exact fun h => by cases h
    | data p => exact fun h => by cases h
    | ack p => exact fun h => by cases h
    | error p => exact fun h => by cases h

theorem handleReadReq_not_nested (env : Env) (s : St) (pkt : Packet) :
    handleReadReq env s pkt ≠ .nested := by
  unfold handleReadReq
  cases hl : env.listen with
  | none => exact fun h => by cases h
  | some c =>
    simp only []
    cases pkt with
    | readReq p =>
      simp only []
      by_cases hm : toLower p.mode ≠ octet
      · rw [if_pos hm]
        exact fun h => by cases h
      · rw [if_neg hm]
        cases hop : Root.Open s.store (pathBase p.filepath) with
        | error err => exact fun h => by cases h
        | ok file =>
          simp only []
          cases hg : getDataBlock
            { ctx := { state := .RRQ, conn := some c, raddr := s.ctx.raddr,
                       block := s.ctx.block, file := some file, activeTx := s.ctx.activeTx,
                       lastBlock := s.ctx.lastBlock },
              store := s.store, log := s.log } with
          | none => exact fun h => by cases h
          | some res =>
            obtain ⟨b, e, s1⟩ := res
            obtain ⟨hs1, _⟩ := readBlock_cases _ s1 _ b e hg
            have hst1 : s1.ctx.state = .RRQ := by
              rcases hs1 with e1 | e1 <;> rw [e1]
            cases b with
            | none =>
              cases e with
              | some err => exact fun h => by cases h
              | none => exact fun h => by cases h
            | some pk =>
              cases e with
              | some err => exact fun h => by cases h
              | none =>
                simp only []
                split_ifs with hsend
                · exact fun h => by cases h
                · have hst : (send s1 pk false).2.ctx.state ≠ .INI := by
                    rw [send_state, hst1]
                    exact fun h => by cases h
                  have hn := serveLoop_not_nested 0 env.events (make (2 + 2 + 512)) 0 false _ hst
                  unfold serveReq
                  cases hr : serveLoop 0 env.events (make (2 + 2 + 512)) 0 false
                      (send s1 pk false).2 with
                  | ret v s2 =>
                    cases v with
                    | some err => exact fun h => by cases h
                    | none => exact fun h => by cases h
                  | blocked s2 => exact fun h => by cases h
                  | panic => exact fun h => by cases h
                  | nested => exact absurd hr hn
    | writeReq p => exact fun h => by cases h
    | data p => exact fun h => by cases h
    | ack p => exact fun h => by cases h
    | error p => exact fun h => by cases h

/-- A session never ends on an entry `nested` of the table of the receive
loop: those entries stand for calls the guard of `process` excludes. -/
theorem session_not_nested (env : Env) (conn : Option UDPConn) (raddr : UDPAddr)
    (store : Store) (pkt : Packet) : session env conn raddr store pkt ≠ .nested := by
  unfold session
  simp only [process]
  split_ifs with hg
  · exact fun h => by cases h
  · cases pkt with
    | readReq p => exact handleReadReq_not_nested env _ _
    | writeReq p => exact handleWriteReq_not_nested env _ _
    | data p => exact handleData_not_nested _ _
    | ack p => exact handleAck_not_nested _ _
    | error p => exact fun h => by cases h

/-! ## The mode of a request -/

theorem modeError_bytes : (newError Undefined unsupportedMode).bytes = modeError := by
  decide

theorem loopPacket_bytes (pkt : Packet) (h : loopPacket pkt) : pkt.bytes ≠ modeError := by
  rcases h with ⟨k, rfl⟩ | ⟨k, d, rfl⟩ | rfl | rfl
  · rw [newAck_bytes]
    intro e
    have := congrArg List.length e
    simp [modeError, unsupportedMode] at this
  · rw [newData_bytes]
    intro e
    simp only [modeError, List.cons.injEq] at e
    exact absurd e.2.1 (by decide)
  · decide
  · decide

/-- In a session that does not take the branch of the mode check, no datagram
written is the error of the mode check. -/
theorem octet_log (env : Env) (conn : Option UDPConn) (raddr : UDPAddr) (store : Store)
    (pkt : Packet)
    (hmode : ∀ p, pkt = .readReq p ∨ pkt = .writeReq p → toLower p.mode = octet) :
    (session env conn raddr store pkt).holds (fun s1 =>
      ∀ dst once, Action.write dst modeError once ∉ s1.log) := by
  refine Res.holds_mono _ (fun s1 h dst once hm => h _ hm dst once rfl)
    (session_log (fun _ l => ∀ x ∈ l, ∀ dst once, x ≠ Action.write dst modeError once)
      (fun b => b ≠ modeError) ?_ ?_ ?_ loopPacket_bytes (by decide) env conn raddr store pkt
      (fun p hp hne => absurd (hmode p hp) hne) ?_)
  · intro l h x hx dst once
    rcases List.mem_append.mp hx with hx | hx
    · exact h x hx dst once
    · rw [List.mem_singleton.mp hx]
      intro e
      cases e
  · intro a l d b hb h x hx dst once
    rcases List.mem_append.mp hx with hx | hx
    · exact h x hx dst once
    · rw [List.mem_singleton.mp hx]
      intro e
      cases e
      exact hb rfl
  · intro l d b hb h x hx dst once
    rcases List.mem_append.mp hx with hx | hx
    · exact h x hx dst once
    · rw [List.mem_singleton.mp hx]
      intro e
      cases e
      exact hb rfl
  · intro x hx
    cases hx

/-- C13. Mode check. Let the session socket be bound (`ListenUDP` returns the
connection `c`) and writes on it succeed. For a WRQ or an RRQ whose mode,
lower-cased, is not `octet`, the session writes one datagram, to the peer:
`Error` with code 0 and the message `unsupported mode of operation`, sent once
without retransmission task; the log holds nothing else (no ACK, no DATA, no
confirmation), the store is the one the session started with (nothing
created, removed or saved), no file is attached to the context, and the
handler returns false. For a request whose mode lower-cased is `octet`, no
datagram the session writes, to any address, is this error, whatever the
datagrams it is given. -/
theorem mode_check (env : Env) (conn : Option UDPConn) (raddr : UDPAddr) (store : Store)
    (p : reqPacket) (c : UDPConn) (hl : env.listen = some c)
    (hw : WriteToUDP (some c) = true) :
    (toLower p.mode ≠ octet →
      session env conn raddr store (.writeReq p)
          = .ret false
              { ctx := { state := .WRQ, conn := closeConn (some c), raddr := raddr, block := 1,
                         file := none, activeTx := false, lastBlock := false },
                store := store, log := [.write raddr modeError true] }
        ∧ session env conn raddr store (.readReq p)
          = .ret false
              { ctx := { state := .RRQ, conn := closeConn (some c), raddr := raddr, block := 1,
                         file := none, activeTx := false, lastBlock := false },
                store := store, log := [.write raddr modeError true] })
    ∧ (toLower p.mode = octet →
        (session env conn raddr store (.writeReq p)).holds (fun s1 =>
            ∀ dst once, Action.write dst modeError once ∉ s1.log)
        ∧ (session env conn raddr store (.readReq p)).holds (fun s1 =>
            ∀ dst once, Action.write dst modeError once ∉ s1.log)) := by
  constructor
  · intro hm
    constructor
    · unfold session
      rw [process_accept (handlers env)
        { ctx := newSessionContext conn raddr, store := store, log := [] } (.writeReq p)
        (show (WriteReq, SessionState.INI) ∈ legalPairs by decide)]
      simp only [handlers, Packet.OpCode, ReadReq, WriteReq, Nat.reduceEqDiff, if_false,
        if_true, handleWriteReq, hl, newSessionContext, hm, ne_eq, not_false_eq_true]
      rw [send_once _ _ (by exact hw), modeError_bytes]
      rfl
    · unfold session
      rw [process_accept (handlers env)
        { ctx := newSessionContext conn raddr, store := store, log := [] } (.readReq p)
        (show (ReadReq, SessionState.INI) ∈ legalPairs by decide)]
      simp only [handlers, Packet.OpCode, ReadReq, if_true, handleReadReq, hl,
        newSessionContext, hm, ne_eq, not_false_eq_true]
      rw [send_once _ _ (by exact hw), modeError_bytes]
      rfl
  · intro hm
    constructor
    · refine octet_log env conn raddr store _ (fun q hq => ?_)
      rcases hq with e | e
      · cases e
      · cases e
        exact hm
    · refine octet_log env conn raddr store _ (fun q hq => ?_)
      rcases hq with e | e
      · cases e
        exact hm
      · cases e

theorem mode_check_witness :
    ((⟨some goodConn, []⟩ : Env).listen = some goodConn ∧ WriteToUDP (some goodConn) = true
      ∧ toLower (⟨WriteReq, [102], netascii⟩ : reqPacket).mode ≠ octet)
    ∧ session ⟨some goodConn, []⟩ (some goodConn) peer hiStore
          (.writeReq ⟨WriteReq, [102], netascii⟩)
        = .ret false
            { ctx := { state := .WRQ, conn := closeConn (some goodConn), raddr := peer,
                       block := 1, file := none, activeTx := false, lastBlock := false },
              store := hiStore, log := [.write peer modeError true] } :=
  ⟨by decide, ((mode_check ⟨some goodConn, []⟩ (some goodConn) peer hiStore
    ⟨WriteReq, [102], netascii⟩ goodConn rfl rfl).1 (by decide)).1⟩

/-! ## The name of the file of a request -/

theorem dropWhile_replicate_append (n : Nat) (a : Byte) (l : Bytes) (p : Byte → Bool)
    (ha : p a = true) : (List.replicate n a ++ l).dropWhile p = l.dropWhile p := by
  induction n with
  | zero => rfl
  | succ n ih =>
    rw [List.replicate_succ, List.cons_append, List.dropWhile_cons_of_pos ha, ih]

theorem takeWhile_append_stop (l r : Bytes) (x : Byte) (p : Byte → Bool)
    (hl : ∀ y ∈ l, p y = true) (hx : p x = false) : (l ++ x :: r).takeWhile p = l := by
  induction l with
  | nil =>
    simp only [List.nil_append]
    exact List.takeWhile_cons_of_neg (by simp [hx])
  | cons y rest ih =>
    rw [List.cons_append, List.takeWhile_cons_of_pos (hl y (List.mem_cons_self _ _)),
      ih (fun z hz => hl z (List.mem_cons_of_mem _ hz))]

theorem takeWhile_all (l : Bytes) (p : Byte → Bool) (hl : ∀ y ∈ l, p y = true) :
    l.takeWhile p = l := by
  induction l with
  | nil => rfl
  | cons y rest ih =>
    rw [List.takeWhile_cons_of_pos (hl y (List.mem_cons_self _ _)),
      ih (fun z hz => hl z (List.mem_cons_of_mem _ hz))]

/-- The base of `dir/name` followed by any number of slashes is `name`. -/
theorem pathBase_component (dir name : Bytes) (n : Nat) (hne : name ≠ []) (hns : (47 : Byte) ∉ name) :
    pathBase (dir ++ 47 :: name ++ List.replicate n 47) = name
      ∧ pathBase (name ++ List.replicate n 47) = name := by
  obtain ⟨z, front, hz⟩ : ∃ z front, name.reverse = z :: front := by
    cases hr : name.reverse with
    | nil => exact absurd (List.reverse_eq_nil_iff.mp hr) hne
    | cons z front => exact ⟨z, front, rfl⟩
  have hzmem : z ∈ name := by
    rw [← List.mem_reverse, hz]
    exact List.mem_cons_self _ _
  have hz47 : ¬ (z = 47) := fun e => hns (e ▸ hzmem)
  have hall : ∀ y ∈ name.reverse, (decide (y ≠ 47)) = true := by
    intro y hy
    have : y ∈ name := List.mem_reverse.mp hy
    exact decide_eq_true (fun e => hns (e ▸ this))
  have hd : ∀ rest : Bytes, (List.replicate n (47 : Byte) ++ (name.reverse ++ rest)).dropWhile
      (fun c => decide (c = 47)) = name.reverse ++ rest := by
    intro rest
    rw [dropWhile_replicate_append n 47 _ _ (by simp), hz, List.cons_append,
      List.dropWhile_cons_of_neg (by simpa using hz47)]
  constructor
  · have hp : dir ++ 47 :: name ++ List.replicate n 47 ≠ [] := by simp
    have hrev : (dir ++ 47 :: name ++ List.replicate n 47).reverse
        = List.replicate n 47 ++ (name.reverse ++ 47 :: dir.reverse) := by
      simp [List.reverse_append, List.reverse_replicate]
    simp only [pathBase, hp, if_false, hrev, hd, List.reverse_reverse]
    rw [takeWhile_append_stop _ _ _ _ hall (by simp)]
    simp only [List.reverse_reverse, hne, if_false]
  · have hp : name ++ List.replicate n 47 ≠ [] := by simp [hne]
    have hrev : (name ++ List.replicate n 47).reverse
        = List.replicate n 47 ++ name.reverse := by
      simp [List.reverse_append, List.reverse_replicate]
    have hd0 := hd []
    simp only [List.append_nil] at hd0
    simp only [pathBase, hp, if_false, hrev, hd0, List.reverse_reverse]
    rw [takeWhile_all _ _ hall]
    simp only [List.reverse_reverse, hne, if_false]

/-- The base of a path of slashes is `/`. -/
theorem pathBase_slashes (path : Bytes) (hne : path ≠ []) (h : ∀ c ∈ path, c = 47) :
    pathBase path = [47] := by
  have hd : path.reverse.dropWhile (fun c => decide (c = 47)) = [] := by
    rw [List.dropWhile_eq_nil_iff]
    intro c hc
    exact decide_eq_true (h c (List.mem_reverse.mp hc))
  simp only [pathBase, hne, if_false, hd, List.reverse_nil, List.takeWhile_nil, if_true]

/-- The base of a path that holds another character than the slash holds no
slash and is not empty. -/
theorem pathBase_no_slash (path : Bytes) (h : ∃ c ∈ path, c ≠ 47) :
    (47 : Byte) ∉ pathBase path ∧ pathBase path ≠ [] := by
  obtain ⟨c, hc, hc47⟩ := h
  have hne : path ≠ [] := fun e => by rw [e] at hc; cases hc
  cases hr : path.reverse.dropWhile (fun c => decide (c = 47)) with
  | nil =>
    rw [List.dropWhile_eq_nil_iff] at hr
    exact absurd (of_decide_eq_true (hr c (List.mem_reverse.mpr hc))) hc47
  | cons z rest =>
    have hz : ¬ (decide (z = 47) = true) := by
      have := List.head_dropWhile_not (fun c => decide (c = (47 : Byte))) path.reverse
        (by rw [hr]; exact List.cons_ne_nil _ _)
      simpa [hr] using this
    have hz47 : z ≠ 47 := fun e => hz (decide_eq_true e)
    have hq : (z :: rest).takeWhile (fun c => decide (c ≠ 47))
        = z :: rest.takeWhile (fun c => decide (c ≠ 47)) :=
      List.takeWhile_cons_of_pos (decide_eq_true hz47)
    have hqne : ((z :: rest).takeWhile (fun c => decide (c ≠ 47))).reverse ≠ [] := by
      rw [hq]
      simp
    simp only [pathBase, hne, if_false, hr, List.reverse_reverse, hqne]
    refine ⟨?_, hqne⟩
    intro hm
    have := List.mem_takeWhile_imp (List.mem_reverse.mp hm)
    simp at this

theorem send_file (s : St) (pkt : Packet) (once : Bool) :
    (send s pkt once).2.ctx.file = s.ctx.file := by
  cases once with
  | true => rcases send_once_cases s pkt with e | e <;> rw [e]
  | false => rcases send_retransmit_cases s pkt with e | e <;> rw [e]

theorem confirm_file (s : St) : (confirmPreviousPktSent s).ctx.file = s.ctx.file := by
  unfold confirmPreviousPktSent
  split_ifs <;> rfl

/-- The receive loop keeps the map of the store, the file of the session and
the name of the object behind it. -/
theorem frame_stable (F : Bytes → Option Handle) (h : Nat) (N : Bytes) :
    Stable (fun s => s.store.files = F ∧ s.ctx.file = some h
      ∧ (s.store.objs[h]?).map MemoryFile.name = some N) := by
  refine ⟨?_, ?_, ?_, ?_, ?_, ?_⟩
  · intro s pkt _ hs
    rw [send_store, send_file]
    exact hs
  · intro s pkt _ _ hs
    rw [send_store, send_file]
    exact hs
  · intro s hs
    rw [confirm_store, confirm_file]
    exact hs
  · intro s file b off n e st hf hw hs
    obtain ⟨h1, h2, h3⟩ := hs
    have hfile : file = h := by
      rw [hf] at h2
      exact Option.some.inj h2
    subst hfile
    obtain ⟨w1, _, _, w4⟩ := Store_WriteAt_frame s.store st file b off n e hw
    exact ⟨w1.trans h1, h2, w4.trans h3⟩
  · intro s b hs
    exact hs
  · intro s hs
    exact hs

/-- A WRQ session changes no entry of the map of the store but the one of the
base of the requested path. -/
theorem wrq_names (env : Env) (conn : Option UDPConn) (raddr : UDPAddr) (store : Store)
    (p : reqPacket) :
    (session env conn raddr store (.writeReq p)).holds (fun s1 =>
      ∀ M, M ≠ pathBase p.filepath → s1.store.files M = store.files M) := by
  unfold session
  rw [process_accept (handlers env)
    { ctx := newSessionContext conn raddr, store := store, log := [] } (.writeReq p)
    (show (WriteReq, SessionState.INI) ∈ legalPairs by decide)]
  simp only [handlers, Packet.OpCode, ReadReq, WriteReq, Nat.reduceEqDiff, if_false, if_true,
    handleWriteReq, newSessionContext]
  cases hl : env.listen with
  | none => exact fun _ _ => rfl
  | some c =>
    simp only []
    by_cases hm : toLower p.mode ≠ octet
    · rw [if_pos hm]
      show ∀ M, M ≠ pathBase p.filepath → (closeSession (send _ _ true).2).store.files M = _
      intro M _
      show (send _ _ true).2.store.files M = _
      rw [send_store]
    · rw [if_neg hm]
      have hI := frame_stable
        (fun k => if k = pathBase p.filepath then none else store.files k) store.objs.length
        (pathBase p.filepath)
      have hobj : ((store.objs ++ [(⟨[], pathBase p.filepath⟩ : MemoryFile)])[store.objs.length]?).map
          MemoryFile.name = some (pathBase p.filepath) := by
        rw [List.getElem?_concat_length]
        rfl
      rcases send_retransmit_cases
        { ctx := { state := .WRQ, conn := some c, raddr := raddr, block := 1,
                   file := some (Root.CreateMemoryFile store (pathBase p.filepath)).2,
                   activeTx := false, lastBlock := false },
          store := (Root.CreateMemoryFile store (pathBase p.filepath)).1, log := [] }
        (newAck 0) with e | e
      · simp only [e, Bool.not_false, if_true]
        intro M hM
        show (if M = pathBase p.filepath then none else store.files M) = _
        rw [if_neg hM]
      · simp only [e, Bool.not_true, Bool.false_eq_true, if_false]
        have h2 := serveLoop_stable _ hI dallyDelay env.events (make (2 + 2 + 512)) 0 false
          { ctx := { state := .WRQ, conn := some c, raddr := raddr, block := 1,
                     file := some (Root.CreateMemoryFile store (pathBase p.filepath)).2,
                     activeTx := true, lastBlock := false },
            store := (Root.CreateMemoryFile store (pathBase p.filepath)).1,
            log := [] ++ [.write raddr (newAck 0).bytes false] } ⟨rfl, rfl, hobj⟩
        unfold serveReq
        cases hr : serveLoop dallyDelay env.events (make (2 + 2 + 512)) 0 false
          { ctx := { state := .WRQ, conn := some c, raddr := raddr, block := 1,
                     file := some (Root.CreateMemoryFile store (pathBase p.filepath)).2,
                     activeTx := true, lastBlock := false },
            store := (Root.CreateMemoryFile store (pathBase p.filepath)).1,
            log := [] ++ [.write raddr (newAck 0).bytes false] } with
        | ret v s1 =>
          rw [hr] at h2
          obtain ⟨k1, k2, k3⟩ := h2
          cases v with
          | some err =>
            intro M hM
            show s1.store.files M = _
            rw [k1]
            simp only [hM, if_false]
          | none =>
            simp only [k2]
            cases hobj1 : s1.store.objs[store.objs.length]? with
            | none => rw [hobj1] at k3; cases k3
            | some f2 =>
              rw [hobj1] at k3
              have hname : f2.name = pathBase p.filepath := by simpa using k3
              simp only [Root.Save, hobj1]
              intro M hM
              show (if M = f2.Name then some store.objs.length else s1.store.files M) = _
              rw [MemoryFile.Name, hname, if_neg hM, k1]
              simp only [hM, if_false]
        | blocked s1 =>
          rw [hr] at h2
          intro M hM
          show s1.store.files M = _
          rw [h2.1]
          simp only [hM, if_false]
        | panic => simp only [Res.holds]
        | nested => simp only [Res.holds]

/-- An RRQ for a path whose base has no entry in the store is answered by
`Error(1)`, whatever else the store holds. -/
theorem rrq_miss (env : Env) (conn : Option UDPConn) (raddr : UDPAddr) (store : Store)
    (p : reqPacket) (c : UDPConn) (hl : env.listen = some c) (hw : WriteToUDP (some c) = true)
    (hm : toLower p.mode = octet) (hno : store.files (pathBase p.filepath) = none) :
    session env conn raddr store (.readReq p)
      = .ret false
          { ctx := { state := .RRQ, conn := closeConn (some c), raddr := raddr, block := 1,
                     file := none, activeTx := false, lastBlock := false },
            store := store, log := [.write raddr [0, 5, 0, 1, 0] true] } := by
  unfold session
  rw [process_accept (handlers env)
    { ctx := newSessionContext conn raddr, store := store, log := [] } (.readReq p)
    (show (ReadReq, SessionState.INI) ∈ legalPairs by decide)]
  simp only [handlers, Packet.OpCode, ReadReq, if_true, handleReadReq, hl,
    newSessionContext, hm, ne_eq, not_true_eq_false, if_false, Root.Open, hno]
  rw [send_once _ _ (by exact hw)]
  rfl

/-- C14. The name of the file of a request is `path.Base` of the requested
path. For a path that holds a character other than the slash it is not empty
and holds no slash; it is the last component: the base of `dir/name`, and of
`name`, followed by any number of slashes, is `name`, for every `name` that is
not empty and holds no slash. For a path made of slashes only the name is `/`,
and for the empty path it is `.`. A WRQ session changes no entry of the store
but the one of that name, and an RRQ for a path whose base has no entry is
answered by `Error(1)` without reading any file. -/
theorem filename_base (path dir name : Bytes) (n : Nat) (env : Env) (conn : Option UDPConn)
    (raddr : UDPAddr) (store : Store) (p : reqPacket) (c : UDPConn) :
    ((∃ x ∈ path, x ≠ 47) → (47 : Byte) ∉ pathBase path ∧ pathBase path ≠ [])
    ∧ (name ≠ [] → (47 : Byte) ∉ name →
        pathBase (dir ++ 47 :: name ++ List.replicate n 47) = name
          ∧ pathBase (name ++ List.replicate n 47) = name)
    ∧ (path ≠ [] → (∀ x ∈ path, x = 47) → pathBase path = [47])
    ∧ pathBase [] = [46]
    ∧ (session env conn raddr store (.writeReq p)).holds (fun s1 =>
        ∀ M, M ≠ pathBase p.filepath → s1.store.files M = store.files M)
    ∧ (env.listen = some c → WriteToUDP (some c) = true → toLower p.mode = octet →
        store.files (pathBase p.filepath) = none →
        session env conn raddr store (.readReq p)
          = .ret false
              { ctx := { state := .RRQ, conn := closeConn (some c), raddr := raddr, block := 1,
                         file := none, activeTx := false, lastBlock := false },
                store := store, log := [.write raddr [0, 5, 0, 1, 0] true] }) :=
  ⟨pathBase_no_slash path, pathBase_component dir name n, pathBase_slashes path, rfl,
    wrq_names env conn raddr store p, rrq_miss env conn raddr store p c⟩

theorem filename_base_witness :
    (([102] : Bytes) ≠ [] ∧ (47 : Byte) ∉ ([102] : Bytes))
    ∧ pathBase ([100] ++ 47 :: [102] ++ List.replicate 2 47) = [102]
    ∧ pathBase ([102] ++ List.replicate 2 47) = [102] :=
  ⟨by decide, (filename_base [] [100] [102] 2 ⟨none, []⟩ none peer hiStore
    ⟨WriteReq, [102], octet⟩ goodConn).2.1 (by decide) (by decide)⟩

set_option maxRecDepth 100000 in
/-- C14 as stated fails for the path `/`: its base is `/`, which holds a
slash, and a WRQ for `/` with the one block `hi` ends with the file saved
under the name `/`. -/
theorem filename_slash_counterexample :
    pathBase [47] = [47] ∧ (47 : Byte) ∈ pathBase [47]
    ∧ (session ⟨some goodConn,
          [.datagram peer (newData 1 [104, 105]).bytes, .deadline, .deadline, .deadline]⟩
        (some goodConn) peer filesystem.New (.writeReq ⟨WriteReq, [47], octet⟩)).state.map
          (fun s1 => (Root.Open s1.store [47], Store.content s1.store 0))
        = some (.ok 0, some [104, 105]) := by
  decide

/-! ## Bounded retransmission -/

theorem retransmitLoop_ticks (raddr : UDPAddr) (b : Bytes) (rest : List Turn) :
    ∀ (n i : Nat), i + n = retransmissionRetries →
      retransmitLoop raddr b i (List.replicate n .tick ++ rest)
        = { writes := List.replicate n (raddr, b), closed := 1, returned := true } := by
  intro n
  induction n with
  | zero =>
    intro i hi
    have hn : ¬ i < retransmissionRetries := by omega
    cases rest <;> simp [retransmitLoop, hn]
  | succ n ih =>
    intro i hi
    have hlt : i < retransmissionRetries := by omega
    rw [List.replicate_succ, List.cons_append]
    simp only [retransmitLoop, hlt, if_true, ih (i + 1) (by omega)]
    rfl

theorem retransmitLoop_ack (raddr : UDPAddr) (b : Bytes) (rest : List Turn) :
    ∀ (k i : Nat), i + k < retransmissionRetries →
      retransmitLoop raddr b i (List.replicate k .tick ++ .ack :: rest)
        = { writes := List.replicate k (raddr, b), closed := 0, returned := true } := by
  intro k
  induction k with
  | zero =>
    intro i hi
    have hlt : i < retransmissionRetries := by omega
    simp [retransmitLoop, hlt]
  | succ k ih =>
    intro i hi
    have hlt : i < retransmissionRetries := by omega
    rw [List.replicate_succ, List.cons_append]
    simp only [retransmitLoop, hlt, if_true, ih (i + 1) (by omega)]
    rfl

theorem handleData_returns (s s2 : St) (pkt : Packet) : handleData s pkt ≠ .blocked s2 := by
  cases pkt with
  | data p =>
    simp only [handleData]
    by_cases hb : s.ctx.block ≠ p.block
    · rw [if_pos hb]
      exact fun h => by cases h
    · rw [if_neg hb]
      cases hf : s.ctx.file with
      | none => exact fun h => by cases h
      | some file =>
        simp only []
        cases hw : s.store.WriteAt file p.data (((s.ctx.block : Int) - 1) * 512) with
        | none => exact fun h => by cases h
        | some res =>
          obtain ⟨n, e, st⟩ := res
          cases e with
          | some err => exact fun h => by cases h
          | none =>
            simp only []
            by_cases hl : p.data.length < 512
            · rw [if_pos hl]
              exact fun h => by cases h
            · rw [if_neg hl]
              split_ifs <;> exact fun h => by cases h
  | readReq p => exact fun h => by cases h
  | writeReq p => exact fun h => by cases h
  | ack p => exact fun h => by cases h
  | error p => exact fun h => by cases h

theorem handleAck_returns (s s2 : St) (pkt : Packet) : handleAck s pkt ≠ .blocked s2 := by
  cases pkt with
  | ack p =>
    simp only [handleAck]
    by_cases hb : s.ctx.block ≠ p.block
    · rw [if_pos hb]
      exact fun h => by cases h
    · rw [if_neg hb]
      cases hr : getNextDataBlock s with
      | none => exact fun h => by cases h
      | some res =>
        obtain ⟨b, e, s3⟩ := res
        cases e with
        | some err => exact fun h => by cases h
        | none =>
          cases b with
          | none => exact fun h => by cases h
          | some pk =>
            simp only []
            split_ifs <;> exact fun h => by cases h
  | readReq p => exact fun h => by cases h
  | writeReq p => exact fun h => by cases h
  | data p => exact fun h => by cases h
  | error p => exact fun h => by cases h

/-- A packet handled inside the receive loop does not leave the session
waiting: `process` returns (or the task ends on a run-time error). -/
theorem process_returns (s s2 : St) (pkt : Packet) :
    process loopHandlers s pkt ≠ .blocked s2 := by
  simp only [process]
  split_ifs with hg
  · exact fun h => by cases h
  · cases pkt with
    | readReq p => exact fun h => by cases h
    | writeReq p => exact fun h => by cases h
    | data p => exact handleData_returns s s2 _
    | ack p => exact handleAck_returns s s2 _
    | error p => exact fun h => by cases h

/-- A receive loop that is waiting returns the connection-timeout error on
the turn it finds the channel `timeout` closed. -/
theorem serveLoop_timeout (dally : Nat) (rest : List Event) :
    ∀ (evs : List Event) (buf : Bytes) (i : Nat) (done : Bool) (s s1 : St),
      serveLoop dally evs buf i done s = .blocked s1 →
      serveLoop dally (evs ++ .timeout :: rest) buf i done s = .ret (some .connTimeout) s1 := by
  intro evs
  induction evs with
  | nil =>
    intro buf i done s s1 h
    by_cases hc : (!done || decide (i < dally)) = true
    · simp only [serveLoop, hc, if_true, Res.blocked.injEq] at h
      simp only [List.nil_append, serveLoop, hc, if_true, h]
    · simp [serveLoop, hc] at h
  | cons e evs ih =>
    intro buf i done s s1 h
    by_cases hc : (!done || decide (i < dally)) = true
    · cases e with
      | timeout => simp [serveLoop, hc] at h
      | deadline =>
        simp only [serveLoop, hc, if_true] at h
        simp only [List.cons_append, serveLoop, hc, if_true]
        exact ih _ _ _ _ _ h
      | readErr =>
        simp only [serveLoop, hc, if_true] at h
        simp only [List.cons_append, serveLoop, hc, if_true]
        exact ih _ _ _ _ _ h
      | datagram addr d =>
        simp only [serveLoop, hc, if_true] at h
        simp only [List.cons_append, serveLoop, hc, if_true]
        split_ifs at h ⊢ with hfor
        · exact ih _ _ _ _ _ h
        · cases hp : newPacket (ReadFromUDP buf d).2 ((ReadFromUDP buf d).1 : Nat) with
          | error e =>
            rw [hp] at h
            exact ih _ _ _ _ _ h
          | ok pkt =>
            rw [hp] at h
            simp only [] at h ⊢
            cases hr : process loopHandlers s pkt with
            | ret v s2 =>
              rw [hr] at h
              exact ih _ _ _ _ _ h
            | blocked s2 =>
              exact absurd hr (process_returns s s2 pkt)
            | panic => rw [hr] at h; cases h
            | nested => rw [hr] at h; cases h
    · simp [serveLoop, hc] at h

/-- A WRQ session that is waiting in its receive loop and then finds the
channel `timeout` closed returns without saving the file. -/
theorem wrq_timeout (evs rest : List Event) (conn0 : Option UDPConn) (raddr : UDPAddr)
    (store : Store) (p : reqPacket) (c : UDPConn) (s1 : St)
    (hmode : toLower p.mode = octet) (hw : WriteToUDP (some c) = true)
    (h : session ⟨some c, evs⟩ conn0 raddr store (.writeReq p) = .blocked s1) :
    session ⟨some c, evs ++ .timeout :: rest⟩ conn0 raddr store (.writeReq p)
        = .ret false (closeSession s1)
      ∧ Root.Open (closeSession s1).store (pathBase p.filepath) = .error .notExist := by
  have hopen := wrq_in_progress ⟨some c, evs⟩ conn0 raddr store p s1 h
  refine ⟨?_, hopen⟩
  rw [handleWriteReq_start ⟨some c, evs⟩ conn0 raddr store p c hmode rfl hw] at h
  rw [handleWriteReq_start ⟨some c, evs ++ .timeout :: rest⟩ conn0 raddr store p c hmode rfl hw]
  simp only [serveReq] at h ⊢
  cases hr : serveLoop dallyDelay evs (make (2 + 2 + 512)) 0 false
      ⟨wrqCtx c raddr store.objs.length 1,
        ⟨store.objs ++ [⟨[], pathBase p.filepath⟩],
          fun k => if k = pathBase p.filepath then none else store.files k⟩,
        [.write raddr (newAck 0).bytes false]⟩ with
  | ret v s2 =>
    rw [hr] at h
    cases v with
    | some err => cases h
    | none =>
      simp only [] at h
      cases hf : s2.ctx.file with
      | none => rw [hf] at h; cases h
      | some file =>
        rw [hf] at h
        simp only [] at h
        cases hsv : Root.Save s2.store file with
        | none => rw [hsv] at h; cases h
        | some st => rw [hsv] at h; cases h
  | blocked s2 =>
    rw [hr] at h
    simp only [Res.blocked.injEq] at h
    subst h
    rw [serveLoop_timeout dallyDelay rest evs _ _ _ _ _ hr]
  | panic => rw [hr] at h; cases h
  | nested => rw [hr] at h; cases h

/-- C15. Bounded retransmission. Let `send(ctx, pkt, false)` succeed: it has
written the encoded bytes `b` of `pkt` to `ctx.raddr` once, set `activeTx`, and
started the retransmission task. The turns of the `select` of the task are
given as a list. If the first 20 turns are ticks, no token being delivered on
`ack`, the task writes 20 datagrams, each with the bytes `b` and the
destination `ctx.raddr`, closes `timeout` once and returns, whatever turns
follow. If a token is delivered after `k < 20` ticks, the task has written `k`
such datagrams, has not closed `timeout` and returns. A receive loop that is
waiting when it finds `timeout` closed returns the connection-timeout error,
and a WRQ session in that case returns with no file saved under the requested
name. -/
theorem bounded_retransmission (s : St) (pkt : Packet) (turns : List Turn) (k : Nat)
    (dally : Nat) (evs rest : List Event) (buf : Bytes) (i : Nat) (done : Bool) (sl sl1 : St)
    (conn0 : Option UDPConn) (raddr : UDPAddr) (store : Store) (p : reqPacket) (c : UDPConn)
    (sw : St) (hsend : (send s pkt false).1 = true) :
    ((send s pkt false).2.log = s.log ++ [.write s.ctx.raddr pkt.bytes false]
      ∧ (send s pkt false).2.ctx.activeTx = true)
    ∧ retransmitTask s pkt (List.replicate 20 .tick ++ turns)
        = { writes := List.replicate 20 (s.ctx.raddr, pkt.bytes), closed := 1, returned := true }
    ∧ (k < 20 →
        retransmitTask s pkt (List.replicate k .tick ++ .ack :: turns)
          = { writes := List.replicate k (s.ctx.raddr, pkt.bytes), closed := 0,
              returned := true })
    ∧ (serveLoop dally evs buf i done sl = .blocked sl1 →
        serveLoop dally (evs ++ .timeout :: rest) buf i done sl
          = .ret (some .connTimeout) sl1)
    ∧ (toLower p.mode = octet → WriteToUDP (some c) = true →
        session ⟨some c, evs⟩ conn0 raddr store (.writeReq p) = .blocked sw →
        session ⟨some c, evs ++ .timeout :: rest⟩ conn0 raddr store (.writeReq p)
            = .ret false (closeSession sw)
          ∧ Root.Open (closeSession sw).store (pathBase p.filepath) = .error .notExist) := by
  refine ⟨?_, ?_, ?_, ?_, ?_⟩
  · rcases send_retransmit_cases s pkt with e | e
    · rw [e] at hsend
      cases hsend
    · rw [e]
      exact ⟨rfl, rfl⟩
  · exact retransmitLoop_ticks _ _ turns 20 0 rfl
  · intro hk
    exact retransmitLoop_ack _ _ turns k 0 (by
      show 0 + k < 20
      omega)
  · exact serveLoop_timeout dally rest evs buf i done sl sl1
  · intro hmode hw h
    exact wrq_timeout evs rest conn0 raddr store p c sw hmode hw h

set_option maxRecDepth 100000 in
theorem bounded_retransmission_witness :
    ((send wrqSession (newAck 1) false).1 = true ∧ 3 < 20
      ∧ toLower (⟨WriteReq, [102], octet⟩ : reqPacket).mode = octet
      ∧ WriteToUDP (some goodConn) = true
      ∧ session ⟨some goodConn, [.deadline]⟩ (some goodConn) peer filesystem.New
          (.writeReq ⟨WriteReq, [102], octet⟩)
        = .blocked ⟨wrqCtx goodConn peer 0 1, wrqStore, [.write peer [0, 4, 0, 0] false]⟩)
    ∧ retransmitTask wrqSession (newAck 1) (List.replicate 3 .tick ++ .ack :: [.tick])
        = { writes := List.replicate 3 (wrqSession.ctx.raddr, (newAck 1).bytes), closed := 0,
            returned := true }
    ∧ session ⟨some goodConn, [.deadline] ++ .timeout :: []⟩ (some goodConn) peer filesystem.New
          (.writeReq ⟨WriteReq, [102], octet⟩)
        = .ret false (closeSession
            ⟨wrqCtx goodConn peer 0 1, wrqStore, [.write peer [0, 4, 0, 0] false]⟩)
    ∧ Root.Open (closeSession
          ⟨wrqCtx goodConn peer 0 1, wrqStore, [.write peer [0, 4, 0, 0] false]⟩).store
        (pathBase (⟨WriteReq, [102], octet⟩ : reqPacket).filepath) = .error .notExist :=
  ⟨⟨by decide, by decide, by decide, rfl, rfl⟩,
    (bounded_retransmission wrqSession (newAck 1) [.tick] 3 0 [.deadline] [] [] 0 false
      wrqSession wrqSession (some goodConn) peer filesystem.New ⟨WriteReq, [102], octet⟩
      goodConn ⟨wrqCtx goodConn peer 0 1, wrqStore, [.write peer [0, 4, 0, 0] false]⟩
      (by decide)).2.2.1 (by decide),
    (bounded_retransmission wrqSession (newAck 1) [.tick] 3 0 [.deadline] [] [] 0 false
      wrqSession wrqSession (some goodConn) peer filesystem.New ⟨WriteReq, [102], octet⟩
      goodConn ⟨wrqCtx goodConn peer 0 1, wrqStore, [.write peer [0, 4, 0, 0] false]⟩
      (by decide)).2.2.2.2 (by decide) rfl rfl⟩

/-! ## The dally period -/

/-- While `done` is false, read deadlines alone never end the loop. -/
theorem serveLoop_waiting (dally : Nat) (buf : Bytes) (s : St) :
    ∀ (n i : Nat), serveLoop dally (List.replicate n .deadline) buf i false s = .blocked s := by
  intro n
  induction n with
  | zero =>
    intro i
    simp [serveLoop]
  | succ n ih =>
    intro i
    rw [List.replicate_succ, serveLoop_deadline dally _ buf i false s (Or.inl rfl)]
    exact ih i

/-- A DATA packet of the peer whose block number is not the expected one,
arriving while `done` is true, sets `done` to false. -/
theorem serveLoop_mismatch (s : St) (buf : Bytes) (i b : Nat) (d : Bytes) (rest : List Event)
    (hstate : s.ctx.state = .WRQ) (hbuf : buf.length = 516) (hi : i < dallyDelay)
    (hb : b < 65536) (hd : d.length ≤ 512) (hne : s.ctx.block ≠ b) :
    serveLoop dallyDelay (.datagram s.ctx.raddr (newData b d).bytes :: rest) buf i true s
      = serveLoop dallyDelay rest (ReadFromUDP buf (newData b d).bytes).2 0 false s := by
  have hfit : (newData b d).bytes.length ≤ buf.length := by
    rw [newData_bytes, hbuf]
    simp only [List.length_cons]
    omega
  have hdec := decode_in_loop buf (newData b d)
    (show (Data = Data) ∧ b < 65536 from ⟨rfl, hb⟩) hfit
  rw [serveLoop_process dallyDelay rest buf i true s s.ctx.raddr _ _ (Or.inr hi)
    (ipEqual_self _) rfl hdec]
  rw [process_accept loopHandlers s _ (by
    rw [hstate]
    exact (by decide : (Data, SessionState.WRQ) ∈ legalPairs))]
  simp only [newData, Packet.withOpcode, Packet.OpCode, loopHandlers, ReadReq, WriteReq, Data,
    Nat.reduceEqDiff, if_false, if_true, handleData, hne, ne_eq, not_false_eq_true]

/-- A packet of the peer with an opcode that is illegal in state `WRQ` (here
an ACK), arriving while `done` is true, is answered by `Error(4)` and sets
`done` to false. -/
theorem serveLoop_illegal (s : St) (buf : Bytes) (i b : Nat) (rest : List Event)
    (hstate : s.ctx.state = .WRQ) (hbuf : buf.length = 516) (hi : i < dallyDelay)
    (hb : b < 65536) (hw : WriteToUDP s.ctx.conn = true) :
    serveLoop dallyDelay (.datagram s.ctx.raddr (newAck b).bytes :: rest) buf i true s
      = serveLoop dallyDelay rest (ReadFromUDP buf (newAck b).bytes).2 0 false
          { ctx := s.ctx, store := s.store,
            log := s.log ++ [.write s.ctx.raddr [0, 5, 0, 4, 0] true] } := by
  have hfit : (newAck b).bytes.length ≤ buf.length := by
    rw [newAck_bytes, hbuf]
    simp only [List.length_cons, List.length_nil]
    omega
  have hdec := decode_in_loop buf (newAck b)
    (show (Ack = Ack) ∧ b < 65536 from ⟨rfl, hb⟩) hfit
  rw [serveLoop_process dallyDelay rest buf i true s s.ctx.raddr _ _ (Or.inr hi)
    (ipEqual_self _) rfl hdec]
  rw [process_reject loopHandlers s _ hw (by
    rw [hstate]
    exact (by decide : (Ack, SessionState.WRQ) ∉ legalPairs))]

set_option maxRecDepth 100000 in
/-- C17. What the receive loop does with a datagram of the peer in the dally
period (`done` true, fewer than 3 read deadlines counted), in state `WRQ` with
the buffer of 516 bytes. A DATA packet whose block number is not the expected
one changes nothing of the state but makes the loop go on with `done` false:
however many read deadlines follow, the loop does not return. An ACK, illegal
in this state, is answered by `Error(4)` and has the same effect. So the WRQ
session that is given `DATA(1, "hi")`, then `DATA(7, "x")`, then three read
deadlines, does not return and the file `f` is not saved, while without the
second packet it returns and `f` is saved. -/
theorem dally_done_revoked (s : St) (buf : Bytes) (i b n : Nat) (d : Bytes)
    (hstate : s.ctx.state = .WRQ) (hbuf : buf.length = 516) (hi : i < dallyDelay)
    (hb : b < 65536) (hd : d.length ≤ 512) (hw : WriteToUDP s.ctx.conn = true) :
    (s.ctx.block ≠ b →
      serveLoop dallyDelay
          (.datagram s.ctx.raddr (newData b d).bytes :: List.replicate n .deadline) buf i true s
        = .blocked s)
    ∧ serveLoop dallyDelay
          (.datagram s.ctx.raddr (newAck b).bytes :: List.replicate n .deadline) buf i true s
        = .blocked { ctx := s.ctx, store := s.store,
                     log := s.log ++ [.write s.ctx.raddr [0, 5, 0, 4, 0] true] }
    ∧ (session ⟨some goodConn,
          [.datagram peer (newData 1 [104, 105]).bytes, .datagram peer (newData 7 [120]).bytes,
            .deadline, .deadline, .deadline]⟩
        (some goodConn) peer filesystem.New (.writeReq ⟨WriteReq, [102], octet⟩)).value = none
    ∧ (session ⟨some goodConn,
          [.datagram peer (newData 1 [104, 105]).bytes, .datagram peer (newData 7 [120]).bytes,
            .deadline, .deadline, .deadline]⟩
        (some goodConn) peer filesystem.New (.writeReq ⟨WriteReq, [102], octet⟩)).state.map
          (fun s1 => Root.Open s1.store [102]) = some (.error .notExist)
    ∧ (session ⟨some goodConn,
          [.datagram peer (newData 1 [104, 105]).bytes, .deadline, .deadline, .deadline]⟩
        (some goodConn) peer filesystem.New (.writeReq ⟨WriteReq, [102], octet⟩)).value
          = some false
    ∧ (session ⟨some goodConn,
          [.datagram peer (newData 1 [104, 105]).bytes, .deadline, .deadline, .deadline]⟩
        (some goodConn) peer filesystem.New (.writeReq ⟨WriteReq, [102], octet⟩)).state.map
          (fun s1 => Root.Open s1.store [102]) = some (.ok 0) := by
  refine ⟨?_, ?_, by decide, by decide, by decide, by decide⟩
  · intro hne
    rw [serveLoop_mismatch s buf i b d _ hstate hbuf hi hb hd hne]
    exact serveLoop_waiting _ _ _ n 0
  · rw [serveLoop_illegal s buf i b _ hstate hbuf hi hb hw]
    exact serveLoop_waiting _ _ _ n 0

theorem dally_done_revoked_witness :
    (handleData wrqSession (.data ⟨Data, 1, [104, 105]⟩) = .ret true doneSession
      ∧ doneSession.ctx.state = .WRQ ∧ (make 516).length = 516 ∧ 0 < dallyDelay ∧ 7 < 65536
      ∧ ([120] : Bytes).length ≤ 512 ∧ WriteToUDP doneSession.ctx.conn = true
      ∧ doneSession.ctx.block ≠ 7)
    ∧ serveLoop dallyDelay
        (.datagram doneSession.ctx.raddr (newData 7 [120]).bytes :: List.replicate 3 .deadline)
        (make 516) 0 true doneSession = .blocked doneSession :=
  ⟨⟨rfl, rfl, make_length 516, by decide, by decide, by decide, rfl, by decide⟩,
    (dally_done_revoked doneSession (make 516) 0 7 3 [120] rfl (make_length 516) (by decide)
      (by decide) (by decide) rfl).1 (by decide)⟩

/-! ## The range of block numbers -/

/-- The full block 65535 in order: it is stored and acknowledged, and `block`
wraps to 0. -/
theorem handleData_wrap (conn : UDPConn) (raddr : UDPAddr) (h : Handle)
    (objs : List MemoryFile) (files : Bytes → Option Handle) (name B : Bytes) (op : Nat)
    (log : List Action) (hh : h < objs.length) (hfull : 65535 * 512 ≤ B.length)
    (hw : WriteToUDP (some conn) = true) :
    handleData ⟨wrqCtx conn raddr h 65535,
          ⟨objs.set h ⟨B.take ((65535 - 1) * 512), name⟩, files⟩, log⟩
        (.data ⟨op, 65535, chunk B 65535⟩)
      = .ret false ⟨wrqCtx conn raddr h 0,
          ⟨objs.set h ⟨B.take (65535 * 512), name⟩, files⟩,
          log ++ [.confirm, .write raddr (newAck 65535).bytes false]⟩ := by
  have hwr := Store_WriteAt_block objs files h name B 65535 hh (by decide) (by omega)
  have hlen : ¬ (chunk B 65535).length < 512 := by
    rw [chunk_length_full B 65535 (by decide) hfull]
    omega
  simp only [handleData, wrqCtx, ne_eq, not_true_eq_false, if_false]
  rw [hwr]
  simp only [hlen, if_false, confirmPreviousPktSent, if_true]
  rw [send_retransmit _ _ hw]
  simp

/-- A DATA packet numbered 0 while `block` is 0: the offset is `-512`, the
write fails and nothing is acknowledged. -/
theorem handleData_zero (conn : UDPConn) (raddr : UDPAddr) (h : Handle)
    (objs : List MemoryFile) (files : Bytes → Option Handle) (f : MemoryFile) (op : Nat)
    (d : Bytes) (log : List Action) (hh : h < objs.length) :
    handleData ⟨wrqCtx conn raddr h 0, ⟨objs.set h f, files⟩, log⟩ (.data ⟨op, 0, d⟩)
      = .ret false ⟨wrqCtx conn raddr h 0, ⟨objs.set h f, files⟩, log⟩ := by
  have hget : (objs.set h f)[h]? = some f := List.getElem?_set_self hh
  have hoff : (((0 : Nat) : Int) - 1) * 512 < 0 := by decide
  simp only [handleData, wrqCtx, ne_eq, not_true_eq_false, if_false, Store.WriteAt, hget,
    MemoryFile.WriteAt, hoff, if_true, List.set_set]

/-- A WRQ of `65535 * 512` bytes or more: the 65535 full blocks are stored;
the next block, which the client numbers 0, is refused, and the session waits
without end. -/
theorem wrq_wrap (env : Env) (conn0 : Option UDPConn) (raddr : UDPAddr)
    (store : Store) (p : reqPacket) (B d : Bytes) (n : Nat) (c : UDPConn)
    (hmode : toLower p.mode = octet)
    (hlisten : env.listen = some c) (hw : WriteToUDP (some c) = true)
    (hB : 65535 * 512 ≤ B.length) (hd : d.length ≤ 512)
    (hev : env.events
      = dataEvents raddr B 1 65535
          ++ .datagram raddr (newData 0 d).bytes :: List.replicate n .deadline) :
    session env conn0 raddr store (.writeReq p)
      = .blocked
          ⟨wrqCtx c raddr store.objs.length 0,
            ⟨store.objs ++ [⟨B.take (65535 * 512), pathBase p.filepath⟩],
              fun k => if k = pathBase p.filepath then none else store.files k⟩,
            .write raddr (newAck 0).bytes false
              :: (ackActions raddr 1 65534
                  ++ [.confirm, .write raddr (newAck 65535).bytes false])⟩ := by
  have hobjs : store.objs ++ [(⟨[], pathBase p.filepath⟩ : MemoryFile)]
      = (store.objs ++ [(⟨[], pathBase p.filepath⟩ : MemoryFile)]).set store.objs.length
          ⟨B.take ((1 - 1) * 512), pathBase p.filepath⟩ := by
    rw [set_last]
    simp
  have hh : store.objs.length < (store.objs ++ [(⟨[], pathBase p.filepath⟩ : MemoryFile)]).length := by
    simp
  rw [handleWriteReq_start env conn0 raddr store p c hmode hlisten hw, hev, serveReq,
    show (65535 : Nat) = 65534 + 1 from rfl,
    dataEvents_append raddr B 65534 1 1, List.append_assoc, hobjs,
    wrq_loop dallyDelay c raddr raddr _ _ _ _ B _ hh hw (ipEqual_self _) rfl 65534 1 _
      (le_refl _) (by omega) (by omega)]
  simp only [dataEvents, List.singleton_append, List.cons_append, List.nil_append]
  rw [serveLoop_data dallyDelay c raddr raddr _ _ _ _ _ _ _ (ipEqual_self _) rfl (by omega)
      (chunk_length_le B _),
    handleData_wrap c raddr _ _ _ _ B 0 _ hh hB hw]
  simp only []
  rw [serveLoop_data dallyDelay c raddr raddr _ _ _ _ _ _ _ (ipEqual_self _) rfl (by omega) hd,
    handleData_zero c raddr _ _ _ _ 0 d _ hh]
  simp only []
  rw [serveLoop_waiting]
  simp only [List.set_set, set_last, List.cons_append, List.nil_append, List.append_assoc]

/-- The DATA packets of an RRQ session whose client acknowledges each block:
every block of the file, in order, with its number. -/
theorem rrq_blocks (env : Env) (conn0 : Option UDPConn) (raddr : UDPAddr)
    (store : Store) (p : reqPacket) (h : Handle) (D name : Bytes) (c : UDPConn)
    (hmode : toLower p.mode = octet)
    (hopen : Root.Open store (pathBase p.filepath) = .ok h)
    (hobj : store.objs[h]? = some ⟨D, name⟩)
    (hlisten : env.listen = some c) (hw : WriteToUDP (some c) = true)
    (hS : D.length < 65535 * 512)
    (hev : env.events = ackEvents raddr 1 (blockCount D.length)) :
    dataBlocks (session env conn0 raddr store (.readReq p)).log
      = (List.range (blockCount D.length)).map (fun j => (j + 1, chunk D (j + 1))) := by
  have hrun := rrq_run env conn0 raddr store p h D name c hmode hopen hobj hlisten hw hS hev
  have hblocks : dataBlocks (.write raddr (newData 1 (chunk D 1)).bytes false
      :: dataActions raddr D 2 (D.length / 512))
      = (List.range (D.length / 512 + 1)).map (fun j => (j + 1, chunk D (j + 1))) := by
    rw [dataBlocks_write_data raddr 1 _ false _ (by decide),
      dataBlocks_dataActions raddr D _ 2 (by omega), List.range_succ_eq_map]
    simp only [List.map_cons, List.map_map, Nat.zero_add, List.cons.injEq, true_and]
    apply List.map_congr_left
    intro j _
    simp only [Function.comp_apply]
    have e : 2 + j = j + 1 + 1 := by omega
    rw [e]
  rw [hrun]
  show _ = (List.range (D.length / 512 + 1)).map (fun j => (j + 1, chunk D (j + 1)))
  split_ifs with hlt
  · show dataBlocks (.write raddr (newData 1 (chunk D 1)).bytes false
        :: (dataActions raddr D 2 (D.length / 512) ++ [.confirm])) = _
    rw [← List.cons_append, dataBlocks_append, hblocks]
    simp [dataBlocks]
  · exact hblocks

/-- C16. Block numbers are 16-bit values that start at 1; the handlers add 1
modulo `2^16` and hold no other wrap logic. For every content `B` of fewer
than `65534 * 512` bytes: a WRQ whose client sends the blocks of `B` in order
and then stays silent for the dally period returns, with the file saved under
the base name and holding `B`; an RRQ of a stored file of content `B` whose
client acknowledges each block writes every block `1 .. size / 512 + 1` with
its number and payload, the last one shorter than 512 bytes, and returns; and
for each block number `b` of the transfer `b + 1` does not wrap, so that the
offsets `(b - 1) * 512` of `handleData` and `((b + 1) mod 2^16 - 1) * 512` of
`getNextDataBlock` are not negative. -/
theorem block_range (B name : Bytes) (store storeR : Store) (envW envR : Env)
    (connW connR : Option UDPConn) (peerW peerR : UDPAddr) (cW cR : UDPConn)
    (pW pR : reqPacket) (h : Handle)
    (hB : B.length < 65534 * 512)
    (hmodeW : toLower pW.mode = octet) (hmodeR : toLower pR.mode = octet)
    (hlistenW : envW.listen = some cW) (hwW : WriteToUDP (some cW) = true)
    (hlistenR : envR.listen = some cR) (hwR : WriteToUDP (some cR) = true)
    (hopen : Root.Open storeR (pathBase pR.filepath) = .ok h)
    (hobj : storeR.objs[h]? = some ⟨B, name⟩)
    (hevW : envW.events
      = dataEvents peerW B 1 (blockCount B.length) ++ [.deadline, .deadline, .deadline])
    (hevR : envR.events = ackEvents peerR 1 (blockCount B.length)) :
    (newSessionContext connW peerW).block = 1
    ∧ (∃ s1 : St, session envW connW peerW store (.writeReq pW) = .ret false s1
        ∧ Root.Open s1.store (pathBase pW.filepath) = .ok store.objs.length
        ∧ s1.store.content store.objs.length = some B)
    ∧ dataBlocks (session envR connR peerR storeR (.readReq pR)).log
        = (List.range (blockCount B.length)).map (fun j => (j + 1, chunk B (j + 1)))
    ∧ (chunk B (blockCount B.length)).length < 512
    ∧ (session envR connR peerR storeR (.readReq pR)).value = some false
    ∧ ∀ b, 1 ≤ b → b ≤ blockCount B.length →
        (b + 1) % 65536 = b + 1 ∧ 0 ≤ ((b : Int) - 1) * 512
          ∧ 0 ≤ ((((b + 1) % 65536 : Nat) : Int) - 1) * 512 := by
  have hK : blockCount B.length = B.length / 512 + 1 := rfl
  refine ⟨rfl, ?_, ?_, ?_, ?_, ?_⟩
  · obtain ⟨s1, hwrq, hop, hob⟩ :=
      wrq_saved envW connW peerW store pW B cW hmodeW hlistenW hwW (by omega) hevW
    exact ⟨s1, hwrq, hop, by simp only [Store.content, hob, Option.map_some']⟩
  · exact rrq_blocks envR connR peerR storeR pR h B name cR hmodeR hopen hobj hlistenR hwR
      (by omega) hevR
  · rw [chunk_length_last]
    omega
  · rw [rrq_run envR connR peerR storeR pR h B name cR hmodeR hopen hobj hlistenR hwR
      (by omega) hevR, if_pos (by rw [hK]; omega)]
    rfl
  · intro b hb1 hbK
    rw [hK] at hbK
    have hlt : b + 1 < 65536 := by omega
    rw [Nat.mod_eq_of_lt hlt]
    refine ⟨rfl, ?_, ?_⟩
    · have : (1 : Int) ≤ (b : Int) := by exact_mod_cast hb1
      omega
    · push_cast
      omega

set_option maxRecDepth 4000 in
theorem block_range_witness :
    (∃ s1 : St,
      session ⟨some goodConn, dataEvents peer [104, 105, 10] 1
            (blockCount ([104, 105, 10] : Bytes).length) ++ [.deadline, .deadline, .deadline]⟩
          (some goodConn) peer filesystem.New (.writeReq ⟨WriteReq, [102], octet⟩)
        = .ret false s1
      ∧ Root.Open s1.store (pathBase (⟨WriteReq, [102], octet⟩ : reqPacket).filepath)
          = .ok filesystem.New.objs.length
      ∧ s1.store.content filesystem.New.objs.length = some [104, 105, 10])
    ∧ dataBlocks (session
          ⟨some goodConn, ackEvents peer 1 (blockCount ([104, 105, 10] : Bytes).length)⟩
          (some goodConn) peer hiStore (.readReq ⟨ReadReq, [102], octet⟩)).log
        = (List.range (blockCount ([104, 105, 10] : Bytes).length)).map
            (fun j => (j + 1, chunk [104, 105, 10] (j + 1))) :=
  ⟨(block_range [104, 105, 10] [102] filesystem.New hiStore
      ⟨some goodConn, dataEvents peer [104, 105, 10] 1
        (blockCount ([104, 105, 10] : Bytes).length) ++ [.deadline, .deadline, .deadline]⟩
      ⟨some goodConn, ackEvents peer 1 (blockCount ([104, 105, 10] : Bytes).length)⟩
      (some goodConn) (some goodConn) peer peer goodConn goodConn
      ⟨WriteReq, [102], octet⟩ ⟨ReadReq, [102], octet⟩ 0
      (by simp) (by decide) (by decide) rfl rfl rfl rfl (by decide) rfl
      (by simp only) (by simp only)).2.1,
   (block_range [104, 105, 10] [102] filesystem.New hiStore
      ⟨some goodConn, dataEvents peer [104, 105, 10] 1
        (blockCount ([104, 105, 10] : Bytes).length) ++ [.deadline, .deadline, .deadline]⟩
      ⟨some goodConn, ackEvents peer 1 (blockCount ([104, 105, 10] : Bytes).length)⟩
      (some goodConn) (some goodConn) peer peer goodConn goodConn
      ⟨WriteReq, [102], octet⟩ ⟨ReadReq, [102], octet⟩ 0
      (by simp) (by decide) (by decide) rfl rfl rfl rfl (by decide) rfl
      (by simp only) (by simp only)).2.2.1⟩

theorem hugeFile_length : hugeFile.length = 65535 * 512 :=
  List.length_replicate _ _

/-- C16 as stated fails at `S = 65535 * 512 ≤ 2^16 * 512`. The upload is 65535
full blocks and a closing empty block, whose number 65536 is 0 on the wire.
The 65535 full blocks are stored and acknowledged and `block` wraps to 0; the
closing `DATA(0)` then matches `block`, `handleData` computes the offset
`-512`, the write fails and no ACK is sent. After three read deadlines the
session has not returned and the file is not saved. -/
theorem block_wrap_counterexample :
    hugeFile.length ≤ 65536 * 512
    ∧ blockCount hugeFile.length = 65536
    ∧ chunk hugeFile 65536 = []
    ∧ (newData 65536 []).bytes = (newData 0 []).bytes
    ∧ handleData ⟨wrqCtx goodConn peer 0 0, ⟨[⟨hugeFile, [102]⟩], fun _ => none⟩, []⟩
          (.data ⟨Data, 0, []⟩)
        = .ret false ⟨wrqCtx goodConn peer 0 0, ⟨[⟨hugeFile, [102]⟩], fun _ => none⟩, []⟩
    ∧ (session ⟨some goodConn, dataEvents peer hugeFile 1 65535
            ++ .datagram peer (newData 0 []).bytes :: List.replicate 3 .deadline⟩
          (some goodConn) peer filesystem.New (.writeReq ⟨WriteReq, [102], octet⟩)).value = none
    ∧ (session ⟨some goodConn, dataEvents peer hugeFile 1 65535
            ++ .datagram peer (newData 0 []).bytes :: List.replicate 3 .deadline⟩
          (some goodConn) peer filesystem.New (.writeReq ⟨WriteReq, [102], octet⟩)).state.map
            (fun s1 => (s1.ctx.block, Root.Open s1.store [102]))
        = some (0, .error .notExist) := by
  have hlen := hugeFile_length
  have hrun := wrq_wrap
    ⟨some goodConn, dataEvents peer hugeFile 1 65535
      ++ .datagram peer (newData 0 []).bytes :: List.replicate 3 .deadline⟩
    (some goodConn) peer filesystem.New ⟨WriteReq, [102], octet⟩ hugeFile [] 3 goodConn
    (by decide) rfl rfl (by omega) (by decide) (by simp only)
  refine ⟨by omega, by rw [hlen]; rfl, ?_, by decide, ?_, ?_, ?_⟩
  · exact chunk_nil_of_le hugeFile 65536 (by omega)
  · exact handleData_zero goodConn peer 0 [⟨hugeFile, [102]⟩] (fun _ => none)
      ⟨hugeFile, [102]⟩ Data [] [] (by decide)
  · rw [hrun]
    rfl
  · rw [hrun]
    rfl

/-! ## One step of `handleData` -/

theorem Store_WriteAt_at (r : Store) (h : Nat) (f : MemoryFile) (b : Bytes) (k : Nat)
    (hobj : r.objs[h]? = some f) (hk : 1 ≤ k) (hsize : (k - 1) * 512 ≤ f.data.length) :
    r.WriteAt h b (((k : Int) - 1) * 512)
      = some ((b.length : Int), none,
          { objs := r.objs.set h { data := overwrite f.data ((k - 1) * 512) b, name := f.name },
            files := r.files }) := by
  have hoff : (((k : Int) - 1) * 512) = (((k - 1) * 512 : Nat) : Int) := by
    push_cast
    omega
  simp only [Store.WriteAt, hobj]
  rw [hoff, WriteAt_at f b _ hsize]

theorem confirm_eq (s : St) :
    confirmPreviousPktSent s
      = { ctx := { s.ctx with activeTx := false }, store := s.store,
          log := s.log ++ confirmed s.ctx.activeTx } := by
  cases s with
  | mk ctx store log =>
    cases ctx with
    | mk state conn raddr block file activeTx lastBlock =>
      cases activeTx <;> simp [confirmPreviousPktSent, confirmed]

/-- A short block in order. -/
theorem handleData_short (s : St) (p : DataPacket) (h : Nat) (f : MemoryFile)
    (hk1 : 1 ≤ s.ctx.block) (hfile : s.ctx.file = some h) (hobj : s.store.objs[h]? = some f)
    (hsize : (s.ctx.block - 1) * 512 ≤ f.data.length)
    (hw : WriteToUDP s.ctx.conn = true) (hb : p.block = s.ctx.block)
    (hlen : p.data.length < 512) :
    handleData s (.data p)
      = .ret true
          { ctx := { s.ctx with activeTx := false },
            store := { objs := s.store.objs.set h
                        { data := overwrite f.data ((s.ctx.block - 1) * 512) p.data,
                          name := f.name },
                       files := s.store.files },
            log := s.log ++ confirmed s.ctx.activeTx
                    ++ [.write s.ctx.raddr (newAck s.ctx.block).bytes true] } := by
  have hwr := Store_WriteAt_at s.store h f p.data s.ctx.block hobj hk1 hsize
  simp only [handleData, hb, ne_eq, not_true_eq_false, if_false, hfile]
  rw [hwr]
  simp only [hlen, if_true, confirm_eq]
  rw [send_once _ _ (by exact hw), hfile]

/-- A block of 512 bytes or more in order. -/
theorem handleData_long (s : St) (p : DataPacket) (h : Nat) (f : MemoryFile)
    (hk1 : 1 ≤ s.ctx.block) (hfile : s.ctx.file = some h) (hobj : s.store.objs[h]? = some f)
    (hsize : (s.ctx.block - 1) * 512 ≤ f.data.length)
    (hw : WriteToUDP s.ctx.conn = true) (hb : p.block = s.ctx.block)
    (hlen : 512 ≤ p.data.length) :
    handleData s (.data p)
      = .ret false
          { ctx := { state := s.ctx.state, conn := s.ctx.conn, raddr := s.ctx.raddr,
                     block := (s.ctx.block + 1) % 65536, file := s.ctx.file,
                     activeTx := true, lastBlock := s.ctx.lastBlock },
            store := { objs := s.store.objs.set h
                        { data := overwrite f.data ((s.ctx.block - 1) * 512) p.data,
                          name := f.name },
                       files := s.store.files },
            log := s.log ++ confirmed s.ctx.activeTx
                    ++ [.write s.ctx.raddr (newAck s.ctx.block).bytes false] } := by
  have hwr := Store_WriteAt_at s.store h f p.data s.ctx.block hobj hk1 hsize
  have hl : ¬ p.data.length < 512 := by omega
  simp only [handleData, hb, ne_eq, not_true_eq_false, if_false, hfile]
  rw [hwr]
  simp only [hl, if_false, confirm_eq]
  rw [send_retransmit _ _ (by exact hw)]
  simp only [Bool.not_true, Bool.false_eq_true, if_false]
  rw [hfile]

/-- C18. One step of the DATA handler, for a session that waits for block
`k` with `1 ≤ k ≤ 65535`, whose file holds at least `(k - 1) * 512` bytes and
whose connection accepts writes. `DATA(k, payload)` writes the payload at
offset `(k - 1) * 512`, confirms the previous ACK (`activeTx` is cleared) and
answers with one `Ack(k)`. For a payload shorter than 512 bytes the reply is
sent once, `activeTx` stays false, `block` stays `k`, the handler returns
true. Otherwise the reply is sent with retransmission, `activeTx` is true,
the handler returns false and `block` is `k + 1` for `k < 65535`, and `0` for
`k = 65535`. A `DATA(j, payload)` with `j ≠ k` returns false and leaves the
whole state, store and log included, as it was. In state `WRQ` this handler is
what `process` calls for a DATA packet. -/
theorem data_step (s : St) (p : DataPacket) (h : Nat) (f : MemoryFile) (k : Nat)
    (hk : s.ctx.block = k) (hk1 : 1 ≤ k) (hk16 : k < 65536)
    (hfile : s.ctx.file = some h) (hobj : s.store.objs[h]? = some f)
    (hsize : (k - 1) * 512 ≤ f.data.length) (hw : WriteToUDP s.ctx.conn = true) :
    (p.block = k → p.data.length < 512 →
      handleData s (.data p)
        = .ret true
            { ctx := { state := s.ctx.state, conn := s.ctx.conn, raddr := s.ctx.raddr,
                       block := k, file := s.ctx.file, activeTx := false,
                       lastBlock := s.ctx.lastBlock },
              store := { objs := s.store.objs.set h
                          { data := overwrite f.data ((k - 1) * 512) p.data, name := f.name },
                         files := s.store.files },
              log := s.log ++ confirmed s.ctx.activeTx
                      ++ [.write s.ctx.raddr (newAck k).bytes true] })
    ∧ (p.block = k → 512 ≤ p.data.length →
      handleData s (.data p)
        = .ret false
            { ctx := { state := s.ctx.state, conn := s.ctx.conn, raddr := s.ctx.raddr,
                       block := if k < 65535 then k + 1 else 0, file := s.ctx.file,
                       activeTx := true, lastBlock := s.ctx.lastBlock },
              store := { objs := s.store.objs.set h
                          { data := overwrite f.data ((k - 1) * 512) p.data, name := f.name },
                         files := s.store.files },
              log := s.log ++ confirmed s.ctx.activeTx
                      ++ [.write s.ctx.raddr (newAck k).bytes false] })
    ∧ (p.block ≠ k → handleData s (.data p) = .ret false s)
    ∧ (s.ctx.state = .WRQ → process loopHandlers s (.data p) = handleData s (.data p)) := by
  subst hk
  refine ⟨?_, ?_, ?_, ?_⟩
  · intro hb hlen
    rw [handleData_short s p h f hk1 hfile hobj hsize hw hb hlen]
  · intro hb hlen
    rw [handleData_long s p h f hk1 hfile hobj hsize hw hb hlen]
    have hm : (s.ctx.block + 1) % 65536 = if s.ctx.block < 65535 then s.ctx.block + 1 else 0 := by
      split_ifs with hlt
      · exact Nat.mod_eq_of_lt (by omega)
      · have : s.ctx.block = 65535 := by omega
        rw [this]
    rw [hm]
  · intro hb
    have hne : s.ctx.block ≠ p.block := fun e => hb e.symm
    simp only [handleData, hne, ne_eq, not_false_eq_true, if_true]
  · intro hst
    rw [process_accept loopHandlers s _ (by
      rw [hst]
      exact (by decide : (Data, SessionState.WRQ) ∈ legalPairs))]
    simp only [Packet.OpCode, loopHandlers, ReadReq, WriteReq, Data, Nat.reduceEqDiff,
      if_false, if_true]

theorem data_step_witness :
    (wrqSession.ctx.block = 1 ∧ 1 ≤ 1 ∧ 1 < 65536 ∧ wrqSession.ctx.file = some 0
      ∧ wrqSession.store.objs[0]? = some ⟨[], [102]⟩
      ∧ (1 - 1) * 512 ≤ (⟨[], [102]⟩ : MemoryFile).data.length
      ∧ WriteToUDP wrqSession.ctx.conn = true
      ∧ (⟨Data, 1, [104, 105]⟩ : DataPacket).block = 1
      ∧ (⟨Data, 1, [104, 105]⟩ : DataPacket).data.length < 512)
    ∧ handleData wrqSession (.data ⟨Data, 1, [104, 105]⟩)
        = .ret true
            { ctx := { state := wrqSession.ctx.state, conn := wrqSession.ctx.conn,
                       raddr := wrqSession.ctx.raddr, block := 1, file := wrqSession.ctx.file,
                       activeTx := false, lastBlock := wrqSession.ctx.lastBlock },
              store := { objs := wrqSession.store.objs.set 0
                          { data := overwrite (⟨[], [102]⟩ : MemoryFile).data ((1 - 1) * 512)
                              (⟨Data, 1, [104, 105]⟩ : DataPacket).data,
                            name := (⟨[], [102]⟩ : MemoryFile).name },
                         files := wrqSession.store.files },
              log := wrqSession.log ++ confirmed wrqSession.ctx.activeTx
                      ++ [.write wrqSession.ctx.raddr (newAck 1).bytes true] } :=
  ⟨by decide, (data_step wrqSession ⟨Data, 1, [104, 105]⟩ 0 ⟨[], [102]⟩ 1 rfl (by decide)
    (by decide) rfl rfl (by decide) rfl).1 rfl (by decide)⟩

/-- C18 as stated fails at `k = 65535`: a session in state `WRQ` that waits
for block 65535 of a file holding `65534 * 512` bytes accepts `DATA(65535)`
with a payload of 512 bytes, returns false, and its `block` is then `0`, not
`65536`. -/
theorem data_step_counterexample :
    wrapSession.ctx.state = .WRQ ∧ wrapSession.ctx.block = 65535
    ∧ Store.content wrapSession.store 0 = some bigFile
    ∧ (65535 - 1) * 512 ≤ bigFile.length
    ∧ ∃ s1, handleData wrapSession (.data ⟨Data, 65535, make 512⟩) = .ret false s1
        ∧ s1.ctx.block = 0 ∧ s1.ctx.block ≠ 65535 + 1 := by
  have hlen := bigFile_length
  refine ⟨rfl, rfl, rfl, by omega, ?_⟩
  have hstep := handleData_long wrapSession ⟨Data, 65535, make 512⟩ 0 ⟨bigFile, [102]⟩
    (by decide) rfl rfl (by simp only [wrapSession]; omega) rfl rfl
    (by simp only [make_length]; omega)
  exact ⟨_, hstep, rfl, by decide⟩

/-- C19. A second copy of the last DATA block. Let a session wait for block
`k ≥ 1` with a file of at least `(k - 1) * 512` bytes, and let `DATA(k, p)`
with `len p < 512` be handled: the handler returns true in a state `s1`.
Handling the same `DATA(k, p)` again in `s1` returns true and sends one
`Ack(k)` once, without retransmission task; the context (so `block` and
`activeTx`) and the store (so the content and the size of the file) are those
of `s1`, and nothing else is added to the log. -/
theorem duplicate_last_data (s : St) (p : DataPacket) (h : Nat) (f : MemoryFile)
    (hk1 : 1 ≤ s.ctx.block) (hfile : s.ctx.file = some h) (hobj : s.store.objs[h]? = some f)
    (hsize : (s.ctx.block - 1) * 512 ≤ f.data.length)
    (hw : WriteToUDP s.ctx.conn = true) (hb : p.block = s.ctx.block)
    (hlen : p.data.length < 512) :
    ∃ s1, handleData s (.data p) = .ret true s1
      ∧ s1.ctx.block = s.ctx.block
      ∧ Store.content s1.store h = some (overwrite f.data ((s.ctx.block - 1) * 512) p.data)
      ∧ handleData s1 (.data p)
          = .ret true { ctx := s1.ctx, store := s1.store,
                        log := s1.log ++ [.write s.ctx.raddr (newAck s.ctx.block).bytes true] } := by
  have hlt : h < s.store.objs.length := by
    by_contra hc
    rw [List.getElem?_eq_none (by omega)] at hobj
    cases hobj
  have hget : (s.store.objs.set h
      { data := overwrite f.data ((s.ctx.block - 1) * 512) p.data, name := f.name })[h]?
      = some { data := overwrite f.data ((s.ctx.block - 1) * 512) p.data, name := f.name } :=
    List.getElem?_set_self hlt
  have hsz : (s.ctx.block - 1) * 512
      ≤ (overwrite f.data ((s.ctx.block - 1) * 512) p.data).length := by
    have := overwrite_length f.data p.data _ hsize
    omega
  have h2 := handleData_short
    { ctx := { s.ctx with activeTx := false },
      store := { objs := s.store.objs.set h
                  { data := overwrite f.data ((s.ctx.block - 1) * 512) p.data, name := f.name },
                 files := s.store.files },
      log := s.log ++ confirmed s.ctx.activeTx
              ++ [.write s.ctx.raddr (newAck s.ctx.block).bytes true] }
    p h { data := overwrite f.data ((s.ctx.block - 1) * 512) p.data, name := f.name }
    hk1 hfile hget hsz hw hb hlen
  refine ⟨_, handleData_short s p h f hk1 hfile hobj hsize hw hb hlen, rfl, ?_, ?_⟩
  · simp only [Store.content, hget, Option.map_some']
  · rw [h2]
    simp only [overwrite_idem f.data p.data _ hsize, List.set_set, confirmed,
      Bool.false_eq_true, if_false, List.append_nil]

theorem duplicate_last_data_witness :
    (1 ≤ wrqSession.ctx.block ∧ wrqSession.ctx.file = some 0
      ∧ wrqSession.store.objs[0]? = some ⟨[], [102]⟩
      ∧ (wrqSession.ctx.block - 1) * 512 ≤ (⟨[], [102]⟩ : MemoryFile).data.length
      ∧ WriteToUDP wrqSession.ctx.conn = true
      ∧ (⟨Data, 1, [104, 105]⟩ : DataPacket).block = wrqSession.ctx.block
      ∧ (⟨Data, 1, [104, 105]⟩ : DataPacket).data.length < 512)
    ∧ ∃ s1, handleData wrqSession (.data ⟨Data, 1, [104, 105]⟩) = .ret true s1
      ∧ s1.ctx.block = wrqSession.ctx.block
      ∧ Store.content s1.store 0
          = some (overwrite (⟨[], [102]⟩ : MemoryFile).data ((wrqSession.ctx.block - 1) * 512)
              (⟨Data, 1, [104, 105]⟩ : DataPacket).data)
      ∧ handleData s1 (.data ⟨Data, 1, [104, 105]⟩)
          = .ret true { ctx := s1.ctx, store := s1.store,
                        log := s1.log ++ [.write wrqSession.ctx.raddr
                          (newAck wrqSession.ctx.block).bytes true] } :=
  ⟨by decide, duplicate_last_data wrqSession ⟨Data, 1, [104, 105]⟩ 0 ⟨[], [102]⟩ (by decide)
    rfl rfl (by decide) rfl rfl (by decide)⟩

/-! ## Sends and confirmations alternate -/

theorem replay_append (l m : List Action) :
    ∀ a, replay a (l ++ m) = (replay a l).bind (fun b => replay b m) := by
  induction l with
  | nil => intro a; rfl
  | cons x rest ih =>
    intro a
    cases x with
    | confirm =>
      cases a
      · rfl
      · simp only [List.cons_append, replay, if_true]
        exact ih false
    | write dst b once =>
      cases once
      · cases a
        · simp only [List.cons_append, replay, Bool.false_eq_true, if_false]
          exact ih true
        · rfl
      · simp only [List.cons_append, replay]
        exact ih a

theorem replay_active (l : List Action) (hl : Action.confirm ∉ l) :
    ∀ b, replay true l = some b → b = true := by
  induction l with
  | nil =>
    intro b h
    simp only [replay, Option.some.injEq] at h
    exact h.symm
  | cons x rest ih =>
    intro b h
    cases x with
    | confirm => exact absurd (List.mem_cons_self _ _) hl
    | write dst p once =>
      cases once
      · simp [replay] at h
      · simp only [replay] at h
        exact ih (fun hm => hl (List.mem_cons_of_mem _ hm)) b h

/-- In a log that replays, a confirmation lies between any two sends with
retransmission. -/
theorem replay_between (a b : Bool) (l1 l2 l3 : List Action) (d1 d2 : UDPAddr) (p1 p2 : Bytes)
    (h : replay a (l1 ++ .write d1 p1 false :: (l2 ++ .write d2 p2 false :: l3)) = some b) :
    Action.confirm ∈ l2 := by
  by_contra hno
  rw [replay_append] at h
  cases h1 : replay a l1 with
  | none => simp [h1] at h
  | some a1 =>
    simp only [h1, Option.some_bind] at h
    cases a1
    · simp only [replay, Bool.false_eq_true, if_false] at h
      rw [replay_append] at h
      cases h2 : replay true l2 with
      | none => simp [h2] at h
      | some a2 =>
        have := replay_active l2 hno a2 h2
        subst this
        simp [h2, replay] at h
    · simp [replay] at h

/-- C20. Send/confirm alternation. In the state a session ends in, or is
blocked in, whatever the request and the datagrams it was given, the log
replays from `activeTx = false` to the value `activeTx` has at the end: each
send with retransmission (`once = false`) was made while `activeTx` was false
and set it, each confirmation found it true and cleared it. So between any two
sends with retransmission of the log lies a confirmation, and at most one
retransmission task is outstanding. A send with `once = true` leaves the
context, `activeTx` included, as it was. -/
theorem send_confirm_alternation (env : Env) (conn : Option UDPConn) (raddr : UDPAddr)
    (store : Store) (pkt : Packet) :
    (session env conn raddr store pkt).holds (fun s1 =>
        replay false s1.log = some s1.ctx.activeTx
        ∧ ∀ l1 l2 l3 d1 d2 p1 p2,
            s1.log = l1 ++ .write d1 p1 false :: (l2 ++ .write d2 p2 false :: l3) →
              Action.confirm ∈ l2)
    ∧ ∀ (s : St) (q : Packet), (send s q true).2.ctx = s.ctx := by
  constructor
  · refine Res.holds_mono _ (fun s1 h => ⟨h, ?_⟩)
      (session_log (fun a l => replay false l = some a) (fun _ => True) ?_ ?_ ?_
        (fun _ _ => trivial) trivial env conn raddr store pkt (fun _ _ _ => trivial) rfl)
    · intro l1 l2 l3 d1 d2 p1 p2 e
      rw [e] at h
      exact replay_between _ _ _ _ _ _ _ _ _ h
    · intro l h
      rw [replay_append, h]
      rfl
    · intro a l dst b _ h
      rw [replay_append, h]
      rfl
    · intro l dst b _ h
      rw [replay_append, h]
      rfl
  · intro s q
    rcases send_once_cases s q with e | e
    · rw [e]
    · rw [e]

end Tftpd
